import Mathlib

/-!
# pretty-output: a verification development

A shallow embedding of the Go packages `parser`, `store`, `formatter` and `ui`
of the terminal log viewer, followed by theorems about them.

Conventions of the embedding

* A Go `string` is modelled by the sequence of its code points (`GoString`); the
  input is UTF-8 text, and the byte-wise order Go uses to compare strings is, on
  UTF-8 text, the lexicographic order of the code points.
* A Go `map[string]T` is modelled by an association list with one pair per key
  (`mapGet`, `mapSet`); the order of the pairs stands for the unspecified
  iteration order of the map.
* Methods with a pointer receiver become functions returning the new state.
* The mutex of the store is not modelled: each operation is one atomic step.
* The standard library is modelled where the program depends on what it computes
  (`regexp`, `strings`, `sort`, `strconv`, `encoding/json`); the renderings of the
  `lipgloss` styles, the Unicode tables and the `%g` printing of floats are parameters
  (`Extern`).
-/

/-- A Go string, as the sequence of its code points. -/
abbrev GoString := List Char

/-! ## Go maps -/

/-- The lookup `m[k]` with the comma-ok flag: `none` when `k` is not a key. -/
def mapGet {β : Type} : List (GoString × β) → GoString → Option β
  | [], _ => none
  | (k', v) :: t, k => if k' = k then some v else mapGet t k

/-- The assignment `m[k] = v`: replaces the value of an existing key, adds a new pair otherwise. -/
def mapSet {β : Type} : List (GoString × β) → GoString → β → List (GoString × β)
  | [], k, v => [(k, v)]
  | (k', v') :: t, k, v => if k' = k then (k', v) :: t else (k', v') :: mapSet t k v

/-- The keys of a map. -/
def mapKeys {β : Type} (m : List (GoString × β)) : List GoString := m.map Prod.fst

/-- The library function `sort.Strings`: sorts in ascending order. -/
def sortStrings (l : List GoString) : List GoString := l.insertionSort (· ≤ ·)

/-! ## Decoded JSON values -/

/-- A finite IEEE-754 binary64 number, `(-1)^neg * mant * 2^exp`. -/
structure Float64 where
  neg : Bool
  mant : Nat
  exp : Int
  deriving DecidableEq, Repr

/-- The dynamic values `encoding/json` stores in an `any`:
`map[string]any`, `[]any`, `string`, `float64`, `bool` and `nil`. -/
inductive JValue where
  | obj (m : List (GoString × JValue))
  | arr (l : List JValue)
  | str (s : GoString)
  | num (f : Float64)
  | bool (b : Bool)
  | null
  deriving Repr

namespace parser

/-- The struct `parser.Entry`: a parsed log line. A nil `JSON` map is `none`. -/
structure Entry where
  Container : GoString
  Content : GoString
  IsJSON : Bool
  JSON : Option (List (GoString × JValue))
  deriving Repr

end parser

/-! ## The library `regexp`

Go matches a pattern the way a backtracking search would (leftmost-first): alternatives
are tried in priority order, greedy repetitions longest first, and the first success is
the match. The patterns of the program only repeat single-character classes. -/

namespace regexp

/-- The regular expressions the program uses, as syntax trees. -/
inductive Regexp where
  /-- One character of a class (a literal character is a class of one). -/
  | cls (p : Char → Bool)
  /-- Concatenation. -/
  | seq (r s : Regexp)
  /-- Greedy repetition `c*` of a single-character class. -/
  | star (p : Char → Bool)
  /-- Greedy option `(?:r)?`. -/
  | opt (r : Regexp)
  /-- Capturing group number `i`. -/
  | group (i : Nat) (r : Regexp)
  /-- Beginning of text, `^`. -/
  | bot
  /-- End of text, `$`. -/
  | eot

/-- Greedy `c+`, that is `cc*`. -/
def Regexp.plus (p : Char → Bool) : Regexp := .seq (.cls p) (.star p)

/-- The submatches recorded so far, latest first: group number and captured text. -/
abbrev Caps := List (Nat × GoString)

/-- The greedy loop of `c*`: take as many characters of the class as possible, and give
them back one at a time while the rest of the pattern (`k`) fails. -/
def starLoop {α : Type} (p : Char → Bool) (k : GoString → Option α) : GoString → Option α
  | [] => k []
  | c :: cs =>
    if p c then
      match starLoop p k cs with
      | some r => some r
      | none => k (c :: cs)
    else k (c :: cs)

/-- The backtracking matcher. `run r n t caps k` matches `r` against a prefix of `t`, the
part of a text of length `n` not yet consumed, and hands the rest of the text and the
submatches to the continuation `k`, the rest of the pattern. -/
def Regexp.run {α : Type} : Regexp → Nat → GoString → Caps →
    (GoString → Caps → Option α) → Option α
  | .cls _, _, [], _, _ => none
  | .cls p, _, c :: cs, caps, k => if p c then k cs caps else none
  | .seq r s, n, t, caps, k => r.run n t caps (fun t' caps' => s.run n t' caps' k)
  | .star p, _, t, caps, k => starLoop p (fun t' => k t' caps) t
  | .opt r, n, t, caps, k =>
    match r.run n t caps k with
    | some res => some res
    | none => k t caps
  | .group i r, n, t, caps, k =>
    r.run n t caps (fun t' caps' => k t' ((i, t.take (t.length - t'.length)) :: caps'))
  | .bot, n, t, caps, k => if t.length = n then k t caps else none
  | .eot, _, t, caps, k => if t = [] then k t caps else none

/-- A match starting exactly where `t` starts, in a text of length `n`: the text after the
match and the submatches. -/
def Regexp.matchAt (re : Regexp) (n : Nat) (t : GoString) : Option (GoString × Caps) :=
  re.run n t [] (fun t' caps => some (t', caps))

/-- The leftmost match in `t`, the end of a text of length `n`: the text from the start of
the match, the text after the match, and the submatches. -/
def Regexp.search (re : Regexp) (n : Nat) : GoString → Option (GoString × GoString × Caps)
  | [] => (re.matchAt n []).map (fun r => ([], r.1, r.2))
  | c :: cs =>
    match re.matchAt n (c :: cs) with
    | some r => some (c :: cs, r.1, r.2)
    | none => re.search n cs

/-- The text of group `i`; empty when the group took no part in the match. -/
def capture (caps : Caps) (i : Nat) : GoString :=
  match caps.find? (fun c => c.1 == i) with
  | some c => c.2
  | none => []

/-- The method `Regexp.MatchString`: does the text contain a match? -/
def Regexp.MatchString (re : Regexp) (s : GoString) : Bool := (re.search s.length s).isSome

/-- The method `Regexp.FindStringSubmatch` for a pattern with `groups` groups: the text of
the leftmost match followed by the texts of its groups; `none` is the nil result. -/
def Regexp.FindStringSubmatch (re : Regexp) (groups : Nat) (s : GoString) :
    Option (List GoString) :=
  match re.search s.length s with
  | some (start, rest, caps) =>
    some (start.take (start.length - rest.length)
      :: (List.range groups).map (fun i => capture caps (i + 1)))
  | none => none

/-- The loop of `ReplaceAllString` with the empty replacement, over `t`, the end of a text
of length `n`: the matches are looked for from left to right, each search resuming where
the previous match ended; `skip` counts the characters of the current match still to drop. -/
def Regexp.removeAll (re : Regexp) (n : Nat) : Nat → GoString → GoString
  | _, [] => []
  | skip + 1, _ :: cs => re.removeAll n skip cs
  | 0, c :: cs =>
    match re.matchAt n (c :: cs) with
    | some (rest, _) =>
      if (c :: cs).length - rest.length = 0 then c :: re.removeAll n 0 cs
      else re.removeAll n ((c :: cs).length - rest.length - 1) cs
    | none => c :: re.removeAll n 0 cs

/-- The method `Regexp.ReplaceAllString(src, "")`. -/
def Regexp.ReplaceAllString (re : Regexp) (src : GoString) : GoString :=
  re.removeAll src.length 0 src

end regexp

/-! ## The library `strings` -/

namespace strings

/-- The predicate `unicode.IsSpace`. -/
def isSpace (c : Char) : Bool :=
  c == '\t' || c == '\n' || c == '\x0b' || c == '\x0c' || c == '\r' || c == ' ' ||
  c.toNat == 0x85 || c.toNat == 0xA0 || c.toNat == 0x1680 ||
  (0x2000 ≤ c.toNat && c.toNat ≤ 0x200A) ||
  c.toNat == 0x2028 || c.toNat == 0x2029 || c.toNat == 0x202F || c.toNat == 0x205F ||
  c.toNat == 0x3000

/-- The function `strings.TrimSpace`: drops the leading and the trailing white space. -/
def TrimSpace (s : GoString) : GoString :=
  ((s.dropWhile isSpace).reverse.dropWhile isSpace).reverse

/-- The function `strings.Repeat`. -/
def Repeat (s : GoString) (count : Nat) : GoString := (List.replicate count s).flatten

/-- The function `strings.Join`. -/
def Join : List GoString → GoString → GoString
  | [], _ => []
  | [a], _ => a
  | a :: b :: t, sep => a ++ sep ++ Join (b :: t) sep

/-- Does `s` begin with `sub`? -/
def hasPrefix : GoString → GoString → Bool
  | _, [] => true
  | [], _ :: _ => false
  | c :: s, d :: sub => c == d && hasPrefix s sub

/-- The function `strings.Contains`: is `substr` within `s`? -/
def Contains : GoString → GoString → Bool
  | [], substr => substr.isEmpty
  | c :: s, substr => hasPrefix (c :: s) substr || Contains s substr

end strings

/-! ## The library `strconv`: decimal text to `float64` -/

namespace strconv

/-- The number a run of decimal digits denotes. -/
def digitsToNat (ds : GoString) : Nat := ds.foldl (fun n c => 10 * n + (c.toNat - 48)) 0

/-- The position of the leading binary digit of a positive number: `⌊log₂ n⌋`. -/
def log2 (n : Nat) : Nat := (Nat.toDigits 2 n).length - 1

/-- Is `num / den` at least `2 ^ e`? -/
def geTwoPow (num den : Nat) (e : Int) : Bool :=
  if 0 ≤ e then decide (den * 2 ^ e.toNat ≤ num) else decide (den ≤ num * 2 ^ (-e).toNat)

/-- The binary64 number nearest to the positive rational `num / den`, ties to the even
significand; `none` when the result overflows (is at least `2 ^ 1024`). -/
def roundFloat64 (neg : Bool) (num den : Nat) : Option Float64 :=
  if num = 0 then some ⟨neg, 0, 0⟩ else
  let e₀ : Int := (log2 num : Int) - (log2 den : Int)
  let e : Int := if geTwoPow num den e₀ then e₀ else e₀ - 1
  let q : Int := max (e - 52) (-1074)
  let n' : Nat := if 0 ≤ q then num else num * 2 ^ (-q).toNat
  let d' : Nat := if 0 ≤ q then den * 2 ^ q.toNat else den
  let m : Nat := n' / d'
  let r : Nat := n' % d'
  let m' : Nat := if d' < 2 * r ∨ (2 * r = d' ∧ m % 2 = 1) then m + 1 else m
  if m' = 2 ^ 53 then (if q + 1 + 52 < 1024 then some ⟨neg, 2 ^ 52, q + 1⟩ else none)
  else if m' = 0 then some ⟨neg, 0, 0⟩
  else if q + 52 < 1024 then some ⟨neg, m', q⟩ else none

/-- The function `strconv.ParseFloat(s, 64)` on a number of the JSON grammar, given by its
sign, its digits before and after the point, and its exponent. -/
def ParseFloat (neg : Bool) (int frac : GoString) (exp : Int) : Option Float64 :=
  let n := digitsToNat (int ++ frac)
  let e : Int := exp - frac.length
  if 0 ≤ e then roundFloat64 neg (n * 10 ^ e.toNat) 1 else roundFloat64 neg n (10 ^ (-e).toNat)

end strconv

/-! ## The library `encoding/json` -/

namespace json

/-- The tokens of a JSON text; strings, numbers and the three literals come decoded. -/
inductive Token where
  | lbrace | rbrace | lbrack | rbrack | colon | comma
  | val (v : JValue)

/-- The value of a hexadecimal digit. -/
def hexVal (c : Char) : Option Nat :=
  if c.isDigit then some (c.toNat - 48)
  else if 'a' ≤ c ∧ c ≤ 'f' then some (c.toNat - 87)
  else if 'A' ≤ c ∧ c ≤ 'F' then some (c.toNat - 55)
  else none

/-- The function `getu4` on the four characters after a backslash-u. -/
def getu4 (a b c d : Char) : Option Nat :=
  match hexVal a, hexVal b, hexVal c, hexVal d with
  | some x, some y, some z, some w => some (((x * 16 + y) * 16 + z) * 16 + w)
  | _, _, _, _ => none

/-- The low surrogate of an escape at the head of the text, if there is one. -/
def lowSurrogate : GoString → Option Nat
  | '\\' :: 'u' :: a :: b :: c :: d :: _ =>
    match getu4 a b c d with
    | some lo => if 0xDC00 ≤ lo ∧ lo < 0xE000 then some lo else none
    | none => none
  | _ => none

/-- The function `unquote` on the inside of a string literal: resolves the escapes; a
surrogate half without its other half becomes U+FFFD. `skip` counts the characters of an
escape already resolved. -/
def unquoteLoop : Nat → GoString → Option GoString
  | _, [] => some []
  | skip + 1, _ :: t => unquoteLoop skip t
  | 0, '\\' :: t =>
    match t with
    | 'u' :: a :: b :: c :: d :: t' =>
      match getu4 a b c d with
      | none => none
      | some rr =>
        if 0xD800 ≤ rr ∧ rr < 0xDC00 then
          match lowSurrogate t' with
          | some lo =>
            (unquoteLoop 11 t).map
              (fun s => Char.ofNat (0x10000 + (rr - 0xD800) * 0x400 + (lo - 0xDC00)) :: s)
          | none => (unquoteLoop 5 t).map (fun s => Char.ofNat 0xFFFD :: s)
        else if 0xDC00 ≤ rr ∧ rr < 0xE000 then
          (unquoteLoop 5 t).map (fun s => Char.ofNat 0xFFFD :: s)
        else (unquoteLoop 5 t).map (fun s => Char.ofNat rr :: s)
    | e :: _ =>
      let r : Option Char :=
        if e = '"' ∨ e = '\\' ∨ e = '/' then some e
        else if e = 'b' then some '\x08' else if e = 'f' then some '\x0c'
        else if e = 'n' then some '\n' else if e = 'r' then some '\r'
        else if e = 't' then some '\t' else none
      match r with
      | some ch => (unquoteLoop 1 t).map (fun s => ch :: s)
      | none => none
    | [] => none
  | 0, c :: t => (unquoteLoop 0 t).map (fun s => c :: s)

/-- The function `unquote`. -/
def unquote (s : GoString) : Option GoString := unquoteLoop 0 s

/-- A number of the JSON grammar, converted by `convertNumber`; `none` when the text is
not a number or does not fit a `float64`. -/
def number (w : GoString) : Option Float64 :=
  let neg := w.head? = some '-'
  let w₁ := if neg then w.drop 1 else w
  let int := w₁.takeWhile Char.isDigit
  let w₂ := w₁.dropWhile Char.isDigit
  if int = [] ∨ (int.head? = some '0' ∧ int.length ≠ 1) then none else
  let hasFrac := w₂.head? = some '.'
  let frac := if hasFrac then (w₂.drop 1).takeWhile Char.isDigit else []
  let w₃ := if hasFrac then (w₂.drop 1).dropWhile Char.isDigit else w₂
  if hasFrac ∧ frac = [] then none else
  match w₃ with
  | [] => strconv.ParseFloat neg int frac 0
  | e :: w₄ =>
    if e = 'e' ∨ e = 'E' then
      let eneg := w₄.head? = some '-'
      let w₅ := if w₄.head? = some '-' ∨ w₄.head? = some '+' then w₄.drop 1 else w₄
      if w₅ = [] ∨ ¬ w₅.all Char.isDigit then none
      else strconv.ParseFloat neg int frac
        (if eneg then -(strconv.digitsToNat w₅ : Int) else (strconv.digitsToNat w₅ : Int))
    else none

/-- The token a run of characters outside strings stands for: a literal or a number. -/
def word (w : GoString) : Option Token :=
  if w = ['t', 'r', 'u', 'e'] then some (.val (.bool true))
  else if w = ['f', 'a', 'l', 's', 'e'] then some (.val (.bool false))
  else if w = ['n', 'u', 'l', 'l'] then some (.val .null)
  else (number w).map (fun f => .val (.num f))

/-- The state of the scanner between two characters. -/
inductive Mode where
  /-- Between tokens. -/
  | idle
  /-- Within a literal or a number; the characters read, latest first. -/
  | word (acc : GoString)
  /-- Within a string; the characters read, latest first, and whether the last one is an
  unpaired backslash. -/
  | str (acc : GoString) (esc : Bool)

/-- The white space of JSON. -/
def isSpace (c : Char) : Bool := c == ' ' || c == '\t' || c == '\r' || c == '\n'

/-- One character read between tokens. -/
def idleStep (toks : List Token) (c : Char) : List Token × Mode :=
  if isSpace c then (toks, .idle)
  else if c = '{' then (.lbrace :: toks, .idle)
  else if c = '}' then (.rbrace :: toks, .idle)
  else if c = '[' then (.lbrack :: toks, .idle)
  else if c = ']' then (.rbrack :: toks, .idle)
  else if c = ':' then (.colon :: toks, .idle)
  else if c = ',' then (.comma :: toks, .idle)
  else if c = '"' then (toks, .str [] false)
  else (toks, .word [c])

/-- Does `c` end a literal or a number? -/
def isDelim (c : Char) : Bool :=
  isSpace c || c == '{' || c == '}' || c == '[' || c == ']' || c == ':' || c == ',' || c == '"'

/-- One character read by the scanner; the tokens are kept latest first. -/
def lexStep (st : Option (List Token × Mode)) (c : Char) : Option (List Token × Mode) :=
  match st with
  | none => none
  | some (toks, .idle) => some (idleStep toks c)
  | some (toks, .word acc) =>
    if isDelim c then (word acc.reverse).map (fun tok => idleStep (tok :: toks) c)
    else some (toks, .word (c :: acc))
  | some (toks, .str acc esc) =>
    if esc then some (toks, .str (c :: acc) false)
    else if c = '"' then (unquote acc.reverse).map (fun s => (.val (.str s) :: toks, .idle))
    else if c = '\\' then some (toks, .str (c :: acc) true)
    else if c.toNat < 0x20 then none
    else some (toks, .str (c :: acc) false)

/-- The tokens of a text, in order; `none` when a token is malformed. -/
def tokenize (data : GoString) : Option (List Token) :=
  match data.foldl lexStep (some ([], .idle)) with
  | some (toks, .idle) => some toks.reverse
  | some (toks, .word acc) => (word acc.reverse).map (fun tok => (tok :: toks).reverse)
  | _ => none

/-- What an open array expects next. -/
inductive ArrState where
  | first | value | comma

/-- What an open object expects next. -/
inductive ObjState where
  | first | key | colon (k : GoString) | value (k : GoString) | comma

/-- An open array, with its elements latest first, or an open object with its members. -/
inductive Frame where
  | arr (elems : List JValue) (st : ArrState)
  | obj (members : List (GoString × JValue)) (st : ObjState)

/-- The parse state: the open arrays and objects, innermost first, and the top-level
value once it is complete. -/
structure Machine where
  stack : List Frame
  result : Option JValue

/-- The nesting limit of the scanner. -/
def maxNestingDepth : Nat := 10000

/-- A complete value arrives where a value is expected. -/
def deliver (v : JValue) (m : Machine) : Option Machine :=
  match m.stack with
  | [] => if m.result.isNone then some { m with result := some v } else none
  | .arr elems .first :: rest => some { m with stack := .arr (v :: elems) .comma :: rest }
  | .arr elems .value :: rest => some { m with stack := .arr (v :: elems) .comma :: rest }
  | .obj members (.value k) :: rest =>
    some { m with stack := .obj (mapSet members k v) .comma :: rest }
  | _ => none

/-- Is a value expected next? -/
def expectsValue (m : Machine) : Bool :=
  match m.stack with
  | [] => m.result.isNone
  | .arr _ .first :: _ => true
  | .arr _ .value :: _ => true
  | .obj _ (.value _) :: _ => true
  | _ => false

/-- One token read by the parser. -/
def parseStep (st : Option Machine) (tok : Token) : Option Machine :=
  match st with
  | none => none
  | some m =>
    match tok, m.stack with
    | .val (.str s), .obj members .first :: rest =>
      some { m with stack := .obj members (.colon s) :: rest }
    | .val (.str s), .obj members .key :: rest =>
      some { m with stack := .obj members (.colon s) :: rest }
    | .val v, _ => deliver v m
    | .lbrace, stack =>
      if expectsValue m ∧ stack.length < maxNestingDepth
      then some { m with stack := .obj [] .first :: stack } else none
    | .lbrack, stack =>
      if expectsValue m ∧ stack.length < maxNestingDepth
      then some { m with stack := .arr [] .first :: stack } else none
    | .rbrace, .obj members .first :: rest => deliver (.obj members) { m with stack := rest }
    | .rbrace, .obj members .comma :: rest => deliver (.obj members) { m with stack := rest }
    | .rbrack, .arr elems .first :: rest => deliver (.arr elems.reverse) { m with stack := rest }
    | .rbrack, .arr elems .comma :: rest => deliver (.arr elems.reverse) { m with stack := rest }
    | .colon, .obj members (.colon k) :: rest =>
      some { m with stack := .obj members (.value k) :: rest }
    | .comma, .arr elems .comma :: rest => some { m with stack := .arr elems .value :: rest }
    | .comma, .obj members .comma :: rest => some { m with stack := .obj members .key :: rest }
    | _, _ => none

/-- The value a JSON text denotes, as `any`; `none` when the text is not valid JSON or a
number of it does not fit a `float64`. -/
def decode (data : GoString) : Option JValue :=
  match tokenize data with
  | none => none
  | some toks =>
    match toks.foldl parseStep (some { stack := [], result := none }) with
    | some { stack := [], result := some v } => some v
    | _ => none

/-- The function `json.Unmarshal(data, &parsed)` for `parsed` a nil `map[string]any`:
`none` is an error, `some parsed` the map after a call without error (`some none` is the
nil map the text `null` leaves). The text is checked first; then the kind of the value is
read off its first character: an object fills the map, an array or another literal than
`null` cannot be stored in a map. -/
def Unmarshal (data : GoString) : Option (Option (List (GoString × JValue))) :=
  match decode data with
  | none => none
  | some v =>
    match data.dropWhile isSpace with
    | [] => none
    | c :: _ =>
      if c = '[' then none
      else if c = '{' then
        match v with
        | .obj m => some (some m)
        | _ => none
      else if c = 'n' then some none
      else none

end json

/-! ## Package `parser` -/

namespace parser

open regexp

/-- The class `[a-zA-Z0-9_-]`. -/
def isWordClass (c : Char) : Bool := c.isAlphanum || c == '_' || c == '-'

/-- The class `\s` of `regexp`: `[\t\n\f\r ]`. -/
def isSpaceClass (c : Char) : Bool :=
  c == '\t' || c == '\n' || c == '\x0c' || c == '\r' || c == ' '

/-- The class `.`: any character but the line feed. -/
def isAnyClass (c : Char) : Bool := c != '\n'

/-- The class `[0-9;]`. -/
def isParamClass (c : Char) : Bool := c.isDigit || c == ';'

/-- The pattern `^([a-zA-Z0-9_-]+(?:-\d+)?)\s+\|\s+(.*)$`. -/
def dockerComposePattern : Regexp :=
  .seq .bot
    (.seq (.group 1 (.seq (.plus isWordClass)
        (.opt (.seq (.cls (fun c => c == '-')) (.plus Char.isDigit)))))
      (.seq (.plus isSpaceClass)
        (.seq (.cls (fun c => c == '|'))
          (.seq (.plus isSpaceClass)
            (.seq (.group 2 (.star isAnyClass)) .eot)))))

/-- The end `\s+\|\s+(.*)$` of `dockerComposePattern`. -/
def tagTailPattern : Regexp :=
  .seq (.plus isSpaceClass)
    (.seq (.cls (fun c => c == '|'))
      (.seq (.plus isSpaceClass)
        (.seq (.group 2 (.star isAnyClass)) .eot)))

/-- The optional suffix `-\d+` of the tag in `dockerComposePattern`. -/
def tagSuffixPattern : Regexp := .seq (.cls (fun c => c == '-')) (.plus Char.isDigit)

/-- The pattern `\x1b\[[0-9;]*[a-zA-Z]`. -/
def ansiPattern : Regexp :=
  .seq (.cls (fun c => c == '\x1b'))
    (.seq (.cls (fun c => c == '['))
      (.seq (.star isParamClass) (.cls Char.isAlpha)))

/-- The text after an escape sequence at the head of `t`: what a match of `ansiPattern`
at the head of `t` leaves, read off the pattern. -/
def ansiPrefix : GoString → Option GoString
  | '\x1b' :: '[' :: t =>
    match t.dropWhile isParamClass with
    | l :: rest => if l.isAlpha then some rest else none
    | [] => none
  | _ => none

/-- The parser's ANSI stripping: `ansiPattern.ReplaceAllString(line, "")`. -/
def stripAnsi (line : GoString) : GoString := ansiPattern.ReplaceAllString line

/-- Does an escape sequence begin at the head of the text? -/
def startsSeq (t : GoString) : Bool := (ansiPattern.matchAt t.length t).isSome

/-- An unfinished escape sequence at the head of the text runs into an escape sequence: an
ESC, or an ESC with `[` and digits or semicolons, is followed at once by an escape
sequence instead of its letter. -/
def danglingAt : GoString → Bool
  | [] => false
  | c :: r =>
    c == '\x1b' &&
      (startsSeq r ||
        (r.head? == some '[' && startsSeq ((r.drop 1).dropWhile isParamClass)))

/-- No escape sequence of the text comes right after an unfinished one. -/
def noDangling : GoString → Bool
  | [] => true
  | c :: cs => !danglingAt (c :: cs) && noDangling cs

/-- The remainder of a line after its container tag, read off the end
`\s+\|\s+(.*)$` of `dockerComposePattern`: white space, a pipe, white space, and then
the remainder, which holds no line feed. -/
def tagRest (r : GoString) : Option GoString :=
  if r.takeWhile isSpaceClass = [] then none
  else
    match r.dropWhile isSpaceClass with
    | [] => none
    | c :: r₂ =>
      if c = '|' then
        if r₂.takeWhile isSpaceClass = [] then none
        else if (r₂.dropWhile isSpaceClass).all isAnyClass then some (r₂.dropWhile isSpaceClass)
        else none
      else none

/-- The split of a line at its container tag, read off `dockerComposePattern`: the tag is
the longest run of tag characters at the start of the line. -/
def splitTag (line : GoString) : Option (GoString × GoString) :=
  if line.takeWhile isWordClass = [] then none
  else (tagRest (line.dropWhile isWordClass)).map (fun r => (line.takeWhile isWordClass, r))

/-- The function `parseLine`. -/
def parseLine (line : GoString) : Entry :=
  -- Strip ANSI escape codes
  let line := ansiPattern.ReplaceAllString line
  let entry : Entry :=
    { Container := ['d', 'e', 'f', 'a', 'u', 'l', 't'], Content := line,
      IsJSON := false, JSON := none }
  -- Try to match docker compose format
  let entry : Entry :=
    match dockerComposePattern.FindStringSubmatch 2 line with
    | some submatches =>
      { entry with Container := submatches.getD 1 [], Content := submatches.getD 2 [] }
    | none => entry
  -- Try to parse as JSON
  let content := strings.TrimSpace entry.Content
  if content.length > 0 ∧ (content.head? = some '{' ∨ content.head? = some '[') then
    match json.Unmarshal content with
    | some parsed => { entry with IsJSON := true, JSON := parsed }
    | none => entry
  else entry

end parser

namespace store

open parser

/-- The struct `store.Store`, without its mutex. -/
structure Store where
  entries : List (GoString × List Entry)
  containers : List GoString

/-- The constructor `store.New`. -/
def New : Store := { entries := [], containers := [] }

/-- The method `Store.Add`. -/
def Store.Add (s : Store) (entry : Entry) : Store :=
  let containers :=
    if (mapGet s.entries entry.Container).isSome then s.containers
    else sortStrings (s.containers ++ [entry.Container])
  { entries := mapSet s.entries entry.Container
      ((mapGet s.entries entry.Container).getD [] ++ [entry]),
    containers := containers }

/-- The method `Store.Containers`: a copy of the name list. -/
def Store.Containers (s : Store) : List GoString := s.containers

/-- The method `Store.Entries`: a copy of `s.entries[container]`. -/
def Store.Entries (s : Store) (container : GoString) : List Entry :=
  (mapGet s.entries container).getD []

/-- The method `Store.EntryCount`: `len(s.entries[container])`. -/
def Store.EntryCount (s : Store) (container : GoString) : Nat :=
  ((mapGet s.entries container).getD []).length

/-- The method `Store.TotalEntries`: the loop adding up `len(entries)` over the map. -/
def Store.TotalEntries (s : Store) : Nat :=
  s.entries.foldl (fun total kv => total + kv.2.length) 0

/-- The store after a sequence of `Add` calls on a new store. -/
def addAll (es : List Entry) : Store := es.foldl Store.Add New

/-- The entries of `es` whose container is `c`, in the order of `es`. -/
def entriesOf (es : List Entry) (c : GoString) : List Entry :=
  es.filter (fun e => e.Container = c)

/-- The invariant linking a store to the sequence `es` of the entries added to it. -/
def StoreInv (s : Store) (es : List Entry) : Prop :=
  (mapKeys s.entries).Nodup ∧
  s.containers.Perm (mapKeys s.entries) ∧
  s.containers.Sorted (· ≤ ·) ∧
  (∀ c, (mapGet s.entries c).getD [] = entriesOf es c) ∧
  (∀ c, c ∈ mapKeys s.entries ↔ ∃ e ∈ es, e.Container = c)

end store

/-! ## What the program takes from its libraries

The renderings of the `lipgloss` styles depend on the terminal, and the Unicode tables and
the shortest-decimal printing of floats are large; the program is verified for every value
of these. -/

/-- The library behaviour the packages `formatter` and `ui` are parametrised by. -/
structure Extern where
  /-- The method `keyStyle.Render`. -/
  keyStyle : GoString → GoString
  /-- The method `stringStyle.Render`. -/
  stringStyle : GoString → GoString
  /-- The method `numberStyle.Render`. -/
  numberStyle : GoString → GoString
  /-- The method `boolStyle.Render`. -/
  boolStyle : GoString → GoString
  /-- The method `nullStyle.Render`. -/
  nullStyle : GoString → GoString
  /-- The method `bracketStyle.Render`. -/
  bracketStyle : GoString → GoString
  /-- The method `nonJSONStyle.Render`. -/
  nonJSONStyle : GoString → GoString
  /-- The method `helpStyle.Render`. -/
  helpStyle : GoString → GoString
  /-- The table of `strconv.IsPrint` for the characters above U+00FF. -/
  isPrintTable : Char → Bool
  /-- The table of `unicode.ToLower` for the characters above U+007F. -/
  toLowerTable : Char → Char
  /-- The verb `%g` of `fmt` on a `float64`. -/
  formatG : Float64 → GoString
  /-- The result of the conversion `int64(f)` when `f` is out of the range of `int64`, which
  the language leaves to the implementation. -/
  int64OutOfRange : Float64 → Int

namespace strconv

/-- The digit of `n` at hexadecimal position `i`, in lower case. -/
def hexDigit (n i : Nat) : Char := Nat.digitChar (n / 16 ^ i % 16)

/-- The predicate `strconv.IsPrint`. -/
def IsPrint (X : Extern) (r : Char) : Bool :=
  if r.toNat ≤ 0xFF then
    if 0x20 ≤ r.toNat ∧ r.toNat ≤ 0x7E then true
    else if 0xA1 ≤ r.toNat ∧ r.toNat ≤ 0xFF then r.toNat != 0xAD
    else false
  else X.isPrintTable r

/-- The function `appendEscapedRune` for the double quote, neither ASCII-only nor
graphic-only: the text one character contributes to a quoted string. -/
def escapedRune (X : Extern) (r : Char) : GoString :=
  if r = '"' ∨ r = '\\' then ['\\', r]
  else if IsPrint X r then [r]
  else if r = '\x07' then ['\\', 'a']
  else if r = '\x08' then ['\\', 'b']
  else if r = '\x0c' then ['\\', 'f']
  else if r = '\n' then ['\\', 'n']
  else if r = '\r' then ['\\', 'r']
  else if r = '\t' then ['\\', 't']
  else if r = '\x0b' then ['\\', 'v']
  else if r.toNat < 0x20 ∨ r.toNat = 0x7F then
    ['\\', 'x', hexDigit r.toNat 1, hexDigit r.toNat 0]
  else if r.toNat < 0x10000 then
    ['\\', 'u', hexDigit r.toNat 3, hexDigit r.toNat 2, hexDigit r.toNat 1, hexDigit r.toNat 0]
  else
    ['\\', 'U', hexDigit r.toNat 7, hexDigit r.toNat 6, hexDigit r.toNat 5, hexDigit r.toNat 4,
      hexDigit r.toNat 3, hexDigit r.toNat 2, hexDigit r.toNat 1, hexDigit r.toNat 0]

/-- The function `strconv.Quote`, which the verb `%q` of `fmt` applies to a string. -/
def Quote (X : Extern) (s : GoString) : GoString :=
  ['"'] ++ (s.map (escapedRune X)).flatten ++ ['"']

end strconv

namespace Float64

/-- Is the number zero (of either sign)? -/
def isZero (f : Float64) : Bool := f.mant == 0

/-- The comparison `==` of two `float64`: equal values; the two zeros are equal. -/
def eq (a b : Float64) : Bool :=
  if a.mant = 0 ∨ b.mant = 0 then a.mant = 0 ∧ b.mant = 0
  else a.neg = b.neg ∧
    a.mant * 2 ^ (a.exp - min a.exp b.exp).toNat = b.mant * 2 ^ (b.exp - min a.exp b.exp).toNat

/-- The number rounded toward zero to an integer. -/
def trunc (f : Float64) : Int :=
  let n : Nat := if 0 ≤ f.exp then f.mant * 2 ^ f.exp.toNat else f.mant / 2 ^ (-f.exp).toNat
  if f.neg then -(n : Int) else (n : Int)

/-- The conversion `int64(f)`: the number rounded toward zero when that is in the range of
`int64`, and otherwise the value the implementation gives, which is an `int64` (taken
modulo `2 ^ 64` into the range). -/
def toInt64 (X : Extern) (f : Float64) : Int :=
  if -(2 ^ 63 : Int) ≤ f.trunc ∧ f.trunc < 2 ^ 63 then f.trunc
  else (X.int64OutOfRange f + 2 ^ 63) % 2 ^ 64 - 2 ^ 63

/-- The conversion `float64(i)` of an `int64`: the nearest `float64`. -/
def ofInt64 (i : Int) : Float64 :=
  (strconv.roundFloat64 (decide (i < 0)) i.natAbs 1).getD ⟨false, 0, 0⟩

/-- The verb `%.0f` of `fmt`: the number rounded to an integer, ties to even, in decimal
digits, with its sign. -/
def format0f (f : Float64) : GoString :=
  let n : Nat :=
    if 0 ≤ f.exp then f.mant * 2 ^ f.exp.toNat
    else
      let d := 2 ^ (-f.exp).toNat
      let q := f.mant / d
      let r := f.mant % d
      if d < 2 * r ∨ (2 * r = d ∧ q % 2 = 1) then q + 1 else q
  (if f.neg then ['-'] else []) ++ Nat.toDigits 10 n

end Float64

/-! ## Package `formatter` -/

namespace formatter

open parser

/-- The loop of `formatObject` over the sorted keys; `render key` is the text of
`formatValue(obj[key], indent+1)`. -/
def objectLines (X : Extern) (render : GoString → GoString) (indentStr : GoString) :
    List GoString → GoString
  | [] => []
  | key :: rest =>
    indentStr ++ X.keyStyle (strconv.Quote X key) ++ [':', ' '] ++ render key
      ++ (if rest = [] then [] else [',']) ++ ['\n']
      ++ objectLines X render indentStr rest

/-- The body of `formatObject`, given the keys of the object and the text of its values. -/
def objectText (X : Extern) (keys : List GoString) (render : GoString → GoString)
    (indent : Nat) : GoString :=
  if keys.length = 0 then X.bracketStyle ['{', '}']
  else
    X.bracketStyle ['{'] ++ ['\n']
      ++ objectLines X render (strings.Repeat [' ', ' '] (indent + 1)) (sortStrings keys)
      ++ strings.Repeat [' ', ' '] indent ++ X.bracketStyle ['}']

/-- The test of `formatArray` for one element: is it neither an object nor an array? -/
def isPrimitive : JValue → Bool
  | .obj _ => false
  | .arr _ => false
  | _ => true

/-- The second loop of `formatArray`, over the texts of the elements at `indent+1`. -/
def arrayLines (indentStr : GoString) : List GoString → GoString
  | [] => []
  | v :: rest =>
    indentStr ++ v ++ (if rest = [] then [] else [',']) ++ ['\n'] ++ arrayLines indentStr rest

/-- The body of `formatArray`, given the array, the texts of its elements at `indent` and
their texts at `indent+1`. -/
def arrayText (X : Extern) (arr : List JValue) (parts lines : List GoString) (indent : Nat) :
    GoString :=
  if arr.length = 0 then X.bracketStyle ['[', ']']
  else if arr.all isPrimitive ∧ arr.length ≤ 5 then
    X.bracketStyle ['['] ++ strings.Join parts [',', ' '] ++ X.bracketStyle [']']
  else
    X.bracketStyle ['['] ++ ['\n']
      ++ arrayLines (strings.Repeat [' ', ' '] (indent + 1)) lines
      ++ strings.Repeat [' ', ' '] indent ++ X.bracketStyle [']']

/-- The `float64` case of `formatValue`. -/
def formatNumber (X : Extern) (val : Float64) : GoString :=
  -- Check if it's an integer
  if val.eq (Float64.ofInt64 (val.toInt64 X)) then X.numberStyle val.format0f
  else X.numberStyle (X.formatG val)

mutual

/-- The function `formatValue`. The text of the values of an object is computed for all its
members and looked up by key (`formatMembers`), the text of the elements of an array by
`formatElems`. -/
def formatValue (X : Extern) : JValue → Nat → GoString
  | .obj m, indent =>
    objectText X (mapKeys m)
      (fun key => (mapGet (formatMembers X m (indent + 1)) key).getD (X.nullStyle ['n', 'u', 'l', 'l']))
      indent
  | .arr l, indent => arrayText X l (formatElems X l indent) (formatElems X l (indent + 1)) indent
  | .str val, _ => X.stringStyle (strconv.Quote X val)
  | .num val, _ => formatNumber X val
  | .bool val, _ => X.boolStyle (if val then ['t', 'r', 'u', 'e'] else ['f', 'a', 'l', 's', 'e'])
  | .null, _ => X.nullStyle ['n', 'u', 'l', 'l']

/-- The text `formatValue(v, indent)` of each member of an object, by key. -/
def formatMembers (X : Extern) : List (GoString × JValue) → Nat → List (GoString × GoString)
  | [], _ => []
  | (k, v) :: t, indent => (k, formatValue X v indent) :: formatMembers X t indent

/-- The text `formatValue(v, indent)` of each element of an array. -/
def formatElems (X : Extern) : List JValue → Nat → List GoString
  | [], _ => []
  | v :: t, indent => formatValue X v indent :: formatElems X t indent

end

/-- The function `formatObject`. -/
def formatObject (X : Extern) (obj : List (GoString × JValue)) (indent : Nat) : GoString :=
  formatValue X (.obj obj) indent

/-- The function `formatArray`. -/
def formatArray (X : Extern) (arr : List JValue) (indent : Nat) : GoString :=
  formatValue X (.arr arr) indent

/-- The function `Format`. A structured entry with a nil map formats as the empty map. -/
def Format (X : Extern) (entry : Entry) : GoString :=
  if ¬ entry.IsJSON then X.nonJSONStyle entry.Content
  else formatValue X (.obj (entry.JSON.getD [])) 0

/-- Two values hold the same data, the key/value pairs of their objects (at any depth)
possibly stored in different orders: objects with the same keys, each key once, and
pairwise like values; arrays of the same length with like elements at each index. -/
inductive SameData : JValue → JValue → Prop where
  | refl (v : JValue) : SameData v v
  | obj (m₁ m₂ : List (GoString × JValue)) :
      (mapKeys m₁).Nodup → (mapKeys m₂).Nodup →
      (∀ k, k ∈ mapKeys m₁ ↔ k ∈ mapKeys m₂) →
      (∀ k v₁ v₂, mapGet m₁ k = some v₁ → mapGet m₂ k = some v₂ → SameData v₁ v₂) →
      SameData (.obj m₁) (.obj m₂)
  | arr (l₁ l₂ : List JValue) :
      l₁.length = l₂.length →
      (∀ (i : Nat) v₁ v₂, l₁[i]? = some v₁ → l₂[i]? = some v₂ → SameData v₁ v₂) →
      SameData (.arr l₁) (.arr l₂)

/-- The styles and the number printing add no line break: a text without line feed is
rendered without line feed. -/
def NoBreaks (X : Extern) : Prop :=
  (∀ s, '\n' ∉ s → '\n' ∉ X.stringStyle s) ∧
  (∀ s, '\n' ∉ s → '\n' ∉ X.numberStyle s) ∧
  (∀ s, '\n' ∉ s → '\n' ∉ X.boolStyle s) ∧
  (∀ s, '\n' ∉ s → '\n' ∉ X.nullStyle s) ∧
  (∀ s, '\n' ∉ s → '\n' ∉ X.bracketStyle s) ∧
  (∀ f, '\n' ∉ X.formatG f)

/-- Styles that colour a text with the ANSI sequence of their colour, as `lipgloss` does on
a terminal with 256 colours; every character is printable, lower case is that of ASCII,
and `%g` is left out. -/
def ansiExtern : Extern :=
  let colour (code : GoString) (s : GoString) : GoString :=
    ['\x1b', '[', '3', '8', ';', '5', ';'] ++ code ++ ['m'] ++ s ++ ['\x1b', '[', '0', 'm']
  { keyStyle := colour ['8', '6'], stringStyle := colour ['8', '2'],
    numberStyle := colour ['2', '2', '0'], boolStyle := colour ['2', '1', '3'],
    nullStyle := colour ['2', '4', '5'], bracketStyle := colour ['2', '5', '0'],
    nonJSONStyle := colour ['2', '4', '5'], helpStyle := colour ['2', '4', '1'],
    isPrintTable := fun _ => true, toLowerTable := fun c => c,
    formatG := fun _ => [], int64OutOfRange := fun _ => -(2 ^ 63) }

/-- Plain styles, as `lipgloss` renders without colour support. -/
def plainExtern : Extern :=
  { keyStyle := fun s => s, stringStyle := fun s => s, numberStyle := fun s => s,
    boolStyle := fun s => s, nullStyle := fun s => s, bracketStyle := fun s => s,
    nonJSONStyle := fun s => s, helpStyle := fun s => s,
    isPrintTable := fun _ => true, toLowerTable := fun c => c,
    formatG := fun _ => [], int64OutOfRange := fun _ => -(2 ^ 63) }

end formatter

namespace strings

/-- The function `unicode.ToLower`. -/
def toLowerRune (X : Extern) (r : Char) : Char :=
  if r.toNat ≤ 0x7F then
    if 'A' ≤ r ∧ r ≤ 'Z' then Char.ofNat (r.toNat + 32) else r
  else X.toLowerTable r

/-- The function `strings.ToLower`. -/
def ToLower (X : Extern) (s : GoString) : GoString := s.map (toLowerRune X)

end strings

/-! ## The library `bubbles/viewport` -/

namespace viewport

/-- The struct `viewport.Model`, as far as the program uses it. `content` is the text last
given to `SetContent` (`none` before the first call, when the viewport has no line); the
lines of the viewport are the pieces of that text between line feeds. -/
structure Model where
  Width : Int
  Height : Int
  YOffset : Int
  content : Option GoString

/-- The number of lines of the viewport, `len(m.lines)`. -/
def Model.lineCount (m : Model) : Int :=
  match m.content with
  | none => 0
  | some s => (s.count '\n' : Int) + 1

/-- The method `GotoBottom`, as to the model it leaves: the last lines fill the viewport.
Its panic at a negative height is in `GotoBottomChecked` below. -/
def Model.GotoBottom (m : Model) : Model :=
  { m with YOffset := max 0 (m.lineCount - m.Height) }

/-- The method `SetContent`, as to the model it leaves; with the panic of its call of
`GotoBottom` it is `SetContentChecked` below. -/
def Model.SetContent (m : Model) (s : GoString) : Model :=
  let m' : Model := { m with content := some s }
  if m'.YOffset > m'.lineCount - 1 then m'.GotoBottom else m'

end viewport

/-! ## Package `ui` -/

namespace ui

open parser formatter

/-- The focus states. -/
inductive focus where
  | focusList
  | focusLogs
  | focusFilter
  deriving DecidableEq, Repr

/-- The struct `ui.Model`; the store it points to is only written by `Update`, and is kept
as a field. -/
structure Model where
  store : store.Store
  selectedIndex : Int
  selectedContainer : GoString
  viewport : viewport.Model
  width : Int
  height : Int
  ready : Bool
  focus : ui.focus
  filter : GoString

/-- The constructor `ui.New`. -/
def New (s : store.Store) : Model :=
  { store := s, selectedIndex := 0, selectedContainer := [],
    viewport := { Width := 0, Height := 0, YOffset := 0, content := none },
    width := 0, height := 0, ready := false, focus := .focusList, filter := [] }

/-- The text `"No container selected"`. -/
def noContainerText : GoString :=
  ['N', 'o', ' ', 'c', 'o', 'n', 't', 'a', 'i', 'n', 'e', 'r', ' ',
    's', 'e', 'l', 'e', 'c', 't', 'e', 'd']

/-- The text `"No matches for: "`. -/
def noMatchesText : GoString :=
  ['N', 'o', ' ', 'm', 'a', 't', 'c', 'h', 'e', 's', ' ', 'f', 'o', 'r', ':', ' ']

/-- The method `Model.updateViewportContent`. -/
def Model.updateViewportContent (X : Extern) (m : Model) : Model :=
  if m.selectedContainer = [] then
    { m with viewport := m.viewport.SetContent noContainerText }
  else
    let entries := m.store.Entries m.selectedContainer
    let filterLower := strings.ToLower X m.filter
    let lines : List GoString :=
      entries.foldl (fun lines entry =>
        let formatted := Format X entry
        -- Apply filter if set
        if m.filter = [] ∨ strings.Contains (strings.ToLower X entry.Content) filterLower then
          lines ++ [formatted]
        else lines) []
    let lines : List GoString :=
      if lines.length = 0 ∧ m.filter ≠ [] then
        lines ++ [X.helpStyle (noMatchesText ++ m.filter)]
      else lines
    let content := strings.Join lines ['\n']
    { m with viewport := m.viewport.SetContent content }

/-- The model with a store holding plain entries of the given contents for the container
`"c"`, that container selected, and the given filter. -/
def sampleModel (contents : List GoString) (filter : GoString) : Model :=
  { New (store.addAll (contents.map (fun s => ⟨['c'], s, false, none⟩))) with
    selectedContainer := ['c'], filter := filter }

end ui

/-! ## The messages and commands of `bubbletea` -/

namespace tea

/-- The messages the program receives: a `tea.KeyMsg`, carried as the text `msg.String()` of
the key (`"esc"`, `"up"`, `"ctrl+c"`, `" "`, or the characters typed), a `tea.WindowSizeMsg`, and
the message `ui.NewEntryMsg` of the program itself. -/
inductive Msg where
  | KeyMsg (key : GoString)
  | WindowSizeMsg (Width Height : Int)
  | NewEntryMsg (Entry : parser.Entry)

/-- The commands the program returns: `nil` or `tea.Quit`. -/
inductive Cmd where
  | nil
  | Quit
  deriving DecidableEq, Repr

end tea

/-! ## Scrolling in `viewport` -/

namespace viewport

/-- The constructor `viewport.New`. -/
def New (width height : Int) : Model :=
  { Width := width, Height := height, YOffset := 0, content := none }

/-- The function `clamp`. -/
def clamp (v low high : Int) : Int :=
  if high < low then min low (max high v) else min high (max low v)

/-- The method `maxYOffset`: `max(0, len(m.lines) - m.Height)`. -/
def Model.maxYOffset (m : Model) : Int := max 0 (m.lineCount - m.Height)

/-- The method `AtTop`. -/
def Model.AtTop (m : Model) : Bool := decide (m.YOffset ≤ 0)

/-- The method `AtBottom`. -/
def Model.AtBottom (m : Model) : Bool := decide (m.YOffset ≥ m.maxYOffset)

/-- The method `SetYOffset`. -/
def Model.SetYOffset (m : Model) (n : Int) : Model :=
  { m with YOffset := clamp n 0 m.maxYOffset }

/-- The method `LineDown`, as to the model. The lines the scrolling methods return serve
the high performance rendering only, which the program leaves off; neither they nor a fault
of the library in cutting them out are part of this model. -/
def Model.LineDown (m : Model) (n : Int) : Model :=
  if m.AtBottom ∨ n = 0 ∨ m.lineCount = 0 then m else m.SetYOffset (m.YOffset + n)

/-- The method `LineUp`, as to the model. -/
def Model.LineUp (m : Model) (n : Int) : Model :=
  if m.AtTop ∨ n = 0 ∨ m.lineCount = 0 then m else m.SetYOffset (m.YOffset - n)

/-- The method `ViewDown`. -/
def Model.ViewDown (m : Model) : Model := if m.AtBottom then m else m.LineDown m.Height

/-- The method `ViewUp`. -/
def Model.ViewUp (m : Model) : Model := if m.AtTop then m else m.LineUp m.Height

/-- The method `HalfViewDown`; the division of `int` truncates. -/
def Model.HalfViewDown (m : Model) : Model :=
  if m.AtBottom then m else m.LineDown (m.Height.tdiv 2)

/-- The method `HalfViewUp`. -/
def Model.HalfViewUp (m : Model) : Model :=
  if m.AtTop then m else m.LineUp (m.Height.tdiv 2)

/-- The method `GotoTop`. -/
def Model.GotoTop (m : Model) : Model := if m.AtTop then m else m.SetYOffset 0

/-- The method `Update` with the default key map (`DefaultKeyMap`), which a model has from
`New` and a zero model takes at its first `Update`: page down on `"pgdown"`, `" "`, `"f"`; page
up on `"pgup"`, `"b"`; half a page down on `"d"`, `"ctrl+d"`; half a page up on `"u"`,
`"ctrl+u"`; a line down on `"down"`, `"j"`; a line up on `"up"`, `"k"`. The other messages of
`tea.Msg` leave the model as it is, and the command is `nil`. -/
def Model.Update (m : Model) (msg : tea.Msg) : Model :=
  match msg with
  | .KeyMsg key =>
    if key = ['p', 'g', 'd', 'o', 'w', 'n'] ∨ key = [' '] ∨ key = ['f'] then m.ViewDown
    else if key = ['p', 'g', 'u', 'p'] ∨ key = ['b'] then m.ViewUp
    else if key = ['d'] ∨ key = ['c', 't', 'r', 'l', '+', 'd'] then m.HalfViewDown
    else if key = ['u'] ∨ key = ['c', 't', 'r', 'l', '+', 'u'] then m.HalfViewUp
    else if key = ['d', 'o', 'w', 'n'] ∨ key = ['j'] then m.LineDown 1
    else if key = ['u', 'p'] ∨ key = ['k'] then m.LineUp 1
    else m
  | _ => m

end viewport

/-! ## The method `Update` of package `ui` -/

namespace ui

open parser formatter

/-- The ways in which a step of the program yields no state: a run-time panic of the Go code,
or a string cut inside the encoding of a character, which is no list of characters. -/
inductive Fault where
  | panic
  | brokenChar
  deriving DecidableEq, Repr

/-- The length `len(s)` of a string, in bytes of its UTF-8 encoding. -/
def byteLen (s : GoString) : Nat := (s.map Char.utf8Size).sum

/-- The slice `s[:len(s)-1]`: the string without its last byte. -/
def dropLastByte (s : GoString) : Except Fault GoString :=
  match s.getLast? with
  | none => .error .panic
  | some c => if c.utf8Size = 1 then .ok s.dropLast else .error .brokenChar

/-- The index expression `l[i]` with an `int` index, which panics out of range. -/
def index (l : List GoString) (i : Int) : Except Fault GoString :=
  if i < 0 then .error .panic
  else
    match l[i.toNat]? with
    | some c => .ok c
    | none => .error .panic

/-- The method `updateSelectedContainer`. -/
def Model.updateSelectedContainer (X : Extern) (m : Model) : Except Fault Model :=
  let containers := m.store.Containers
  if m.selectedIndex < containers.length then
    match index containers m.selectedIndex with
    | .error e => .error e
    | .ok c =>
      let m : Model := { m with selectedContainer := c, filter := [] }
      let m := m.updateViewportContent X
      .ok { m with viewport := m.viewport.GotoBottom }
  else .ok m

/-- The branch of `Update` for a key in filter mode (`m.focus == focusFilter`), which
returns without a call of `viewport.Update`. -/
def Model.updateFilterKey (X : Extern) (m : Model) (key : GoString) :
    Except Fault (Model × tea.Cmd) :=
  if key = ['e', 's', 'c'] then
    .ok (({ m with filter := [], focus := .focusLogs } : Model).updateViewportContent X, .nil)
  else if key = ['e', 'n', 't', 'e', 'r'] then
    .ok ({ m with focus := .focusLogs }, .nil)
  else if key = ['b', 'a', 'c', 'k', 's', 'p', 'a', 'c', 'e'] then
    if byteLen m.filter > 0 then
      match dropLastByte m.filter with
      | .error e => .error e
      | .ok f => .ok (({ m with filter := f } : Model).updateViewportContent X, .nil)
    else .ok (m, .nil)
  else if key = ['c', 't', 'r', 'l', '+', 'c'] then .ok (m, .Quit)
  else if byteLen key = 1 then
    .ok (({ m with filter := m.filter ++ key } : Model).updateViewportContent X, .nil)
  else .ok (m, .nil)

/-- The second `switch msg.String()` of `Update`, for a key outside filter mode: the model
before the call of `viewport.Update`, or `none` where the code returns `tea.Quit`. -/
def Model.updateNormalKey (X : Extern) (m : Model) (key : GoString) :
    Except Fault (Option Model) :=
  if key = ['q'] ∨ key = ['c', 't', 'r', 'l', '+', 'c'] then .ok none
  else if key = ['t', 'a', 'b'] then
    if m.focus = .focusList then .ok (some { m with focus := .focusLogs })
    else .ok (some { m with focus := .focusList })
  else if key = ['e', 'n', 't', 'e', 'r'] ∨ key = ['r', 'i', 'g', 'h', 't'] ∨ key = ['l'] then
    if m.focus = .focusList then .ok (some { m with focus := .focusLogs }) else .ok (some m)
  else if key = ['l', 'e', 'f', 't'] ∨ key = ['h'] then
    if m.focus = .focusLogs then .ok (some { m with focus := .focusList }) else .ok (some m)
  else if key = ['e', 's', 'c'] then
    if m.focus = .focusLogs then
      if m.filter ≠ [] then
        .ok (some (({ m with filter := [] } : Model).updateViewportContent X))
      else .ok (some { m with focus := .focusList })
    else .ok (some m)
  else if key = ['/'] then
    if m.focus = .focusLogs then .ok (some { m with focus := .focusFilter }) else .ok (some m)
  else if key = ['u', 'p'] ∨ key = ['k'] then
    if m.focus = .focusList then
      if m.selectedIndex > 0 then
        (Model.updateSelectedContainer X { m with selectedIndex := m.selectedIndex - 1 }).map some
      else .ok (some m)
    else .ok (some { m with viewport := m.viewport.LineUp 1 })
  else if key = ['d', 'o', 'w', 'n'] ∨ key = ['j'] then
    if m.focus = .focusList then
      let containers := m.store.Containers
      if m.selectedIndex < (containers.length : Int) - 1 then
        (Model.updateSelectedContainer X { m with selectedIndex := m.selectedIndex + 1 }).map some
      else .ok (some m)
    else .ok (some { m with viewport := m.viewport.LineDown 1 })
  else if key = ['p', 'g', 'u', 'p'] then
    .ok (some { m with viewport := m.viewport.LineUp (m.viewport.Height.tdiv 2) })
  else if key = ['p', 'g', 'd', 'o', 'w', 'n'] then
    .ok (some { m with viewport := m.viewport.LineDown (m.viewport.Height.tdiv 2) })
  else if key = ['h', 'o', 'm', 'e'] ∨ key = ['g'] then
    if m.focus = .focusLogs then .ok (some { m with viewport := m.viewport.GotoTop })
    else .ok (some m)
  else if key = ['e', 'n', 'd'] ∨ key = ['G'] then
    if m.focus = .focusLogs then .ok (some { m with viewport := m.viewport.GotoBottom })
    else .ok (some m)
  else .ok (some m)

/-- The branch of `Update` for a `tea.WindowSizeMsg`, before the call of `viewport.Update`.
The sizes are those of a terminal, far from the limits of `int`. -/
def Model.updateWindowSize (X : Extern) (m : Model) (Width Height : Int) : Model :=
  let m : Model := { m with width := Width, height := Height }
  let rightWidth := m.width - 25 - 4
  let m : Model :=
    if ¬ m.ready then
      { m with viewport := viewport.New (rightWidth - 2) (m.height - 4), ready := true }
    else
      { m with viewport := { m.viewport with Width := rightWidth - 2, Height := m.height - 4 } }
  m.updateViewportContent X

/-- The branch of `Update` for a `NewEntryMsg`, before the call of `viewport.Update`. -/
def Model.updateNewEntry (X : Extern) (m : Model) (entry : Entry) : Model :=
  let m : Model := { m with store := m.store.Add entry }
  let m : Model :=
    if m.selectedContainer = [] then
      match m.store.Containers with
      | [] => m
      | c :: _ => { m with selectedContainer := c }
    else m
  if entry.Container = m.selectedContainer then
    let m := m.updateViewportContent X
    { m with viewport := m.viewport.GotoBottom }
  else m

/-- The method `Update`: the new model and the command, or the fault of the program's own
indexing and slicing. The command of `viewport.Update` is `nil`, and so is the `tea.Batch`
of it. The panics of the viewport library at a negative height are kept apart, in
`updateSelectedContainerChecked`. -/
def Model.Update (X : Extern) (m : Model) (msg : tea.Msg) : Except Fault (Model × tea.Cmd) :=
  match msg with
  | .KeyMsg key =>
    if m.focus = .focusFilter then m.updateFilterKey X key
    else
      match m.updateNormalKey X key with
      | .error e => .error e
      | .ok none => .ok (m, .Quit)
      | .ok (some m) => .ok ({ m with viewport := m.viewport.Update msg }, .nil)
  | .WindowSizeMsg Width Height =>
    let m := m.updateWindowSize X Width Height
    .ok ({ m with viewport := m.viewport.Update msg }, .nil)
  | .NewEntryMsg entry =>
    let m := m.updateNewEntry X entry
    .ok ({ m with viewport := m.viewport.Update msg }, .nil)

/-- The model after a sequence of messages, each handled by `Update`. -/
def Model.run (X : Extern) (m : Model) : List tea.Msg → Except Fault Model
  | [] => .ok m
  | msg :: msgs =>
    match m.Update X msg with
    | .error e => .error e
    | .ok (m, _) => Model.run X m msgs

/-- The states the program reaches from its initial state `ui.New(store.New())` by key,
resize and new-entry messages. -/
inductive Reachable (X : Extern) : Model → Prop where
  | init : Reachable X (New store.New)
  | step {m m' : Model} {cmd : tea.Cmd} (msg : tea.Msg) :
      Reachable X m → m.Update X msg = .ok (m', cmd) → Reachable X m'

/-- A plain entry of the container `c` with the content `s`. -/
def plainEntry (c s : GoString) : Entry := ⟨c, s, false, none⟩

/-- The state after a window of 80 columns and 5 rows (a viewport of one line), the entries
"x" of container "a", "y" of "b" and "z" of "a", and the key "down": the focus is on the
list and the second container is selected. -/
def selectState : Model :=
  { store := store.addAll
      [plainEntry ['a'] ['x'], plainEntry ['b'] ['y'], plainEntry ['a'] ['z']],
    selectedIndex := 1, selectedContainer := ['b'],
    viewport := { Width := 49, Height := 1, YOffset := 0, content := some ['y'] },
    width := 80, height := 5, ready := true, focus := .focusList, filter := [] }

end ui

/-! ## The panics of `viewport` at a negative height

`GotoBottom` and `SetContent` above give the model these methods leave when they return.
`GotoBottom` ends in a call of `visibleLines`, which cuts the visible lines out of
`m.lines` and panics when the bounds are out of range; the definitions below keep that. -/

namespace viewport

/-- The slice expression `lines[low:high]` on a slice whose length and capacity are `len`:
it panics ("slice bounds out of range") unless `0 ≤ low ≤ high ≤ len`. -/
def sliceInRange (len low high : Int) : Bool := decide (0 ≤ low ∧ low ≤ high ∧ high ≤ len)

/-- The method `visibleLines`, as to its slice `m.lines[top:bottom]`: the bounds `top` and
`bottom`, or `none` when the slice panics. Without lines nothing is cut. -/
def Model.visibleLines (m : Model) : Option (Int × Int) :=
  if m.lineCount > 0 then
    let top := max 0 m.YOffset
    let bottom := clamp (m.YOffset + m.Height) top m.lineCount
    if sliceInRange m.lineCount top bottom then some (top, bottom) else none
  else some (0, 0)

/-- The method `GotoBottom` with its panic: `m.SetYOffset(m.maxYOffset())`, then
`return m.visibleLines()`; `none` when that call panics. -/
def Model.GotoBottomChecked (m : Model) : Option Model :=
  let m := m.SetYOffset m.maxYOffset
  match m.visibleLines with
  | none => none
  | some _ => some m

/-- The method `SetContent` with the panic of its call of `GotoBottom`. -/
def Model.SetContentChecked (m : Model) (s : GoString) : Option Model :=
  let m' : Model := { m with content := some s }
  if m'.YOffset > m'.lineCount - 1 then m'.GotoBottomChecked else some m'

end viewport

namespace ui

open parser formatter

/-- The method `updateViewportContent` with the panic of `SetContent`. -/
def Model.updateViewportContentChecked (X : Extern) (m : Model) : Except Fault Model :=
  if m.selectedContainer = [] then
    match m.viewport.SetContentChecked noContainerText with
    | none => .error .panic
    | some v => .ok { m with viewport := v }
  else
    let entries := m.store.Entries m.selectedContainer
    let filterLower := strings.ToLower X m.filter
    let lines : List GoString :=
      entries.foldl (fun lines entry =>
        let formatted := Format X entry
        if m.filter = [] ∨ strings.Contains (strings.ToLower X entry.Content) filterLower then
          lines ++ [formatted]
        else lines) []
    let lines : List GoString :=
      if lines.length = 0 ∧ m.filter ≠ [] then
        lines ++ [X.helpStyle (noMatchesText ++ m.filter)]
      else lines
    let content := strings.Join lines ['\n']
    match m.viewport.SetContentChecked content with
    | none => .error .panic
    | some v => .ok { m with viewport := v }

/-- The method `updateSelectedContainer` with the panics of `SetContent` and `GotoBottom`. -/
def Model.updateSelectedContainerChecked (X : Extern) (m : Model) : Except Fault Model :=
  let containers := m.store.Containers
  if m.selectedIndex < containers.length then
    match index containers m.selectedIndex with
    | .error e => .error e
    | .ok c =>
      let m : Model := { m with selectedContainer := c, filter := [] }
      match m.updateViewportContentChecked X with
      | .error e => .error e
      | .ok m =>
        match m.viewport.GotoBottomChecked with
        | none => .error .panic
        | some v => .ok { m with viewport := v }
  else .ok m

/-- The state after the entries "x" of container "a" and "y" of "b" and a window of 80
columns and 3 rows, whose viewport has the height `3 - 4`: the focus is on the list and the
first container is selected. -/
def smallState : Model :=
  { store := store.addAll [plainEntry ['a'] ['x'], plainEntry ['b'] ['y']],
    selectedIndex := 0, selectedContainer := ['a'],
    viewport := { Width := 49, Height := -1, YOffset := 0, content := some ['x'] },
    width := 80, height := 3, ready := true, focus := .focusList, filter := [] }

end ui

/-! # Theorems -/

/-! ## Go maps -/

theorem mapGet_cons_same {β : Type} (k : GoString) (v : β) (t : List (GoString × β)) :
    mapGet ((k, v) :: t) k = some v := by
  simp only [mapGet, if_true]

theorem mapGet_cons_other {β : Type} (k k' : GoString) (v : β) (t : List (GoString × β))
    (h : k' ≠ k) : mapGet ((k', v) :: t) k = mapGet t k := by
  simp only [mapGet, if_neg h]

theorem mapSet_cons_same {β : Type} (k : GoString) (v v' : β) (t : List (GoString × β)) :
    mapSet ((k, v') :: t) k v = (k, v) :: t := by
  simp only [mapSet, if_true]

theorem mapSet_cons_other {β : Type} (k k' : GoString) (v v' : β) (t : List (GoString × β))
    (h : k' ≠ k) : mapSet ((k', v') :: t) k v = (k', v') :: mapSet t k v := by
  simp only [mapSet, if_neg h]

theorem mapKeys_cons {β : Type} (k : GoString) (v : β) (t : List (GoString × β)) :
    mapKeys ((k, v) :: t) = k :: mapKeys t := rfl

theorem mapGet_mapSet_same {β : Type} (m : List (GoString × β)) (k : GoString) (v : β) :
    mapGet (mapSet m k v) k = some v := by
  induction m with
  | nil => exact mapGet_cons_same k v []
  | cons p t ih =>
    obtain ⟨k', v'⟩ := p
    by_cases h : k' = k
    · subst h
      rw [mapSet_cons_same, mapGet_cons_same]
    · rw [mapSet_cons_other _ _ _ _ _ h, mapGet_cons_other _ _ _ _ h, ih]

theorem mapGet_mapSet_other {β : Type} (m : List (GoString × β)) (k k' : GoString) (v : β)
    (h : k' ≠ k) : mapGet (mapSet m k v) k' = mapGet m k' := by
  induction m with
  | nil =>
    show mapGet [(k, v)] k' = mapGet [] k'
    rw [mapGet_cons_other _ _ _ _ (Ne.symm h)]
  | cons p t ih =>
    obtain ⟨k₁, v₁⟩ := p
    by_cases h₁ : k₁ = k
    · subst h₁
      rw [mapSet_cons_same, mapGet_cons_other _ _ _ _ (Ne.symm h),
        mapGet_cons_other _ _ _ _ (Ne.symm h)]
    · rw [mapSet_cons_other _ _ _ _ _ h₁]
      by_cases h₂ : k₁ = k'
      · subst h₂
        rw [mapGet_cons_same, mapGet_cons_same]
      · rw [mapGet_cons_other _ _ _ _ h₂, mapGet_cons_other _ _ _ _ h₂, ih]

theorem mapGet_isSome_iff {β : Type} (m : List (GoString × β)) (k : GoString) :
    (mapGet m k).isSome ↔ k ∈ mapKeys m := by
  induction m with
  | nil =>
    constructor
    · intro h; cases h
    · intro h; cases h
  | cons p t ih =>
    obtain ⟨k', v'⟩ := p
    rw [mapKeys_cons, List.mem_cons]
    by_cases h : k' = k
    · subst h
      rw [mapGet_cons_same]
      exact ⟨fun _ => Or.inl rfl, fun _ => rfl⟩
    · rw [mapGet_cons_other _ _ _ _ h, ih]
      exact ⟨Or.inr, fun o => o.resolve_left (Ne.symm h)⟩

theorem mapKeys_mapSet_of_mem {β : Type} (m : List (GoString × β)) (k : GoString) (v : β)
    (h : k ∈ mapKeys m) : mapKeys (mapSet m k v) = mapKeys m := by
  induction m with
  | nil => cases h
  | cons p t ih =>
    obtain ⟨k', v'⟩ := p
    by_cases h₁ : k' = k
    · subst h₁
      rw [mapSet_cons_same]
      rfl
    · rw [mapKeys_cons, List.mem_cons] at h
      rw [mapSet_cons_other _ _ _ _ _ h₁, mapKeys_cons, mapKeys_cons,
        ih (h.resolve_left (Ne.symm h₁))]

theorem mapKeys_mapSet_of_not_mem {β : Type} (m : List (GoString × β)) (k : GoString) (v : β)
    (h : k ∉ mapKeys m) : mapKeys (mapSet m k v) = mapKeys m ++ [k] := by
  induction m with
  | nil => rfl
  | cons p t ih =>
    obtain ⟨k', v'⟩ := p
    rw [mapKeys_cons, List.mem_cons, not_or] at h
    rw [mapSet_cons_other _ _ _ _ _ (Ne.symm h.1), mapKeys_cons, mapKeys_cons, ih h.2]
    rfl

theorem foldl_length_eq_sum {β : Type} (m : List (GoString × List β)) (n : Nat) :
    m.foldl (fun total kv => total + kv.2.length) n
      = n + (m.map (fun kv => kv.2.length)).sum := by
  induction m generalizing n with
  | nil => rfl
  | cons p t ih =>
    rw [List.foldl_cons, ih, List.map_cons, List.sum_cons, Nat.add_assoc]

theorem sum_length_mapSet_append {β : Type} (m : List (GoString × List β)) (k : GoString)
    (e : β) :
    ((mapSet m k ((mapGet m k).getD [] ++ [e])).map (fun kv => kv.2.length)).sum
      = (m.map (fun kv => kv.2.length)).sum + 1 := by
  induction m with
  | nil => rfl
  | cons p t ih =>
    obtain ⟨k', v'⟩ := p
    by_cases h : k' = k
    · subst h
      rw [mapGet_cons_same, mapSet_cons_same, List.map_cons, List.sum_cons, List.map_cons,
        List.sum_cons]
      show (v' ++ [e]).length + _ = _
      rw [List.length_append]
      show v'.length + 1 + _ = v'.length + _ + 1
      omega
    · rw [mapGet_cons_other _ _ _ _ h, mapSet_cons_other _ _ _ _ _ h, List.map_cons,
        List.sum_cons, List.map_cons, List.sum_cons, ih, Nat.add_assoc]

theorem sum_map_get_keys {β : Type} (m : List (GoString × List β)) (h : (mapKeys m).Nodup) :
    ((mapKeys m).map (fun k => ((mapGet m k).getD []).length)).sum
      = (m.map (fun kv => kv.2.length)).sum := by
  induction m with
  | nil => rfl
  | cons p t ih =>
    obtain ⟨k', v'⟩ := p
    rw [mapKeys_cons, List.nodup_cons] at h
    rw [mapKeys_cons, List.map_cons, List.sum_cons, List.map_cons, List.sum_cons,
      mapGet_cons_same, ← ih h.2]
    congr 2
    apply List.map_congr_left
    intro k hk
    have hne : k' ≠ k := fun e => h.1 (e ▸ hk)
    rw [mapGet_cons_other _ _ _ _ hne]

/-! ## The entry store -/

namespace store

open parser

theorem entriesOf_append_same (es : List Entry) (e : Entry) :
    entriesOf (es ++ [e]) e.Container = entriesOf es e.Container ++ [e] := by
  unfold entriesOf
  rw [List.filter_append]
  congr 1
  simp only [List.filter_cons, decide_True, if_true, List.filter_nil]

theorem entriesOf_append_other (es : List Entry) (e : Entry) (c : GoString)
    (h : e.Container ≠ c) : entriesOf (es ++ [e]) c = entriesOf es c := by
  unfold entriesOf
  rw [List.filter_append]
  have : List.filter (fun e => decide (e.Container = c)) [e] = [] := by
    simp only [List.filter_cons, List.filter_nil, decide_eq_true_eq, if_neg h]
  rw [this, List.append_nil]

theorem addAll_append (es : List Entry) (e : Entry) :
    addAll (es ++ [e]) = (addAll es).Add e := by
  unfold addAll
  rw [List.foldl_append]
  rfl

theorem storeInv_new : StoreInv New [] := by
  refine ⟨List.nodup_nil, List.Perm.refl _, List.sorted_nil, fun c => rfl, fun c => ?_⟩
  constructor
  · intro h; cases h
  · rintro ⟨e, he, _⟩; cases he

theorem storeInv_add (s : Store) (es : List Entry) (e : Entry) (h : StoreInv s es) :
    StoreInv (s.Add e) (es ++ [e]) := by
  obtain ⟨hnd, hperm, hsorted, hget, hmem⟩ := h
  have hkeys : ∀ c, c ∈ mapKeys (s.Add e).entries ↔ c ∈ mapKeys s.entries ∨ c = e.Container := by
    intro c
    show c ∈ mapKeys (mapSet s.entries e.Container _) ↔ _
    by_cases hin : e.Container ∈ mapKeys s.entries
    · rw [mapKeys_mapSet_of_mem _ _ _ hin]
      exact ⟨Or.inl, fun o => o.elim id (fun h => h ▸ hin)⟩
    · rw [mapKeys_mapSet_of_not_mem _ _ _ hin, List.mem_append, List.mem_singleton]
  refine ⟨?_, ?_, ?_, ?_, ?_⟩
  · show (mapKeys (mapSet s.entries e.Container _)).Nodup
    by_cases hin : e.Container ∈ mapKeys s.entries
    · rw [mapKeys_mapSet_of_mem _ _ _ hin]; exact hnd
    · rw [mapKeys_mapSet_of_not_mem _ _ _ hin]
      apply List.Nodup.append hnd (List.nodup_singleton _)
      intro a ha hb
      rw [List.mem_singleton] at hb
      exact hin (hb ▸ ha)
  · show List.Perm (if (mapGet s.entries e.Container).isSome then s.containers
      else sortStrings (s.containers ++ [e.Container])) (mapKeys (mapSet s.entries e.Container _))
    by_cases hin : e.Container ∈ mapKeys s.entries
    · rw [if_pos ((mapGet_isSome_iff _ _).2 hin), mapKeys_mapSet_of_mem _ _ _ hin]
      exact hperm
    · rw [if_neg (fun h => hin ((mapGet_isSome_iff _ _).1 h)),
        mapKeys_mapSet_of_not_mem _ _ _ hin]
      exact (List.perm_insertionSort _ _).trans (List.Perm.append_right _ hperm)
  · show List.Sorted (· ≤ ·) (if (mapGet s.entries e.Container).isSome then s.containers
      else sortStrings (s.containers ++ [e.Container]))
    by_cases hin : (mapGet s.entries e.Container).isSome
    · rw [if_pos hin]; exact hsorted
    · rw [if_neg hin]; exact List.sorted_insertionSort _ _
  · intro c
    show (mapGet (mapSet s.entries e.Container _) c).getD [] = _
    by_cases hc : c = e.Container
    · subst hc
      rw [mapGet_mapSet_same, entriesOf_append_same, ← hget]
      rfl
    · rw [mapGet_mapSet_other _ _ _ _ hc, entriesOf_append_other _ _ _ (Ne.symm hc), hget]
  · intro c
    rw [hkeys, hmem]
    constructor
    · rintro (⟨x, hx, hxc⟩ | hc)
      · exact ⟨x, List.mem_append_left _ hx, hxc⟩
      · exact ⟨e, List.mem_append_right _ (List.mem_singleton_self e), hc.symm⟩
    · rintro ⟨x, hx, hxc⟩
      rw [List.mem_append, List.mem_singleton] at hx
      rcases hx with hx | hx
      · exact Or.inl ⟨x, hx, hxc⟩
      · exact Or.inr (hx ▸ hxc.symm)

theorem storeInv_addAll (es : List Entry) : StoreInv (addAll es) es := by
  induction es using List.reverseRecOn with
  | nil => exact storeInv_new
  | append_singleton es e ih =>
    rw [addAll_append]
    exact storeInv_add _ _ _ ih

theorem entriesOf_ne_nil_iff (es : List Entry) (c : GoString) :
    0 < (entriesOf es c).length ↔ ∃ e ∈ es, e.Container = c := by
  unfold entriesOf
  rw [List.length_pos_iff_exists_mem]
  constructor
  · rintro ⟨a, ha⟩
    rw [List.mem_filter, decide_eq_true_eq] at ha
    exact ⟨a, ha.1, ha.2⟩
  · rintro ⟨a, ha, hc⟩
    exact ⟨a, List.mem_filter.2 ⟨ha, decide_eq_true hc⟩⟩

/-- C1: after any sequence of `Add` calls on a new store, `Containers()` is strictly
ascending (sorted, without duplicates) and holds exactly the container names of the
entries added so far: a name is listed if and only if an entry with that container was
added, if and only if `EntryCount(name) > 0`, if and only if it is a key of the entry
map. Adding entries for "b", "a", "b" gives `["a", "b"]`. -/
theorem containers_sorted_exact (es : List Entry) :
    (addAll es).Containers.Sorted (· < ·) ∧
    (∀ c, c ∈ (addAll es).Containers ↔ ∃ e ∈ es, e.Container = c) ∧
    (∀ c, c ∈ (addAll es).Containers ↔ 0 < (addAll es).EntryCount c) ∧
    (∀ c, c ∈ (addAll es).Containers ↔ (mapGet (addAll es).entries c).isSome) ∧
    (∀ x y z : GoString,
      (addAll [⟨['b'], x, false, none⟩, ⟨['a'], y, false, none⟩,
        ⟨['b'], z, false, none⟩]).Containers = [['a'], ['b']]) := by
  obtain ⟨hnd, hperm, hsorted, hget, hmem⟩ := storeInv_addAll es
  have hin : ∀ c, c ∈ (addAll es).Containers ↔ c ∈ mapKeys (addAll es).entries :=
    fun c => hperm.mem_iff
  refine ⟨?_, ?_, ?_, ?_, ?_⟩
  · exact hsorted.lt_of_le (hperm.nodup_iff.2 hnd)
  · intro c
    rw [hin, hmem]
  · intro c
    rw [hin, hmem]
    show _ ↔ 0 < ((mapGet (addAll es).entries c).getD []).length
    rw [hget, entriesOf_ne_nil_iff]
  · intro c
    rw [hin, mapGet_isSome_iff]
  · intro x y z
    rfl

/-- C2: after any sequence of `Add` calls on a new store, `Entries(c)` is the
subsequence of the added entries whose container is `c`, in arrival order, and
`EntryCount(c)` is its length; for a name that was never added `Entries` is empty and
`EntryCount` is 0. -/
theorem entries_arrival_order (es : List Entry) (c : GoString) :
    (addAll es).Entries c = es.filter (fun e => e.Container = c) ∧
    (addAll es).EntryCount c = (es.filter (fun e => e.Container = c)).length ∧
    ((∀ e ∈ es, e.Container ≠ c) →
      (addAll es).Entries c = [] ∧ (addAll es).EntryCount c = 0) := by
  obtain ⟨_, _, _, hget, _⟩ := storeInv_addAll es
  have h₁ : (addAll es).Entries c = es.filter (fun e => e.Container = c) := hget c
  have h₂ : (addAll es).EntryCount c = ((addAll es).Entries c).length := rfl
  refine ⟨h₁, by rw [h₂, h₁], ?_⟩
  intro hne
  have h₃ : es.filter (fun e => decide (e.Container = c)) = [] := by
    rw [List.filter_eq_nil_iff]
    intro e he
    rw [decide_eq_true_eq]
    exact hne e he
  rw [h₂, h₁, h₃]
  exact ⟨rfl, rfl⟩

/-- C3: after `n` `Add` calls on a new store, `TotalEntries()` is `n`, and it is the sum
of `EntryCount(c)` over the names `c` of `Containers()`. Three adds for "b", "a", "b"
give 3. -/
theorem totalEntries_eq_count (es : List Entry) :
    (addAll es).TotalEntries = es.length ∧
    (addAll es).TotalEntries
      = ((addAll es).Containers.map (fun c => (addAll es).EntryCount c)).sum ∧
    (∀ x y z : GoString,
      (addAll [⟨['b'], x, false, none⟩, ⟨['a'], y, false, none⟩,
        ⟨['b'], z, false, none⟩]).TotalEntries = 3) := by
  have htotal : ∀ s : Store,
      s.TotalEntries = (s.entries.map (fun kv => kv.2.length)).sum := by
    intro s
    unfold Store.TotalEntries
    rw [foldl_length_eq_sum, Nat.zero_add]
  have hlen : (addAll es).TotalEntries = es.length := by
    induction es using List.reverseRecOn with
    | nil => rfl
    | append_singleton es e ih =>
      rw [addAll_append, htotal]
      show ((mapSet (addAll es).entries e.Container _).map _).sum = _
      rw [sum_length_mapSet_append, ← htotal, ih, List.length_append]
      rfl
  obtain ⟨hnd, hperm, _, _, _⟩ := storeInv_addAll es
  refine ⟨hlen, ?_, fun x y z => rfl⟩
  rw [htotal, ← sum_map_get_keys _ hnd]
  exact ((hperm.map _).sum_eq).symm

end store

/-! ## Regular expressions -/

namespace regexp

theorem starLoop_greedy {α : Type} (p : Char → Bool) (k : GoString → Option α) (s : GoString)
    (h : k (s.dropWhile p) = none →
      ∀ a b, a ++ b = s.takeWhile p → b ≠ [] → k (b ++ s.dropWhile p) = none) :
    starLoop p k s = k (s.dropWhile p) := by
  induction s with
  | nil => rfl
  | cons c cs ih =>
    by_cases hc : p c = true
    · have htw : (c :: cs).takeWhile p = c :: cs.takeWhile p := by
        rw [List.takeWhile_cons, if_pos hc]
      have hdw : (c :: cs).dropWhile p = cs.dropWhile p := by
        rw [List.dropWhile_cons, if_pos hc]
      rw [htw, hdw] at h
      have ih' : starLoop p k cs = k (cs.dropWhile p) := by
        apply ih
        intro hnone a b hab hb
        exact h hnone (c :: a) b (by rw [List.cons_append, hab]) hb
      rw [hdw]
      show (if p c = true then
        (match starLoop p k cs with
          | some r => some r
          | none => k (c :: cs)) else k (c :: cs)) = _
      rw [if_pos hc, ih']
      cases hk : k (cs.dropWhile p) with
      | some r => rfl
      | none =>
        have := h hk [] (c :: cs.takeWhile p) rfl (List.cons_ne_nil _ _)
        rw [List.cons_append, List.takeWhile_append_dropWhile] at this
        exact this
    · have hdw : (c :: cs).dropWhile p = c :: cs := by
        rw [List.dropWhile_cons, if_neg hc]
      rw [hdw]
      show (if p c = true then
        (match starLoop p k cs with
          | some r => some r
          | none => k (c :: cs)) else k (c :: cs)) = _
      rw [if_neg hc]

/-- When the rest of the pattern cannot start with a character of the class, `c*` takes the
longest run. -/
theorem starLoop_longest {α : Type} (p : Char → Bool) (k : GoString → Option α) (s : GoString)
    (h : ∀ c t, p c = true → k (c :: t) = none) :
    starLoop p k s = k (s.dropWhile p) := by
  apply starLoop_greedy
  intro _ a b hab hb
  cases b with
  | nil => exact absurd rfl hb
  | cons c t =>
    have hmem : c ∈ s.takeWhile p := by
      rw [← hab]; exact List.mem_append_right _ (List.mem_cons_self _ _)
    exact h c _ (List.mem_takeWhile_imp hmem)

end regexp

/-! ## The parser: ANSI stripping -/

namespace parser

open regexp

theorem isParam_not_alpha (c : Char) (h : isParamClass c = true) : c.isAlpha = false := by
  unfold isParamClass at h
  unfold Char.isAlpha Char.isUpper Char.isLower
  unfold Char.isDigit at h
  simp only [Bool.or_eq_true, Bool.and_eq_true, decide_eq_true_eq, beq_iff_eq] at h
  simp only [Bool.or_eq_false_iff, Bool.and_eq_false_iff, decide_eq_false_iff_not]
  rcases h with ⟨h1, h2⟩ | h
  · have h2' : c.val ≤ 57 := h2
    constructor
    · left; intro h3; have h3' : (65 : UInt32) ≤ c.val := h3
      exact absurd (UInt32.le_trans h3' h2') (by decide)
    · left; intro h3; have h3' : (97 : UInt32) ≤ c.val := h3
      exact absurd (UInt32.le_trans h3' h2') (by decide)
  · subst h; decide

theorem ansiPrefix_esc (t : GoString) :
    ansiPrefix ('\x1b' :: '[' :: t) =
      match t.dropWhile isParamClass with
      | l :: rest => if l.isAlpha then some rest else none
      | [] => none := rfl

theorem ansiPrefix_not_esc (c : Char) (t : GoString) (h : c ≠ '\x1b') :
    ansiPrefix (c :: t) = none := by
  unfold ansiPrefix
  split
  · rename_i heq
    exact absurd (List.cons.inj heq).1 h
  · rfl

theorem ansiPrefix_not_bracket (c : Char) (t : GoString) (h : c ≠ '[') :
    ansiPrefix ('\x1b' :: c :: t) = none := by
  unfold ansiPrefix
  split
  · rename_i heq
    exact absurd (List.cons.inj (List.cons.inj heq).2).1 h
  · rfl

theorem ansi_matchAt (n : Nat) (t : GoString) :
    ansiPattern.matchAt n t = (ansiPrefix t).map (fun r => (r, [])) := by
  cases t with
  | nil => rfl
  | cons c t =>
    by_cases hc : c = '\x1b'
    · subst hc
      cases t with
      | nil => rfl
      | cons d t =>
        by_cases hd : d = '['
        · subst hd
          rw [ansiPrefix_esc]
          show starLoop isParamClass
            (fun t' => (Regexp.cls Char.isAlpha).run n t' [] (fun t' caps => some (t', caps))) t = _
          rw [starLoop_longest]
          · cases t.dropWhile isParamClass with
            | nil => rfl
            | cons l rest =>
              show (if l.isAlpha = true then some (rest, []) else none) = _
              by_cases hl : l.isAlpha = true
              · simp only [hl, if_true]; rfl
              · simp only [hl]; rfl
          · intro c t hp
            show (if c.isAlpha = true then _ else none) = none
            rw [isParam_not_alpha c hp]
            rfl
        · rw [ansiPrefix_not_bracket _ _ hd]
          show (if ('\x1b' == '\x1b') = true then
            (if (d == '[') = true then _ else none) else none) = _
          have : (d == '[') = false := by simpa using hd
          rw [this]
          rfl
    · rw [ansiPrefix_not_esc _ _ hc]
      show (if (c == '\x1b') = true then _ else none) = _
      have : (c == '\x1b') = false := by simpa using hc
      rw [this]
      rfl

end parser

namespace parser

open regexp

theorem ansiPrefix_eq_some (t r : GoString) (h : ansiPrefix t = some r) :
    ∃ t' l, t = '\x1b' :: '[' :: t' ∧ t'.dropWhile isParamClass = l :: r ∧ l.isAlpha = true := by
  unfold ansiPrefix at h
  split at h
  · rename_i t'
    split at h
    · rename_i l rest hdw
      by_cases hl : l.isAlpha = true
      · rw [if_pos hl] at h
        cases h
        exact ⟨t', l, rfl, hdw, hl⟩
      · rw [if_neg hl] at h
        cases h
    · cases h
  · cases h

theorem ansiPrefix_length (t r : GoString) (h : ansiPrefix t = some r) :
    r.length + 3 ≤ t.length := by
  obtain ⟨t', l, rfl, hdw, _⟩ := ansiPrefix_eq_some t r h
  have := (List.dropWhile_suffix (l := t') isParamClass).length_le
  rw [hdw] at this
  simp only [List.length_cons] at this ⊢
  omega

theorem ansiPrefix_append_some (t r b : GoString) (h : ansiPrefix t = some r) :
    ansiPrefix (t ++ b) = some (r ++ b) := by
  obtain ⟨t', l, rfl, hdw, hl⟩ := ansiPrefix_eq_some t r h
  show ansiPrefix ('\x1b' :: '[' :: (t' ++ b)) = _
  rw [ansiPrefix_esc, List.dropWhile_append, hdw]
  show (if l.isAlpha = true then some (r ++ b) else none) = _
  rw [if_pos hl]

theorem esc_not_param : isParamClass '\x1b' = false := by decide

theorem esc_not_alpha : Char.isAlpha '\x1b' = false := by decide

theorem ansiPrefix_append_none (t b : GoString) (ht : t ≠ []) (h : ansiPrefix t = none)
    (hb : b = [] ∨ ∃ b', b = '\x1b' :: b') : ansiPrefix (t ++ b) = none := by
  rcases hb with rfl | ⟨b', rfl⟩
  · rw [List.append_nil]; exact h
  · cases t with
    | nil => exact absurd rfl ht
    | cons c t =>
      by_cases hc : c = '\x1b'
      · subst hc
        cases t with
        | nil => exact ansiPrefix_not_bracket _ _ (by decide)
        | cons d t =>
          by_cases hd : d = '['
          · subst hd
            rw [ansiPrefix_esc] at h
            show ansiPrefix ('\x1b' :: '[' :: (t ++ '\x1b' :: b')) = none
            rw [ansiPrefix_esc, List.dropWhile_append]
            cases hdw : t.dropWhile isParamClass with
            | nil =>
              simp only [List.isEmpty_nil, if_true]
              rw [List.dropWhile_cons, if_neg (by rw [esc_not_param]; decide)]
              show (if Char.isAlpha '\x1b' = true then _ else none) = none
              rw [esc_not_alpha]
              rfl
            | cons l rest =>
              rw [hdw] at h
              simp only [List.isEmpty_cons, Bool.false_eq_true, if_false]
              show (if l.isAlpha = true then some (rest ++ '\x1b' :: b') else none) = none
              by_cases hl : l.isAlpha = true
              · change (if l.isAlpha = true then some rest else none) = none at h
                rw [if_pos hl] at h; cases h
              · rw [if_neg hl]
          · exact ansiPrefix_not_bracket _ _ hd
      · exact ansiPrefix_not_esc _ _ hc

theorem removeAll_ansi_nil (n k : Nat) : ansiPattern.removeAll n k [] = [] := by
  cases k <;> rfl

theorem removeAll_ansi_skip (n k : Nat) (c : Char) (cs : GoString) :
    ansiPattern.removeAll n (k + 1) (c :: cs) = ansiPattern.removeAll n k cs := rfl

theorem removeAll_ansi_some (n : Nat) (c : Char) (cs rest : GoString)
    (h : ansiPrefix (c :: cs) = some rest) :
    ansiPattern.removeAll n 0 (c :: cs) = ansiPattern.removeAll n (cs.length - rest.length) cs := by
  have hlen := ansiPrefix_length _ _ h
  simp only [List.length_cons] at hlen
  show (match ansiPattern.matchAt n (c :: cs) with
    | some (rest, _) =>
      if (c :: cs).length - rest.length = 0 then c :: ansiPattern.removeAll n 0 cs
      else ansiPattern.removeAll n ((c :: cs).length - rest.length - 1) cs
    | none => c :: ansiPattern.removeAll n 0 cs) = _
  rw [ansi_matchAt, h]
  show (if (c :: cs).length - rest.length = 0 then c :: ansiPattern.removeAll n 0 cs
      else ansiPattern.removeAll n ((c :: cs).length - rest.length - 1) cs) = _
  have h1 : ¬ ((c :: cs).length - rest.length = 0) := by
    simp only [List.length_cons]; omega
  have h2 : (c :: cs).length - rest.length - 1 = cs.length - rest.length := by
    simp only [List.length_cons]; omega
  rw [if_neg h1, h2]

theorem removeAll_ansi_none (n : Nat) (c : Char) (cs : GoString)
    (h : ansiPrefix (c :: cs) = none) :
    ansiPattern.removeAll n 0 (c :: cs) = c :: ansiPattern.removeAll n 0 cs := by
  show (match ansiPattern.matchAt n (c :: cs) with
    | some (rest, _) =>
      if (c :: cs).length - rest.length = 0 then c :: ansiPattern.removeAll n 0 cs
      else ansiPattern.removeAll n ((c :: cs).length - rest.length - 1) cs
    | none => c :: ansiPattern.removeAll n 0 cs) = _
  rw [ansi_matchAt, h]
  rfl

/-- The length of the text plays no part in the matches of `ansiPattern`. -/
theorem removeAll_ansi_indep (n m k : Nat) (t : GoString) :
    ansiPattern.removeAll n k t = ansiPattern.removeAll m k t := by
  induction t generalizing k with
  | nil => rw [removeAll_ansi_nil, removeAll_ansi_nil]
  | cons c cs ih =>
    cases k with
    | succ k => rw [removeAll_ansi_skip, removeAll_ansi_skip, ih]
    | zero =>
      cases h : ansiPrefix (c :: cs) with
      | some rest => rw [removeAll_ansi_some _ _ _ _ h, removeAll_ansi_some _ _ _ _ h, ih]
      | none => rw [removeAll_ansi_none _ _ _ h, removeAll_ansi_none _ _ _ h, ih]

theorem removeAll_ansi_drop (n : Nat) (a b : GoString) :
    ansiPattern.removeAll n a.length (a ++ b) = ansiPattern.removeAll n 0 b := by
  induction a with
  | nil => rfl
  | cons c cs ih => exact ih

/-- The text before an ESC character is stripped on its own. -/
theorem removeAll_ansi_append (n k : Nat) (pre b : GoString) (hk : k ≤ pre.length)
    (hb : b = [] ∨ ∃ b', b = '\x1b' :: b') :
    ansiPattern.removeAll n k (pre ++ b)
      = ansiPattern.removeAll n k pre ++ ansiPattern.removeAll n 0 b := by
  induction pre generalizing k with
  | nil =>
    have : k = 0 := by simpa using hk
    subst this
    rw [removeAll_ansi_nil]
    rfl
  | cons c cs ih =>
    cases k with
    | succ k =>
      rw [List.cons_append, removeAll_ansi_skip, removeAll_ansi_skip]
      exact ih k (by simpa using hk)
    | zero =>
      cases h : ansiPrefix (c :: cs) with
      | some rest =>
        have h' := ansiPrefix_append_some _ _ b h
        have hlen := ansiPrefix_length _ _ h
        simp only [List.length_cons] at hlen
        rw [removeAll_ansi_some _ _ _ _ h]
        rw [List.cons_append] at h' ⊢
        rw [removeAll_ansi_some _ _ _ _ h']
        have : (cs ++ b).length - (rest ++ b).length = cs.length - rest.length := by
          simp only [List.length_append]; omega
        rw [this]
        exact ih _ (by omega)
      | none =>
        have h' := ansiPrefix_append_none _ b (List.cons_ne_nil c cs) h hb
        rw [removeAll_ansi_none _ _ _ h]
        rw [List.cons_append] at h' ⊢
        rw [removeAll_ansi_none _ _ _ h', ih 0 (Nat.zero_le _)]
        rfl

theorem stripAnsi_eq (n : Nat) (line : GoString) :
    stripAnsi line = ansiPattern.removeAll n 0 line :=
  removeAll_ansi_indep _ _ _ _

/-- Every escape sequence of the input is deleted, and the text on either side of it is
stripped on its own. -/
theorem stripAnsi_seq (pre s post : GoString) (hs : ansiPrefix s = some []) :
    stripAnsi (pre ++ s ++ post) = stripAnsi pre ++ stripAnsi post := by
  obtain ⟨t', l, rfl, _, _⟩ := ansiPrefix_eq_some s [] hs
  have h' := ansiPrefix_append_some _ _ post hs
  rw [List.nil_append] at h'
  rw [List.cons_append] at h'
  rw [List.append_assoc, List.cons_append, stripAnsi_eq 0, stripAnsi_eq 0 pre,
    stripAnsi_eq 0 post,
    removeAll_ansi_append 0 0 pre _ (Nat.zero_le _) (Or.inr ⟨_, rfl⟩)]
  congr 1
  rw [removeAll_ansi_some _ _ _ _ h']
  have hlen : (('[' :: t') ++ post).length - post.length = ('[' :: t').length := by
    simp only [List.length_append]; omega
  rw [hlen]
  exact removeAll_ansi_drop 0 ('[' :: t') post

end parser

/-! ## The parser: the container tag -/

namespace parser

open regexp

theorem run_plus {α : Type} (p : Char → Bool) (n : Nat) (c : Char) (cs : GoString) (caps : Caps)
    (k : GoString → Caps → Option α) :
    (Regexp.plus p).run n (c :: cs) caps k
      = if p c = true then starLoop p (fun t' => k t' caps) cs else none := rfl

/-- `c+` before a pattern that cannot start with a character of the class takes the
longest run, which must not be empty. -/
theorem run_plus_longest {α : Type} (p : Char → Bool) (n : Nat) (t : GoString) (caps : Caps)
    (k : GoString → Caps → Option α) (h : ∀ c t', p c = true → k (c :: t') caps = none) :
    (Regexp.plus p).run n t caps k
      = if t.takeWhile p = [] then none else k (t.dropWhile p) caps := by
  cases t with
  | nil => rfl
  | cons c cs =>
    rw [run_plus]
    by_cases hc : p c = true
    · rw [if_pos hc, starLoop_longest p _ cs (fun c t' hp => h c t' hp), List.takeWhile_cons,
        if_pos hc, if_neg (List.cons_ne_nil _ _), List.dropWhile_cons, if_pos hc]
    · rw [if_neg hc, List.takeWhile_cons, if_neg hc, if_pos rfl]

theorem take_length_sub_nil (u : GoString) : u.take (u.length - ([] : GoString).length) = u := by
  rw [List.length_nil, Nat.sub_zero, List.take_length]

/-- The end `(.*)$` of the pattern: the rest of the text, when it holds no line feed. -/
theorem run_group2_eot (n : Nat) (u : GoString) (caps : Caps) :
    (Regexp.seq (.group 2 (.star isAnyClass)) .eot).run n u caps (fun t' c' => some (t', c'))
      = if u.all isAnyClass = true then some ([], (2, u) :: caps) else none := by
  show starLoop isAnyClass (fun t' =>
      if t' = [] then some (t', (2, u.take (u.length - t'.length)) :: caps) else none) u = _
  rw [starLoop_longest]
  · by_cases hall : u.all isAnyClass = true
    · have hdw : u.dropWhile isAnyClass = [] := by
        rw [List.dropWhile_eq_nil_iff]
        exact List.all_eq_true.1 hall
      rw [hdw, if_pos rfl, if_pos hall, take_length_sub_nil]
    · have hdw : u.dropWhile isAnyClass ≠ [] := by
        intro h
        rw [List.dropWhile_eq_nil_iff] at h
        exact hall (List.all_eq_true.2 h)
      rw [if_neg hdw, if_neg hall]
  · intro c t' _
    rw [if_neg (List.cons_ne_nil _ _)]

theorem space_not_pipe (c : Char) (h : isSpaceClass c = true) : c ≠ '|' := by
  intro hc; subst hc; revert h; decide

theorem all_append_false (p : Char → Bool) (b u : GoString) (h : ¬ u.all p = true) :
    ¬ (b ++ u).all p = true := by
  intro hall
  apply h
  rw [List.all_eq_true] at hall ⊢
  intro x hx
  exact hall x (List.mem_append_right _ hx)

/-- The end `\s+\|\s+(.*)$` of the pattern. -/
theorem run_tagRest (n : Nat) (r : GoString) (caps : Caps) :
    (Regexp.seq (.plus isSpaceClass)
      (.seq (.cls (fun c => c == '|'))
        (.seq (.plus isSpaceClass)
          (.seq (.group 2 (.star isAnyClass)) .eot)))).run n r caps (fun t' c' => some (t', c'))
      = (tagRest r).map (fun rest => ([], (2, rest) :: caps)) := by
  show (Regexp.plus isSpaceClass).run n r caps (fun t' c' =>
    (Regexp.seq (.cls (fun c => c == '|'))
        (.seq (.plus isSpaceClass)
          (.seq (.group 2 (.star isAnyClass)) .eot))).run n t' c' (fun t' c' => some (t', c'))) = _
  rw [run_plus_longest]
  · unfold tagRest
    by_cases h₁ : r.takeWhile isSpaceClass = []
    · rw [if_pos h₁, if_pos h₁]; rfl
    · rw [if_neg h₁, if_neg h₁]
      cases r.dropWhile isSpaceClass with
      | nil => rfl
      | cons c r₂ =>
        show (if (c == '|') = true then
          (Regexp.plus isSpaceClass).run n r₂ caps (fun t' c' =>
            (Regexp.seq (.group 2 (.star isAnyClass)) .eot).run n t' c'
              (fun t' c' => some (t', c'))) else none) = _
        show _ = Option.map (fun rest => ([], (2, rest) :: caps))
          (if c = '|' then
            if r₂.takeWhile isSpaceClass = [] then none
            else if (r₂.dropWhile isSpaceClass).all isAnyClass = true then
              some (r₂.dropWhile isSpaceClass)
            else none
          else none)
        by_cases hc : c = '|'
        · subst hc
          rw [if_pos rfl, if_pos (show ('|' == '|') = true from rfl)]
          cases r₂ with
          | nil => rfl
          | cons d r₃ =>
            rw [run_plus]
            by_cases hd : isSpaceClass d = true
            · rw [if_pos hd, List.takeWhile_cons, if_pos hd, if_neg (List.cons_ne_nil _ _),
                List.dropWhile_cons, if_pos hd, starLoop_greedy]
              · rw [run_group2_eot]
                by_cases hall : (r₃.dropWhile isSpaceClass).all isAnyClass = true
                · rw [if_pos hall, if_pos hall]; rfl
                · rw [if_neg hall, if_neg hall]; rfl
              · intro hnone a b _ _
                rw [run_group2_eot] at hnone ⊢
                by_cases hall : (r₃.dropWhile isSpaceClass).all isAnyClass = true
                · rw [if_pos hall] at hnone; cases hnone
                · rw [if_neg (all_append_false _ _ _ hall)]
            · rw [if_neg hd, List.takeWhile_cons, if_neg hd, if_pos rfl]; rfl
        · have : (c == '|') = false := by simpa using hc
          rw [this, if_neg hc]
          rfl
  · intro c t' hc
    show (if (c == '|') = true then _ else none) = none
    have : (c == '|') = false := by simpa using space_not_pipe c hc
    rw [this]
    rfl

end parser

namespace parser

open regexp

theorem dockerComposePattern_eq :
    dockerComposePattern = .seq .bot
      (.seq (.group 1 (.seq (.plus isWordClass) (.opt tagSuffixPattern))) tagTailPattern) := rfl

theorem run_tagTail (n : Nat) (r : GoString) (caps : Caps) :
    tagTailPattern.run n r caps (fun t' c' => some (t', c'))
      = (tagRest r).map (fun rest => ([], (2, rest) :: caps)) := run_tagRest n r caps

theorem word_not_space (c : Char) (h : isWordClass c = true) : isSpaceClass c = false := by
  cases hs : isSpaceClass c with
  | false => rfl
  | true =>
    exfalso
    unfold isSpaceClass at hs
    simp only [Bool.or_eq_true, beq_iff_eq] at hs
    rcases hs with (((hs | hs) | hs) | hs) | hs <;> subst hs <;> revert h <;> decide

theorem digit_word (c : Char) (h : c.isDigit = true) : isWordClass c = true := by
  unfold isWordClass Char.isAlphanum
  rw [h, Bool.or_true, Bool.true_or, Bool.true_or]

theorem dash_word : isWordClass '-' = true := by decide

theorem tagRest_word (c : Char) (t : GoString) (h : isWordClass c = true) :
    tagRest (c :: t) = none := by
  unfold tagRest
  rw [List.takeWhile_cons, word_not_space c h]
  rfl

theorem dropWhile_head_not (p : Char → Bool) (l : GoString) (c : Char) (t : GoString)
    (h : l.dropWhile p = c :: t) : p c = false := by
  have := List.head?_dropWhile_not p l
  rw [h] at this
  simpa using this

theorem take_sub_dropWhile (p : Char → Bool) (l : GoString) :
    l.take (l.length - (l.dropWhile p).length) = l.takeWhile p := by
  have h := List.takeWhile_append_dropWhile p l
  have hlen : l.length - (l.dropWhile p).length = (l.takeWhile p).length := by
    have := congrArg List.length h
    rw [List.length_append] at this
    omega
  rw [hlen]
  have key : (l.takeWhile p ++ l.dropWhile p).take (l.takeWhile p).length = l.takeWhile p :=
    List.take_left' rfl
  rw [h] at key
  exact key

/-- The continuation of group 1: the end of the pattern, with the tag recorded. -/
theorem tagCont_word (n : Nat) (line : GoString) (c : Char) (t : GoString) (caps : Caps)
    (h : isWordClass c = true) :
    tagTailPattern.run n (c :: t) ((1, line.take (line.length - (c :: t).length)) :: caps)
      (fun t' c' => some (t', c')) = none := by
  rw [run_tagTail, tagRest_word c t h]
  rfl

theorem run_tagSuffix_cons {α : Type} (n : Nat) (x y : Char) (z : GoString) (caps : Caps)
    (k : GoString → Caps → Option α) :
    tagSuffixPattern.run n (x :: y :: z) caps k
      = if (x == '-') = true then
          (if y.isDigit = true then starLoop Char.isDigit (fun t' => k t' caps) z else none)
        else none := rfl

theorem run_tagSuffix_not_dash {α : Type} (n : Nat) (t : GoString) (caps : Caps)
    (k : GoString → Caps → Option α) (h : ∀ c t', t = c :: t' → c ≠ '-') :
    tagSuffixPattern.run n t caps k = none := by
  cases t with
  | nil => rfl
  | cons c t' =>
    show (if (c == '-') = true then _ else none) = none
    have : (c == '-') = false := by simpa using h c t' rfl
    rw [this]
    rfl

/-- After a run of digits inside the tag, the end of the pattern cannot match unless it
matches after the whole tag. -/
theorem tagCont_after_digits {α : Type} (k : GoString → Option α) (b rest : GoString)
    (hb : ∀ x ∈ b, isWordClass x = true)
    (hrest : ∀ c t, rest = c :: t → isWordClass c = false)
    (hword : ∀ c t, isWordClass c = true → k (c :: t) = none)
    (hk : k rest = none) :
    k ((b ++ rest).dropWhile Char.isDigit) = none := by
  induction b with
  | nil =>
    cases rest with
    | nil => exact hk
    | cons c t =>
      have hc : c.isDigit = false := by
        cases hd : c.isDigit with
        | false => rfl
        | true =>
          have := digit_word c hd
          rw [hrest c t rfl] at this
          cases this
      rw [List.nil_append, List.dropWhile_cons, hc]
      exact hk
  | cons e b ih =>
    rw [List.cons_append, List.dropWhile_cons]
    by_cases he : e.isDigit = true
    · rw [if_pos he]
      exact ih (fun x hx => hb x (List.mem_cons_of_mem _ hx))
    · rw [if_neg he]
      exact hword e _ (hb e (List.mem_cons_self _ _))

/-- Inside the tag the optional suffix and the end of the pattern cannot match unless the end
matches after the whole tag. -/
theorem run_opt_inside_tag {α : Type} (n : Nat) (k : GoString → Caps → Option α)
    (b rest : GoString) (hne : b ≠ [])
    (hb : ∀ x ∈ b, isWordClass x = true)
    (hrest : ∀ c t, rest = c :: t → isWordClass c = false)
    (hword : ∀ c t, isWordClass c = true → k (c :: t) [] = none)
    (hk : k rest [] = none) :
    (Regexp.opt tagSuffixPattern).run n (b ++ rest) [] k = none := by
  cases b with
  | nil => exact absurd rfl hne
  | cons x b' =>
    have hx : isWordClass x = true := hb x (List.mem_cons_self _ _)
    have hb' : ∀ y ∈ b', isWordClass y = true := fun y hy => hb y (List.mem_cons_of_mem _ hy)
    have hsuffix : tagSuffixPattern.run n (x :: b' ++ rest) [] k = none := by
      cases b' with
      | nil =>
        cases rest with
        | nil => show (if (x == '-') = true then none else none) = none; split <;> rfl
        | cons y z =>
          rw [List.cons_append, List.nil_append, run_tagSuffix_cons]
          have hy : y.isDigit = false := by
            cases hd : y.isDigit with
            | false => rfl
            | true =>
              have := digit_word y hd
              rw [hrest y z rfl] at this
              cases this
          rw [hy]
          split <;> rfl
      | cons y b'' =>
        rw [List.cons_append, List.cons_append, run_tagSuffix_cons]
        by_cases hx' : (x == '-') = true
        · rw [if_pos hx']
          by_cases hy : y.isDigit = true
          · rw [if_pos hy, starLoop_longest]
            · exact tagCont_after_digits (fun t => k t []) b'' rest
                (fun z hz => hb' z (List.mem_cons_of_mem _ hz)) hrest hword hk
            · intro c t hc
              exact hword c t (digit_word c hc)
          · rw [if_neg hy]
        · rw [if_neg hx']
    show (match tagSuffixPattern.run n (x :: b' ++ rest) [] k with
      | some res => some res
      | none => k (x :: b' ++ rest) []) = none
    rw [hsuffix]
    exact hword x _ hx

end parser

namespace parser

open regexp

theorem run_opt_of_none {α : Type} (r : Regexp) (n : Nat) (t : GoString) (caps : Caps)
    (k : GoString → Caps → Option α) (h : r.run n t caps k = none) :
    (Regexp.opt r).run n t caps k = k t caps := by
  show (match r.run n t caps k with
    | some res => some res
    | none => k t caps) = _
  rw [h]

/-- A match of `dockerComposePattern` at the start of a line: the submatches are the longest
run of tag characters and the remainder after the pipe and the white space around it. -/
theorem docker_matchAt (line : GoString) :
    dockerComposePattern.matchAt line.length line
      = (splitTag line).map (fun p => ([], [(2, p.2), (1, p.1)])) := by
  cases line with
  | nil => rfl
  | cons c cs =>
    show (if (c :: cs).length = (c :: cs).length then
        (Regexp.plus isWordClass).run (c :: cs).length (c :: cs) []
          (fun t₁ c₁ => (Regexp.opt tagSuffixPattern).run (c :: cs).length t₁ c₁
            (fun t' caps' => tagTailPattern.run (c :: cs).length t'
              ((1, (c :: cs).take ((c :: cs).length - t'.length)) :: caps')
              (fun t' c' => some (t', c'))))
      else none) = _
    rw [if_pos rfl, run_plus]
    unfold splitTag
    by_cases hc : isWordClass c = true
    · have hdw : (c :: cs).dropWhile isWordClass = cs.dropWhile isWordClass := by
        rw [List.dropWhile_cons, if_pos hc]
      have htw : (c :: cs).takeWhile isWordClass ≠ [] := by
        rw [List.takeWhile_cons, if_pos hc]
        exact List.cons_ne_nil _ _
      have hrest : ∀ d t, cs.dropWhile isWordClass = d :: t → isWordClass d = false :=
        fun d t h => dropWhile_head_not _ _ _ _ h
      have hopt : (Regexp.opt tagSuffixPattern).run (c :: cs).length
          (cs.dropWhile isWordClass) []
          (fun t' caps' => tagTailPattern.run (c :: cs).length t'
            ((1, (c :: cs).take ((c :: cs).length - t'.length)) :: caps')
            (fun t' c' => some (t', c')))
          = tagTailPattern.run (c :: cs).length (cs.dropWhile isWordClass)
            [(1, (c :: cs).take ((c :: cs).length - (cs.dropWhile isWordClass).length))]
            (fun t' c' => some (t', c')) := by
        apply run_opt_of_none
        apply run_tagSuffix_not_dash
        intro d t h hd
        have := hrest d t h
        rw [hd, dash_word] at this
        cases this
      rw [if_pos hc, if_neg htw, starLoop_greedy]
      · rw [hopt, run_tagTail, hdw, Option.map_map]
        have htake : (c :: cs).take ((c :: cs).length - (cs.dropWhile isWordClass).length)
            = (c :: cs).takeWhile isWordClass := by
          rw [← hdw]
          exact take_sub_dropWhile _ _
        rw [htake]
        rfl
      · intro hnone a b hab hb
        apply run_opt_inside_tag
        · exact hb
        · intro x hx
          apply List.mem_takeWhile_imp (l := cs)
          rw [← hab]
          exact List.mem_append_right _ hx
        · exact hrest
        · intro d t hd
          exact tagCont_word _ _ d t [] hd
        · rw [hopt] at hnone
          exact hnone
    · have htw : (c :: cs).takeWhile isWordClass = [] := by
        rw [List.takeWhile_cons, if_neg hc]
      rw [if_neg hc, if_pos htw]
      rfl

theorem docker_search_tail (n : Nat) (t : GoString) (h : t.length < n) :
    dockerComposePattern.search n t = none := by
  induction t with
  | nil =>
    show Option.map _ (if ([] : GoString).length = n then _ else none) = none
    rw [if_neg (Nat.ne_of_lt h)]
    rfl
  | cons c cs ih =>
    have hm : dockerComposePattern.matchAt n (c :: cs) = none := by
      show (if (c :: cs).length = n then _ else none) = none
      rw [if_neg (Nat.ne_of_lt h)]
    show (match dockerComposePattern.matchAt n (c :: cs) with
      | some r => some (c :: cs, r.1, r.2)
      | none => dockerComposePattern.search n cs) = none
    rw [hm]
    exact ih (Nat.lt_of_succ_lt h)

/-- What `dockerComposePattern.FindStringSubmatch` returns: the line, the tag and the
remainder, when the line splits at a tag. -/
theorem docker_FindStringSubmatch (line : GoString) :
    dockerComposePattern.FindStringSubmatch 2 line
      = (splitTag line).map (fun p => [line, p.1, p.2]) := by
  unfold Regexp.FindStringSubmatch
  cases line with
  | nil => rfl
  | cons c cs =>
    have hs : dockerComposePattern.search (c :: cs).length (c :: cs)
        = match dockerComposePattern.matchAt (c :: cs).length (c :: cs) with
          | some r => some (c :: cs, r.1, r.2)
          | none => dockerComposePattern.search (c :: cs).length cs := rfl
    rw [hs, docker_matchAt]
    cases splitTag (c :: cs) with
    | none =>
      show (match dockerComposePattern.search (c :: cs).length cs with
        | some (start, rest, caps) => _
        | none => none) = none
      rw [docker_search_tail (c :: cs).length cs (Nat.lt_succ_self _)]
    | some p =>
      show some (((c :: cs).take ((c :: cs).length - ([] : GoString).length))
        :: [p.1, p.2]) = some [c :: cs, p.1, p.2]
      rw [take_length_sub_nil]

end parser

/-! ## The parser: `parseLine` -/

namespace parser

open regexp

/-- The entry `parseLine` builds before it looks for JSON. -/
theorem parseLine_eq (line : GoString) :
    parseLine line =
      (let entry : Entry :=
        match splitTag (stripAnsi line) with
        | some p => { Container := p.1, Content := p.2, IsJSON := false, JSON := none }
        | none =>
          { Container := ['d', 'e', 'f', 'a', 'u', 'l', 't'], Content := stripAnsi line,
            IsJSON := false, JSON := none }
      if (strings.TrimSpace entry.Content).length > 0 ∧
          ((strings.TrimSpace entry.Content).head? = some '{' ∨
            (strings.TrimSpace entry.Content).head? = some '[') then
        match json.Unmarshal (strings.TrimSpace entry.Content) with
        | some parsed => { entry with IsJSON := true, JSON := parsed }
        | none => entry
      else entry) := by
  unfold parseLine
  simp only [docker_FindStringSubmatch]
  unfold stripAnsi
  cases splitTag (ansiPattern.ReplaceAllString line) <;> rfl

theorem parseLine_container_content (line : GoString) :
    (parseLine line).Container
        = (match splitTag (stripAnsi line) with
          | some p => p.1
          | none => ['d', 'e', 'f', 'a', 'u', 'l', 't']) ∧
    (parseLine line).Content
        = (match splitTag (stripAnsi line) with
          | some p => p.2
          | none => stripAnsi line) := by
  rw [parseLine_eq]
  cases splitTag (stripAnsi line) with
  | none =>
    dsimp only
    split
    · split <;> exact ⟨rfl, rfl⟩
    · exact ⟨rfl, rfl⟩
  | some p =>
    dsimp only
    split
    · split <;> exact ⟨rfl, rfl⟩
    · exact ⟨rfl, rfl⟩

end parser

namespace parser

open regexp

theorem span_append (p : Char → Bool) (a b : GoString) (ha : ∀ x ∈ a, p x = true)
    (hb : ∀ c t, b = c :: t → p c = false) :
    (a ++ b).takeWhile p = a ∧ (a ++ b).dropWhile p = b := by
  have hb₁ : b.takeWhile p = [] := by
    cases b with
    | nil => rfl
    | cons c t => rw [List.takeWhile_cons, hb c t rfl]; rfl
  have hb₂ : b.dropWhile p = b := by
    cases b with
    | nil => rfl
    | cons c t => rw [List.dropWhile_cons, hb c t rfl]; rfl
  constructor
  · rw [List.takeWhile_append_of_pos ha, hb₁, List.append_nil]
  · rw [List.dropWhile_append_of_pos ha, hb₂]

theorem removeAll_ansi_of_search (n : Nat) (t : GoString) (h : ansiPattern.search n t = none) :
    ansiPattern.removeAll n 0 t = t := by
  induction t with
  | nil => rfl
  | cons c cs ih =>
    have hs : ansiPattern.search n (c :: cs)
        = match ansiPattern.matchAt n (c :: cs) with
          | some r => some (c :: cs, r.1, r.2)
          | none => ansiPattern.search n cs := rfl
    rw [hs, ansi_matchAt] at h
    cases hp : ansiPrefix (c :: cs) with
    | some r => rw [hp] at h; cases h
    | none =>
      rw [hp] at h
      rw [removeAll_ansi_none _ _ _ hp, ih h]

theorem stripAnsi_of_not_match (t : GoString) (h : ansiPattern.MatchString t = false) :
    stripAnsi t = t := by
  unfold Regexp.MatchString at h
  have hs : ansiPattern.search t.length t = none := by
    cases hsr : ansiPattern.search t.length t with
    | none => rfl
    | some r => rw [hsr] at h; cases h
  exact removeAll_ansi_of_search _ _ hs

theorem stripAnsi_append_no_esc (a b : GoString) (ha : '\x1b' ∉ a) :
    stripAnsi (a ++ b) = a ++ stripAnsi b := by
  rw [stripAnsi_eq 0, stripAnsi_eq 0 b]
  induction a with
  | nil => rfl
  | cons c cs ih =>
    rw [List.mem_cons, not_or] at ha
    rw [List.cons_append, removeAll_ansi_none _ _ _ (ansiPrefix_not_esc _ _ (Ne.symm ha.1)),
      ih ha.2]
    rfl

theorem esc_not_word : isWordClass '\x1b' = false := by decide

theorem esc_not_space : isSpaceClass '\x1b' = false := by decide

theorem tagRest_split (ws₁ ws₂ rest : GoString)
    (hws₁ : ws₁ ≠ []) (hspace₁ : ∀ c ∈ ws₁, isSpaceClass c = true)
    (hws₂ : ws₂ ≠ []) (hspace₂ : ∀ c ∈ ws₂, isSpaceClass c = true)
    (hnl : '\n' ∉ rest) :
    tagRest (ws₁ ++ ('|' :: (ws₂ ++ rest))) = some (rest.dropWhile isSpaceClass) := by
  have h₁ := span_append isSpaceClass ws₁ ('|' :: (ws₂ ++ rest)) hspace₁
    (fun c t h => by rw [← (List.cons.inj h).1]; decide)
  have htw₂ : (ws₂ ++ rest).takeWhile isSpaceClass ≠ [] := by
    rw [List.takeWhile_append_of_pos hspace₂]
    intro h
    exact hws₂ (List.append_eq_nil.1 h).1
  have hall : (rest.dropWhile isSpaceClass).all isAnyClass = true := by
    rw [List.all_eq_true]
    intro x hx
    have hx' : x ∈ rest := (List.dropWhile_suffix (l := rest) isSpaceClass).subset hx
    unfold isAnyClass
    rw [bne_iff_ne]
    intro hxe
    exact hnl (hxe ▸ hx')
  unfold tagRest
  rw [h₁.1, h₁.2, if_neg hws₁]
  show (if '|' = '|' then _ else none) = _
  rw [if_pos rfl, if_neg htw₂, List.dropWhile_append_of_pos hspace₂, if_pos hall]

theorem splitTag_split (name ws₁ ws₂ rest : GoString)
    (hname : name ≠ []) (hword : ∀ c ∈ name, isWordClass c = true)
    (hws₁ : ws₁ ≠ []) (hspace₁ : ∀ c ∈ ws₁, isSpaceClass c = true)
    (hws₂ : ws₂ ≠ []) (hspace₂ : ∀ c ∈ ws₂, isSpaceClass c = true)
    (hnl : '\n' ∉ rest) :
    splitTag (name ++ (ws₁ ++ ('|' :: (ws₂ ++ rest))))
      = some (name, rest.dropWhile isSpaceClass) := by
  have h₀ := span_append isWordClass name (ws₁ ++ ('|' :: (ws₂ ++ rest))) hword (by
    intro c t h
    cases ws₁ with
    | nil => exact absurd rfl hws₁
    | cons w ws =>
      have hw : isSpaceClass c = true := by
        rw [← (List.cons.inj h).1]
        exact hspace₁ w (List.mem_cons_self _ _)
      cases hc : isWordClass c with
      | false => rfl
      | true => rw [word_not_space c hc] at hw; cases hw)
  unfold splitTag
  rw [h₀.1, h₀.2, if_neg hname, tagRest_split ws₁ ws₂ rest hws₁ hspace₁ hws₂ hspace₂ hnl]
  rfl

end parser

namespace parser

open regexp

/-- C4, as stated, fails: with the tag "a" and the remainder " x" (no escape sequence, no
line break), the line "a |  x" gets the content "x", not " x". -/
theorem parseLine_tag_counterexample :
    (['a'] : GoString) ≠ [] ∧ (∀ c ∈ (['a'] : GoString), isWordClass c = true) ∧
    (∀ c ∈ ([' '] : GoString), isSpaceClass c = true) ∧
    ansiPattern.MatchString [' ', 'x'] = false ∧ '\n' ∉ ([' ', 'x'] : GoString) ∧
    (parseLine (['a'] ++ ([' '] ++ ('|' :: ([' '] ++ [' ', 'x']))))).Container = ['a'] ∧
    (parseLine (['a'] ++ ([' '] ++ ('|' :: ([' '] ++ [' ', 'x']))))).Content = ['x'] ∧
    (parseLine (['a'] ++ ([' '] ++ ('|' :: ([' '] ++ [' ', 'x']))))).Content ≠ [' ', 'x'] := by
  decide

/-- C4 (amended): for every tag `name` of one or more characters of `[a-zA-Z0-9_-]`, white
space `ws₁` and `ws₂` (one or more characters of `\s` each) and every remainder `rest` with
no ANSI escape sequence and no line feed, `parseLine` on `name ws₁ | ws₂ rest` yields
`Container == name` and `Content ==` `rest` without its leading white space; so
`Content == rest` when `rest` does not begin with white space. -/
theorem parseLine_tag (name ws₁ ws₂ rest : GoString)
    (hname : name ≠ []) (hword : ∀ c ∈ name, isWordClass c = true)
    (hws₁ : ws₁ ≠ []) (hspace₁ : ∀ c ∈ ws₁, isSpaceClass c = true)
    (hws₂ : ws₂ ≠ []) (hspace₂ : ∀ c ∈ ws₂, isSpaceClass c = true)
    (hansi : ansiPattern.MatchString rest = false) (hnl : '\n' ∉ rest) :
    (parseLine (name ++ (ws₁ ++ ('|' :: (ws₂ ++ rest))))).Container = name ∧
    (parseLine (name ++ (ws₁ ++ ('|' :: (ws₂ ++ rest))))).Content
      = rest.dropWhile isSpaceClass ∧
    ((∀ c t, rest = c :: t → isSpaceClass c = false) →
      (parseLine (name ++ (ws₁ ++ ('|' :: (ws₂ ++ rest))))).Content = rest) := by
  have hstrip : stripAnsi (name ++ (ws₁ ++ ('|' :: (ws₂ ++ rest))))
      = name ++ (ws₁ ++ ('|' :: (ws₂ ++ rest))) := by
    have hpre : '\x1b' ∉ name ++ (ws₁ ++ ('|' :: ws₂)) := by
      intro hmem
      rw [List.mem_append, List.mem_append, List.mem_cons] at hmem
      rcases hmem with h | h | h | h
      · have := hword _ h; rw [esc_not_word] at this; cases this
      · have := hspace₁ _ h; rw [esc_not_space] at this; cases this
      · revert h; decide
      · have := hspace₂ _ h; rw [esc_not_space] at this; cases this
    have := stripAnsi_append_no_esc (name ++ (ws₁ ++ ('|' :: ws₂))) rest hpre
    rw [stripAnsi_of_not_match rest hansi] at this
    simpa only [List.append_assoc, List.cons_append] using this
  have hsplit := splitTag_split name ws₁ ws₂ rest hname hword hws₁ hspace₁ hws₂ hspace₂ hnl
  obtain ⟨h₁, h₂⟩ := parseLine_container_content (name ++ (ws₁ ++ ('|' :: (ws₂ ++ rest))))
  rw [hstrip, hsplit] at h₁ h₂
  refine ⟨h₁, h₂, fun hhead => ?_⟩
  rw [h₂]
  cases rest with
  | nil => rfl
  | cons c t => rw [List.dropWhile_cons, hhead c t rfl]; rfl

/-- The amended C4 at the line "web-1  | hello world". -/
theorem parseLine_tag_witness :
    (parseLine (['w', 'e', 'b', '-', '1'] ++ ([' ', ' '] ++ ('|' :: ([' '] ++
      ['h', 'e', 'l', 'l', 'o', ' ', 'w', 'o', 'r', 'l', 'd']))))).Container
      = ['w', 'e', 'b', '-', '1'] ∧
    (parseLine (['w', 'e', 'b', '-', '1'] ++ ([' ', ' '] ++ ('|' :: ([' '] ++
      ['h', 'e', 'l', 'l', 'o', ' ', 'w', 'o', 'r', 'l', 'd']))))).Content
      = ['h', 'e', 'l', 'l', 'o', ' ', 'w', 'o', 'r', 'l', 'd'] := by
  have h := parseLine_tag ['w', 'e', 'b', '-', '1'] [' ', ' '] [' ']
    ['h', 'e', 'l', 'l', 'o', ' ', 'w', 'o', 'r', 'l', 'd']
    (by decide) (by decide) (by decide) (by decide) (by decide) (by decide) (by decide)
    (by decide)
  exact ⟨h.1, h.2.2 (fun c t e => by rw [← (List.cons.inj e).1]; decide)⟩

/-- C5: for every input line that, after ANSI stripping, does not match the container-tag
pattern, `parseLine` yields `Container == "default"` and `Content` equal to the whole
stripped line, untrimmed and unchanged, whether or not the JSON detection then succeeds. -/
theorem parseLine_default (line : GoString)
    (h : dockerComposePattern.FindStringSubmatch 2 (ansiPattern.ReplaceAllString line) = none) :
    (parseLine line).Container = ['d', 'e', 'f', 'a', 'u', 'l', 't'] ∧
    (parseLine line).Content = ansiPattern.ReplaceAllString line := by
  have hsplit : splitTag (stripAnsi line) = none := by
    have h' := h
    rw [docker_FindStringSubmatch] at h'
    cases hs : splitTag (ansiPattern.ReplaceAllString line) with
    | none => exact hs
    | some p => rw [hs] at h'; cases h'
  obtain ⟨h₁, h₂⟩ := parseLine_container_content line
  rw [hsplit] at h₁ h₂
  exact ⟨h₁, h₂⟩

/-- C5 at two untagged lines: `  {"a":1} ` is detected as JSON and `  plain ` is not; both
keep their content untrimmed. -/
theorem parseLine_default_witness :
    ((parseLine [' ', ' ', '{', '"', 'a', '"', ':', '1', '}', ' ']).Container
        = ['d', 'e', 'f', 'a', 'u', 'l', 't'] ∧
      (parseLine [' ', ' ', '{', '"', 'a', '"', ':', '1', '}', ' ']).Content
        = [' ', ' ', '{', '"', 'a', '"', ':', '1', '}', ' '] ∧
      (parseLine [' ', ' ', '{', '"', 'a', '"', ':', '1', '}', ' ']).IsJSON = true) ∧
    ((parseLine [' ', ' ', 'p', 'l', 'a', 'i', 'n', ' ']).Container
        = ['d', 'e', 'f', 'a', 'u', 'l', 't'] ∧
      (parseLine [' ', ' ', 'p', 'l', 'a', 'i', 'n', ' ']).Content
        = [' ', ' ', 'p', 'l', 'a', 'i', 'n', ' '] ∧
      (parseLine [' ', ' ', 'p', 'l', 'a', 'i', 'n', ' ']).IsJSON = false) := by
  have h₁ := parseLine_default [' ', ' ', '{', '"', 'a', '"', ':', '1', '}', ' '] (by decide)
  have h₂ := parseLine_default [' ', ' ', 'p', 'l', 'a', 'i', 'n', ' '] (by decide)
  exact ⟨⟨h₁.1, h₁.2, by decide⟩, ⟨h₂.1, h₂.2, by decide⟩⟩

/-- C6 fails on the line ESC `[` ESC `[` `m` `m`: the one pass of `ReplaceAllString` deletes
the one escape sequence of the input and leaves ESC `[` `m`, which is an escape sequence,
in the line and so in the content of the entry that `parseLine` returns; stripping again
gives the empty string, so stripping is not idempotent there. -/
theorem stripAnsi_counterexample :
    stripAnsi ['\x1b', '[', '\x1b', '[', 'm', 'm'] = ['\x1b', '[', 'm'] ∧
    ansiPattern.MatchString (stripAnsi ['\x1b', '[', '\x1b', '[', 'm', 'm']) = true ∧
    stripAnsi (stripAnsi ['\x1b', '[', '\x1b', '[', 'm', 'm'])
      ≠ stripAnsi ['\x1b', '[', '\x1b', '[', 'm', 'm'] ∧
    (parseLine ['\x1b', '[', '\x1b', '[', 'm', 'm']).Content = ['\x1b', '[', 'm'] ∧
    ansiPattern.MatchString (parseLine ['\x1b', '[', '\x1b', '[', 'm', 'm']).Content = true := by
  decide

theorem stripAnsi_cons_none (c : Char) (cs : GoString) (h : ansiPrefix (c :: cs) = none) :
    stripAnsi (c :: cs) = c :: stripAnsi cs := by
  rw [stripAnsi_eq 0, stripAnsi_eq 0 cs]
  exact removeAll_ansi_none 0 c cs h

theorem ansiPrefix_suffix (t rest : GoString) (h : ansiPrefix t = some rest) :
    ∃ pre, t = pre ++ rest ∧ pre ≠ [] := by
  obtain ⟨t', l, rfl, hdw, _⟩ := ansiPrefix_eq_some t rest h
  refine ⟨'\x1b' :: '[' :: (t'.takeWhile isParamClass ++ [l]), ?_, List.cons_ne_nil _ _⟩
  have := List.takeWhile_append_dropWhile isParamClass t'
  rw [hdw] at this
  rw [List.cons_append, List.cons_append, List.append_assoc]
  exact congrArg _ (congrArg _ this.symm)

theorem stripAnsi_after_match (t rest : GoString) (h : ansiPrefix t = some rest) :
    stripAnsi t = stripAnsi rest := by
  have hs : ansiPrefix (t.take (t.length - rest.length)) = some [] ∧
      t = t.take (t.length - rest.length) ++ rest := by
    obtain ⟨t', l, rfl, hdw, hl⟩ := ansiPrefix_eq_some t rest h
    have htd := List.takeWhile_append_dropWhile isParamClass t'
    rw [hdw] at htd
    have hlen : ('\x1b' :: '[' :: t').length - rest.length
        = ('\x1b' :: '[' :: (t'.takeWhile isParamClass ++ [l])).length := by
      have := congrArg List.length htd
      simp only [List.length_append, List.length_cons, List.length_nil] at this ⊢
      omega
    have hsplit : '\x1b' :: '[' :: t'
        = ('\x1b' :: '[' :: (t'.takeWhile isParamClass ++ [l])) ++ rest := by
      rw [List.cons_append, List.cons_append, List.append_assoc]
      exact congrArg _ (congrArg _ htd.symm)
    have htake : ('\x1b' :: '[' :: t').take (('\x1b' :: '[' :: t').length - rest.length)
        = '\x1b' :: '[' :: (t'.takeWhile isParamClass ++ [l]) := by
      rw [hlen]
      conv_lhs => rw [hsplit]
      exact List.take_left' rfl
    rw [htake]
    refine ⟨?_, hsplit⟩
    rw [ansiPrefix_esc]
    have hdw' : (t'.takeWhile isParamClass ++ [l]).dropWhile isParamClass = [l] := by
      rw [List.dropWhile_append_of_pos (fun a ha => List.mem_takeWhile_imp ha)]
      have hl' : isParamClass l = false := dropWhile_head_not _ _ _ _ hdw
      rw [List.dropWhile_cons, hl']
      rfl
    rw [hdw']
    show (if l.isAlpha = true then some [] else none) = some []
    rw [if_pos hl]
  have := stripAnsi_seq [] _ rest hs.1
  rw [List.nil_append, ← hs.2] at this
  rw [this]
  rfl

theorem startsSeq_eq (t : GoString) : startsSeq t = (ansiPrefix t).isSome := by
  unfold startsSeq
  rw [ansi_matchAt, Option.isSome_map']

theorem danglingAt_esc (r : GoString) (h : danglingAt ('\x1b' :: r) = false) :
    ansiPrefix r = none ∧
    ∀ r', r = '[' :: r' → ansiPrefix (r'.dropWhile isParamClass) = none := by
  have hnone : ∀ t, startsSeq t = false → ansiPrefix t = none := by
    intro t ht
    rw [startsSeq_eq] at ht
    cases hp : ansiPrefix t with
    | none => rfl
    | some x => rw [hp] at ht; cases ht
  have h' : (startsSeq r ||
      (r.head? == some '[' && startsSeq ((r.drop 1).dropWhile isParamClass))) = false := h
  rw [Bool.or_eq_false_iff] at h'
  refine ⟨hnone _ h'.1, ?_⟩
  intro r' hr
  subst hr
  exact hnone _ h'.2

/-- An ESC that begins no escape sequence and does not run into one begins none after the
text behind it is stripped. -/
theorem ansiPrefix_esc_strip (cs : GoString) (h₁ : ansiPrefix ('\x1b' :: cs) = none)
    (h₂ : danglingAt ('\x1b' :: cs) = false) :
    ansiPrefix ('\x1b' :: stripAnsi cs) = none := by
  obtain ⟨hcs, hdang⟩ := danglingAt_esc cs h₂
  cases cs with
  | nil => rfl
  | cons d r =>
    rw [stripAnsi_cons_none d r hcs]
    by_cases hd : d = '['
    · subst hd
      have hdw := hdang r rfl
      rw [ansiPrefix_esc] at h₁ ⊢
      have hstrip : stripAnsi r
          = r.takeWhile isParamClass ++ stripAnsi (r.dropWhile isParamClass) := by
        conv_lhs => rw [← List.takeWhile_append_dropWhile isParamClass r]
        apply stripAnsi_append_no_esc
        intro hmem
        have := List.mem_takeWhile_imp hmem
        rw [esc_not_param] at this
        cases this
      rw [hstrip, List.dropWhile_append_of_pos (fun a ha => List.mem_takeWhile_imp ha)]
      cases hr : r.dropWhile isParamClass with
      | nil => rfl
      | cons x dw' =>
        rw [hr] at h₁ hdw
        have hx : isParamClass x = false := dropWhile_head_not _ _ _ _ hr
        have hxa : x.isAlpha = false := by
          cases hxa' : x.isAlpha with
          | false => rfl
          | true =>
            change (if x.isAlpha = true then some dw' else none) = none at h₁
            rw [if_pos hxa'] at h₁
            cases h₁
        rw [stripAnsi_cons_none x dw' hdw, List.dropWhile_cons, hx, if_neg (by decide)]
        show (if x.isAlpha = true then some (stripAnsi dw') else none) = none
        rw [hxa]
        rfl
    · exact ansiPrefix_not_bracket _ _ hd

theorem noDangling_cons (c : Char) (cs : GoString) (h : noDangling (c :: cs) = true) :
    danglingAt (c :: cs) = false ∧ noDangling cs = true := by
  unfold noDangling at h
  rw [Bool.and_eq_true, Bool.not_eq_true'] at h
  exact h

theorem noDangling_append (pre t : GoString) (h : noDangling (pre ++ t) = true) :
    noDangling t = true := by
  induction pre with
  | nil => exact h
  | cons c cs ih => exact ih (noDangling_cons _ _ h).2

theorem search_strip_none (n k : Nat) (x : GoString) (hk : x.length ≤ k)
    (h : noDangling x = true) : ansiPattern.search n (stripAnsi x) = none := by
  induction k generalizing x with
  | zero =>
    have : x = [] := List.length_eq_zero.1 (Nat.le_zero.1 hk)
    subst this
    rfl
  | succ k ih =>
    cases x with
    | nil => rfl
    | cons c cs =>
      obtain ⟨hd, hcs⟩ := noDangling_cons c cs h
      have hlen : cs.length ≤ k := by
        simp only [List.length_cons] at hk
        omega
      cases hp : ansiPrefix (c :: cs) with
      | some rest =>
        obtain ⟨pre, hpre, hne⟩ := ansiPrefix_suffix _ _ hp
        rw [stripAnsi_after_match _ _ hp]
        apply ih
        · have := congrArg List.length hpre
          rw [List.length_append] at this
          have hpos : 0 < pre.length := List.length_pos.2 hne
          omega
        · rw [hpre] at h
          exact noDangling_append pre rest h
      | none =>
        rw [stripAnsi_cons_none c cs hp]
        have hhead : ansiPrefix (c :: stripAnsi cs) = none := by
          by_cases hc : c = '\x1b'
          · subst hc
            exact ansiPrefix_esc_strip cs hp hd
          · exact ansiPrefix_not_esc _ _ hc
        show (match ansiPattern.matchAt n (c :: stripAnsi cs) with
          | some r => some (c :: stripAnsi cs, r.1, r.2)
          | none => ansiPattern.search n (stripAnsi cs)) = none
        rw [ansi_matchAt, hhead]
        exact ih cs hlen hcs

/-- Where C6 holds: for every input string in which no escape sequence (ESC `[`, digits and
semicolons, a letter) comes right after an unfinished one (an ESC, or an ESC with `[` and
digits or semicolons, not followed by its letter), the result of the parser's ANSI
stripping contains no escape sequence, and stripping it again returns it unchanged. This
condition is sufficient, not necessary. For every input, each escape sequence is deleted
and the text before and after it is stripped on its own. -/
theorem stripAnsi_clean (line : GoString) (h : noDangling line = true) :
    ansiPattern.MatchString (stripAnsi line) = false ∧
    stripAnsi (stripAnsi line) = stripAnsi line ∧
    (∀ pre s post : GoString, (ansiPattern.matchAt s.length s).map Prod.fst = some [] →
      stripAnsi (pre ++ s ++ post) = stripAnsi pre ++ stripAnsi post) := by
  have hsearch : ansiPattern.MatchString (stripAnsi line) = false := by
    unfold Regexp.MatchString
    rw [search_strip_none _ line.length line (Nat.le_refl _) h]
    rfl
  refine ⟨hsearch, stripAnsi_of_not_match _ hsearch, ?_⟩
  intro pre s post hs
  apply stripAnsi_seq
  rw [ansi_matchAt, Option.map_map] at hs
  cases hp : ansiPrefix s with
  | none => rw [hp] at hs; cases hs
  | some r =>
    rw [hp] at hs
    exact congrArg some (Option.some.inj hs)

/-- The stripping at the line ESC`[31m` `red` ESC`[0m` ESC `x`, where the last ESC begins
no escape sequence. -/
theorem stripAnsi_clean_witness :
    noDangling ['\x1b', '[', '3', '1', 'm', 'r', 'e', 'd', '\x1b', '[', '0', 'm', '\x1b', 'x']
      = true ∧
    stripAnsi ['\x1b', '[', '3', '1', 'm', 'r', 'e', 'd', '\x1b', '[', '0', 'm', '\x1b', 'x']
      = ['r', 'e', 'd', '\x1b', 'x'] ∧
    ansiPattern.MatchString (stripAnsi
      ['\x1b', '[', '3', '1', 'm', 'r', 'e', 'd', '\x1b', '[', '0', 'm', '\x1b', 'x']) = false ∧
    stripAnsi (stripAnsi
      ['\x1b', '[', '3', '1', 'm', 'r', 'e', 'd', '\x1b', '[', '0', 'm', '\x1b', 'x'])
      = stripAnsi
        ['\x1b', '[', '3', '1', 'm', 'r', 'e', 'd', '\x1b', '[', '0', 'm', '\x1b', 'x'] :=
  ⟨by decide, by decide,
    (stripAnsi_clean
      ['\x1b', '[', '3', '1', 'm', 'r', 'e', 'd', '\x1b', '[', '0', 'm', '\x1b', 'x']
      (by decide)).1,
    (stripAnsi_clean
      ['\x1b', '[', '3', '1', 'm', 'r', 'e', 'd', '\x1b', '[', '0', 'm', '\x1b', 'x']
      (by decide)).2.1⟩

end parser

/-! ## The parser: JSON detection -/

namespace json

theorem Unmarshal_cons (c : Char) (t : GoString) (hc : isSpace c = false) :
    Unmarshal (c :: t) =
      match decode (c :: t) with
      | none => none
      | some v =>
        if c = '[' then none
        else if c = '{' then
          match v with
          | .obj m => some (some m)
          | _ => none
        else if c = 'n' then some none
        else none := by
  unfold Unmarshal
  rw [List.dropWhile_cons, hc]
  rfl

/-- A JSON array cannot be unmarshalled into a map. -/
theorem Unmarshal_array (s : GoString) (h : s.head? = some '[') : Unmarshal s = none := by
  cases s with
  | nil => cases h
  | cons c t =>
    have hc : c = '[' := Option.some.inj h
    subst hc
    rw [Unmarshal_cons _ _ (by decide)]
    cases decode ('[' :: t) with
    | none => rfl
    | some v => rfl

/-- A text that starts with a brace is unmarshalled without error only when it decodes as an
object, and the map is then that object. -/
theorem Unmarshal_object (s : GoString) (parsed : Option (List (GoString × JValue)))
    (h : s.head? = some '{') (hu : Unmarshal s = some parsed) :
    ∃ m, decode s = some (.obj m) ∧ parsed = some m := by
  cases s with
  | nil => cases h
  | cons c t =>
    have hc : c = '{' := Option.some.inj h
    subst hc
    rw [Unmarshal_cons _ _ (by decide)] at hu
    cases hd : decode ('{' :: t) with
    | none => rw [hd] at hu; cases hu
    | some v =>
      rw [hd] at hu
      cases v with
      | obj m =>
        change some (some m) = some parsed at hu
        exact ⟨m, rfl, (Option.some.inj hu).symm⟩
      | arr l => change none = some parsed at hu; cases hu
      | str s => change none = some parsed at hu; cases hu
      | num f => change none = some parsed at hu; cases hu
      | bool b => change none = some parsed at hu; cases hu
      | null => change none = some parsed at hu; cases hu

end json

namespace parser

/-- C7: a line whose trimmed content begins with `[` (such as `[1,2,3]`) is marked
non-structured, with no JSON value; `IsJSON` is true only when the trimmed content begins
with `{` and decodes as an object, which is then the value of `JSON`; so content that
decodes as a JSON value other than an object is never marked structured. `parseLine` is a
total function: no line raises an error. -/
theorem parseLine_nonobject (line : GoString) :
    ((strings.TrimSpace (parseLine line).Content).head? = some '[' →
      (parseLine line).IsJSON = false ∧ (parseLine line).JSON = none) ∧
    ((parseLine line).IsJSON = true →
      (strings.TrimSpace (parseLine line).Content).head? = some '{' ∧
      ∃ m, json.decode (strings.TrimSpace (parseLine line).Content) = some (.obj m) ∧
        (parseLine line).JSON = some m) ∧
    (∀ v, json.decode (strings.TrimSpace (parseLine line).Content) = some v →
      (∀ m, v ≠ .obj m) → (parseLine line).IsJSON = false) ∧
    ((parseLine line).IsJSON = false → (parseLine line).JSON = none) ∧
    parseLine ['[', '1', ',', '2', ',', '3', ']'] =
      { Container := ['d', 'e', 'f', 'a', 'u', 'l', 't'],
        Content := ['[', '1', ',', '2', ',', '3', ']'], IsJSON := false, JSON := none } := by
  have key : ∀ e : Entry, e.IsJSON = false → e.JSON = none →
      ∀ r : Entry, r = (if (strings.TrimSpace e.Content).length > 0 ∧
          ((strings.TrimSpace e.Content).head? = some '{' ∨
            (strings.TrimSpace e.Content).head? = some '[') then
        match json.Unmarshal (strings.TrimSpace e.Content) with
        | some parsed => { e with IsJSON := true, JSON := parsed }
        | none => e
      else e) →
      ((strings.TrimSpace r.Content).head? = some '[' → r.IsJSON = false ∧ r.JSON = none) ∧
      (r.IsJSON = true →
        (strings.TrimSpace r.Content).head? = some '{' ∧
        ∃ m, json.decode (strings.TrimSpace r.Content) = some (.obj m) ∧ r.JSON = some m) ∧
      (r.IsJSON = false → r.JSON = none) := by
    intro e he₁ he₂ r hr
    by_cases hcond : (strings.TrimSpace e.Content).length > 0 ∧
          ((strings.TrimSpace e.Content).head? = some '{' ∨
            (strings.TrimSpace e.Content).head? = some '[')
    · rw [if_pos hcond] at hr
      cases hu : json.Unmarshal (strings.TrimSpace e.Content) with
      | none =>
        rw [hu] at hr
        subst hr
        exact ⟨fun _ => ⟨he₁, he₂⟩, fun h => (by rw [he₁] at h; cases h), fun _ => he₂⟩
      | some parsed =>
        rw [hu] at hr
        subst hr
        have hbrace : (strings.TrimSpace e.Content).head? = some '{' := by
          rcases hcond.2 with h | h
          · exact h
          · rw [json.Unmarshal_array _ h] at hu; cases hu
        refine ⟨fun h => ?_, fun _ => ⟨hbrace, ?_⟩, fun h => (by cases h)⟩
        · have h' : (strings.TrimSpace e.Content).head? = some '[' := h
          rw [json.Unmarshal_array _ h'] at hu; cases hu
        · obtain ⟨m, hm₁, hm₂⟩ := json.Unmarshal_object _ _ hbrace hu
          exact ⟨m, hm₁, hm₂⟩
    · rw [if_neg hcond] at hr
      subst hr
      exact ⟨fun _ => ⟨he₁, he₂⟩, fun h => (by rw [he₁] at h; cases h), fun _ => he₂⟩
  have main : ((strings.TrimSpace (parseLine line).Content).head? = some '[' →
        (parseLine line).IsJSON = false ∧ (parseLine line).JSON = none) ∧
      ((parseLine line).IsJSON = true →
        (strings.TrimSpace (parseLine line).Content).head? = some '{' ∧
        ∃ m, json.decode (strings.TrimSpace (parseLine line).Content) = some (.obj m) ∧
          (parseLine line).JSON = some m) ∧
      ((parseLine line).IsJSON = false → (parseLine line).JSON = none) := by
    have hpl := parseLine_eq line
    cases hs : splitTag (stripAnsi line) with
    | none => rw [hs] at hpl; exact key _ rfl rfl _ hpl
    | some p => rw [hs] at hpl; exact key _ rfl rfl _ hpl
  refine ⟨main.1, main.2.1, ?_, main.2.2, by rfl⟩
  intro v hv hne
  cases hj : (parseLine line).IsJSON with
  | false => rfl
  | true =>
    obtain ⟨_, m, hm, _⟩ := main.2.1 hj
    rw [hm] at hv
    exact absurd (Option.some.inj hv).symm (hne m)

end parser

/-! ## The formatter -/

namespace formatter

theorem formatElems_eq_map (X : Extern) (l : List JValue) (indent : Nat) :
    formatElems X l indent = l.map (fun v => formatValue X v indent) := by
  induction l with
  | nil => rfl
  | cons v t ih =>
    show formatValue X v indent :: formatElems X t indent = _
    rw [ih]; rfl

theorem mapGet_formatMembers (X : Extern) (m : List (GoString × JValue)) (indent : Nat)
    (k : GoString) :
    mapGet (formatMembers X m indent) k = (mapGet m k).map (fun v => formatValue X v indent) := by
  induction m with
  | nil => rfl
  | cons p t ih =>
    obtain ⟨k', v⟩ := p
    show mapGet ((k', formatValue X v indent) :: formatMembers X t indent) k = _
    by_cases h : k' = k
    · subst h
      rw [mapGet_cons_same, mapGet_cons_same]; rfl
    · rw [mapGet_cons_other _ _ _ _ h, mapGet_cons_other _ _ _ _ h, ih]

/-- The text of a member is that of `formatValue(obj[key], indent+1)`, where a missing key
reads as nil. -/
theorem render_member (X : Extern) (m : List (GoString × JValue)) (indent : Nat)
    (key : GoString) :
    (mapGet (formatMembers X m (indent + 1)) key).getD (X.nullStyle ['n', 'u', 'l', 'l'])
      = formatValue X ((mapGet m key).getD .null) (indent + 1) := by
  rw [mapGet_formatMembers]
  cases mapGet m key with
  | none => rfl
  | some v => rfl

theorem formatObject_eq (X : Extern) (obj : List (GoString × JValue)) (indent : Nat) :
    formatObject X obj indent
      = objectText X (mapKeys obj)
          (fun key => formatValue X ((mapGet obj key).getD .null) (indent + 1)) indent := by
  show objectText X (mapKeys obj)
      (fun key => (mapGet (formatMembers X obj (indent + 1)) key).getD
        (X.nullStyle ['n', 'u', 'l', 'l'])) indent = _
  congr 1
  funext key
  exact render_member X obj indent key

theorem formatArray_eq (X : Extern) (arr : List JValue) (indent : Nat) :
    formatArray X arr indent
      = arrayText X arr (arr.map (fun v => formatValue X v indent))
          (arr.map (fun v => formatValue X v (indent + 1))) indent := by
  show arrayText X arr (formatElems X arr indent) (formatElems X arr (indent + 1)) indent = _
  rw [formatElems_eq_map, formatElems_eq_map]

theorem objectLines_congr (X : Extern) (f g : GoString → GoString) (indentStr : GoString)
    (keys : List GoString) (h : ∀ k ∈ keys, f k = g k) :
    objectLines X f indentStr keys = objectLines X g indentStr keys := by
  induction keys with
  | nil => rfl
  | cons k t ih =>
    show indentStr ++ X.keyStyle (strconv.Quote X k) ++ [':', ' '] ++ f k
        ++ (if t = [] then [] else [',']) ++ ['\n'] ++ objectLines X f indentStr t
      = indentStr ++ X.keyStyle (strconv.Quote X k) ++ [':', ' '] ++ g k
        ++ (if t = [] then [] else [',']) ++ ['\n'] ++ objectLines X g indentStr t
    rw [h k (List.mem_cons_self _ _), ih (fun k' hk' => h k' (List.mem_cons_of_mem _ hk'))]

theorem sortStrings_perm (l : List GoString) : (sortStrings l).Perm l :=
  List.perm_insertionSort _ _

theorem sortStrings_sorted (l : List GoString) : (sortStrings l).Sorted (· ≤ ·) :=
  List.sorted_insertionSort _ _

theorem sortStrings_eq_of_perm (l₁ l₂ : List GoString) (h : l₁.Perm l₂) :
    sortStrings l₁ = sortStrings l₂ :=
  List.eq_of_perm_of_sorted
    ((sortStrings_perm l₁).trans (h.trans (sortStrings_perm l₂).symm))
    (sortStrings_sorted l₁) (sortStrings_sorted l₂)

theorem sameData_isPrimitive (v₁ v₂ : JValue) (h : SameData v₁ v₂) :
    isPrimitive v₁ = isPrimitive v₂ := by
  cases h <;> rfl

theorem sameData_format (X : Extern) (v₁ v₂ : JValue) (h : SameData v₁ v₂) :
    ∀ indent, formatValue X v₁ indent = formatValue X v₂ indent := by
  induction h with
  | refl v => intro indent; rfl
  | obj m₁ m₂ hnd₁ hnd₂ hkeys _ ih =>
    intro indent
    have hperm : (mapKeys m₁).Perm (mapKeys m₂) :=
      (List.perm_ext_iff_of_nodup hnd₁ hnd₂).2 hkeys
    show formatObject X m₁ indent = formatObject X m₂ indent
    rw [formatObject_eq, formatObject_eq]
    unfold objectText
    rw [hperm.length_eq, sortStrings_eq_of_perm _ _ hperm]
    have hlines : ∀ indentStr,
        objectLines X (fun key => formatValue X ((mapGet m₁ key).getD .null) (indent + 1))
          indentStr (sortStrings (mapKeys m₂))
        = objectLines X (fun key => formatValue X ((mapGet m₂ key).getD .null) (indent + 1))
          indentStr (sortStrings (mapKeys m₂)) := by
      intro indentStr
      apply objectLines_congr
      intro k hk
      have hk₂ : k ∈ mapKeys m₂ := (sortStrings_perm _).subset hk
      have hk₁ : k ∈ mapKeys m₁ := (hkeys k).2 hk₂
      have h₁ := (mapGet_isSome_iff m₁ k).2 hk₁
      have h₂ := (mapGet_isSome_iff m₂ k).2 hk₂
      cases hg₁ : mapGet m₁ k with
      | none => rw [hg₁] at h₁; cases h₁
      | some a =>
        cases hg₂ : mapGet m₂ k with
        | none => rw [hg₂] at h₂; cases h₂
        | some b => exact ih k a b hg₁ hg₂ (indent + 1)
    rw [hlines]
  | arr l₁ l₂ hlen hsame ih =>
    intro indent
    have hmap : ∀ i, l₁.map (fun v => formatValue X v i) = l₂.map (fun v => formatValue X v i) := by
      intro i
      apply List.ext_getElem?
      intro n
      rw [List.getElem?_map, List.getElem?_map]
      cases h₁ : l₁[n]? with
      | none =>
        have : l₂[n]? = none := by
          rw [List.getElem?_eq_none_iff] at h₁ ⊢
          omega
        rw [this]
      | some a =>
        cases h₂ : l₂[n]? with
        | none =>
          have : l₁[n]? = none := by
            rw [List.getElem?_eq_none_iff] at h₂ ⊢
            omega
          rw [this] at h₁; cases h₁
        | some b => exact congrArg some (ih n a b h₁ h₂ i)
    have hall : l₁.all isPrimitive = l₂.all isPrimitive := by
      have : l₁.map isPrimitive = l₂.map isPrimitive := by
        apply List.ext_getElem?
        intro n
        rw [List.getElem?_map, List.getElem?_map]
        cases h₁ : l₁[n]? with
        | none =>
          have : l₂[n]? = none := by
            rw [List.getElem?_eq_none_iff] at h₁ ⊢
            omega
          rw [this]
        | some a =>
          cases h₂ : l₂[n]? with
          | none =>
            have : l₁[n]? = none := by
              rw [List.getElem?_eq_none_iff] at h₂ ⊢
              omega
            rw [this] at h₁; cases h₁
          | some b => exact congrArg some (sameData_isPrimitive a b (hsame n a b h₁ h₂))
      have hall' : ∀ l : List JValue, l.all isPrimitive = (l.map isPrimitive).all id := by
        intro l
        induction l with
        | nil => rfl
        | cons a t iht => rw [List.all_cons, List.map_cons, List.all_cons, iht]; rfl
      rw [hall' l₁, hall' l₂, this]
    show formatArray X l₁ indent = formatArray X l₂ indent
    rw [formatArray_eq, formatArray_eq]
    unfold arrayText
    rw [hmap, hmap, hall, hlen]

end formatter

namespace formatter

theorem mapGet_eq_some_of_mem {β : Type} (m : List (GoString × β)) (k : GoString) (v : β)
    (hnd : (mapKeys m).Nodup) (h : (k, v) ∈ m) : mapGet m k = some v := by
  induction m with
  | nil => cases h
  | cons p t ih =>
    obtain ⟨k', v'⟩ := p
    rw [mapKeys_cons, List.nodup_cons] at hnd
    rw [List.mem_cons] at h
    rcases h with h | h
    · cases h
      exact mapGet_cons_same k v t
    · have hne : k' ≠ k := by
        intro e
        apply hnd.1
        rw [e]
        exact List.mem_map_of_mem Prod.fst h
      rw [mapGet_cons_other _ _ _ _ hne]
      exact ih hnd.2 h

theorem mem_of_mapGet_eq_some {β : Type} (m : List (GoString × β)) (k : GoString) (v : β)
    (h : mapGet m k = some v) : (k, v) ∈ m := by
  induction m with
  | nil => cases h
  | cons p t ih =>
    obtain ⟨k', v'⟩ := p
    by_cases hk : k' = k
    · subst hk
      rw [mapGet_cons_same] at h
      cases h
      exact List.mem_cons_self _ _
    · rw [mapGet_cons_other _ _ _ _ hk] at h
      exact List.mem_cons_of_mem _ (ih h)

/-- The same pairs stored in another order hold the same data. -/
theorem sameData_of_perm (m₁ m₂ : List (GoString × JValue)) (hnd : (mapKeys m₁).Nodup)
    (hperm : m₁.Perm m₂) : SameData (.obj m₁) (.obj m₂) := by
  have hkeys : (mapKeys m₁).Perm (mapKeys m₂) := hperm.map Prod.fst
  have hnd₂ : (mapKeys m₂).Nodup := hkeys.nodup_iff.1 hnd
  refine SameData.obj m₁ m₂ hnd hnd₂ (fun k => hkeys.mem_iff) ?_
  intro k v₁ v₂ h₁ h₂
  have hmem : (k, v₁) ∈ m₂ := hperm.subset (mem_of_mapGet_eq_some _ _ _ h₁)
  have := mapGet_eq_some_of_mem _ _ _ hnd₂ hmem
  rw [h₂] at this
  cases this
  exact SameData.refl _

/-- An object with one member holds the same data when its value does. -/
theorem sameData_single (k : GoString) (a b : JValue) (h : SameData a b) :
    SameData (.obj [(k, a)]) (.obj [(k, b)]) := by
  refine SameData.obj _ _ (List.nodup_singleton k) (List.nodup_singleton k)
    (fun _ => Iff.rfl) ?_
  intro k' v₁ v₂ h₁ h₂
  by_cases hk : k = k'
  · subst hk
    rw [mapGet_cons_same] at h₁ h₂
    cases h₁; cases h₂
    exact h
  · rw [mapGet_cons_other _ _ _ _ hk] at h₁
    cases h₁

/-- C8: `Format` renders the keys of every object in ascending order, so its output does
not depend on the order in which the decoder stored the key/value pairs: two values that
hold the same key/value pairs in different orders, at any nesting depth, format to the
same text, at every indentation and as the JSON of an entry. The text of an object is built
from the sorted list of its keys, each followed by the text of `obj[key]`. (`Format` is a
function of the value alone: formatting the same value twice gives the same text.) -/
theorem format_key_order (X : Extern) (v₁ v₂ : JValue) (h : SameData v₁ v₂) :
    (∀ indent, formatValue X v₁ indent = formatValue X v₂ indent) ∧
    (∀ m₁ m₂ c₁ c₂ s₁ s₂, v₁ = .obj m₁ → v₂ = .obj m₂ →
      Format X ⟨c₁, s₁, true, some m₁⟩ = Format X ⟨c₂, s₂, true, some m₂⟩) ∧
    (∀ obj indent, obj ≠ [] → (mapKeys obj).Nodup →
      ∃ keys : List GoString, keys.Sorted (· < ·) ∧ keys.Perm (mapKeys obj) ∧
        formatObject X obj indent
          = X.bracketStyle ['{'] ++ ['\n']
            ++ objectLines X (fun key => formatValue X ((mapGet obj key).getD .null) (indent + 1))
              (strings.Repeat [' ', ' '] (indent + 1)) keys
            ++ strings.Repeat [' ', ' '] indent ++ X.bracketStyle ['}']) := by
  refine ⟨sameData_format X v₁ v₂ h, ?_, ?_⟩
  · intro m₁ m₂ c₁ c₂ s₁ s₂ e₁ e₂
    subst e₁ e₂
    exact sameData_format X _ _ h 0
  · intro obj indent hne hnd
    refine ⟨sortStrings (mapKeys obj), ?_, sortStrings_perm _, ?_⟩
    · exact (sortStrings_sorted _).lt_of_le ((sortStrings_perm _).nodup_iff.2 hnd)
    · rw [formatObject_eq]
      unfold objectText
      have hlen : ¬ (mapKeys obj).length = 0 := by
        intro h0
        apply hne
        have : obj.length = 0 := by
          unfold mapKeys at h0
          rwa [List.length_map] at h0
        exact List.length_eq_zero.1 this
      rw [if_neg hlen]

/-- C8 at two values whose objects store their pairs in different orders, at the top and one
level down: both format to the same text, keys ascending. -/
theorem format_key_order_witness :
    formatValue plainExtern
        (.obj [(['o'], .obj [(['b'], .bool true), (['a'], .null)])]) 0
      = formatValue plainExtern
        (.obj [(['o'], .obj [(['a'], .null), (['b'], .bool true)])]) 0 ∧
    formatValue plainExtern (.obj [(['b'], .bool true), (['a'], .str ['x'])]) 0
      = formatValue plainExtern (.obj [(['a'], .str ['x']), (['b'], .bool true)]) 0 ∧
    formatValue plainExtern (.obj [(['b'], .bool true), (['a'], .str ['x'])]) 0
      = ['{', '\n', ' ', ' ', '"', 'a', '"', ':', ' ', '"', 'x', '"', ',', '\n',
          ' ', ' ', '"', 'b', '"', ':', ' ', 't', 'r', 'u', 'e', '\n', '}'] :=
  ⟨(format_key_order plainExtern _ _
      (sameData_single ['o'] _ _
        (sameData_of_perm [(['b'], .bool true), (['a'], .null)]
          [(['a'], .null), (['b'], .bool true)] (by decide) (List.Perm.swap _ _ _)))).1 0,
    (sameData_format plainExtern _ _
      (sameData_of_perm [(['b'], .bool true), (['a'], .str ['x'])]
        [(['a'], .str ['x']), (['b'], .bool true)] (by decide) (List.Perm.swap _ _ _))) 0,
    by decide⟩

end formatter

namespace formatter

theorem ite_ne_char {c : Prop} [Decidable c] (a b x : Char) (ha : a ≠ x) (hb : b ≠ x) :
    (if c then a else b) ≠ x := by
  split <;> assumption

theorem ite_not_mem_char {c : Prop} [Decidable c] (a b : List Char) (x : Char)
    (ha : c → x ∉ a) (hb : ¬ c → x ∉ b) : x ∉ (if c then a else b) := by
  split
  · exact ha (by assumption)
  · exact hb (by assumption)

theorem digitChar_ne_newline (n : Nat) : Nat.digitChar n ≠ '\n' := by
  unfold Nat.digitChar
  repeat' first
    | decide
    | apply ite_ne_char

theorem toDigitsCore_no_newline (b : Nat) (fuel n : Nat) (acc : List Char)
    (hacc : '\n' ∉ acc) : '\n' ∉ Nat.toDigitsCore b fuel n acc := by
  induction fuel generalizing n acc with
  | zero => exact hacc
  | succ fuel ih =>
    unfold Nat.toDigitsCore
    have hcons : '\n' ∉ Nat.digitChar (n % b) :: acc := by
      rw [List.mem_cons, not_or]
      exact ⟨fun h => digitChar_ne_newline _ h.symm, hacc⟩
    dsimp only
    split
    · exact hcons
    · exact ih _ _ hcons

theorem toDigits_no_newline (n : Nat) : '\n' ∉ Nat.toDigits 10 n :=
  toDigitsCore_no_newline 10 _ _ [] (List.not_mem_nil _)

theorem format0f_no_newline (f : Float64) : '\n' ∉ f.format0f := by
  unfold Float64.format0f
  rw [List.mem_append, not_or]
  constructor
  · split
    · decide
    · exact List.not_mem_nil _
  · exact toDigits_no_newline _

theorem escapedRune_no_newline (X : Extern) (r : Char) : '\n' ∉ strconv.escapedRune X r := by
  have hd : ∀ n i, '\n' ≠ strconv.hexDigit n i := fun n i h => digitChar_ne_newline _ h.symm
  have hp : strconv.IsPrint X '\n' = false := rfl
  have hr : strconv.IsPrint X r = true → '\n' ≠ r := by
    intro h e
    rw [← e, hp] at h
    cases h
  unfold strconv.escapedRune
  refine ite_not_mem_char _ _ _ (fun h₁ => ?_) (fun _ => ?_)
  · refine List.not_mem_cons_of_ne_of_not_mem (by decide) ?_
    rw [List.mem_singleton]
    rcases h₁ with h | h <;> rw [h] <;> decide
  · refine ite_not_mem_char _ _ _ (fun h₂ => ?_) (fun _ => ?_)
    · rw [List.mem_singleton]
      exact hr h₂
    · repeat' first
        | exact List.not_mem_nil _
        | exact hd _ _
        | decide
        | refine List.not_mem_cons_of_ne_of_not_mem ?_ ?_
        | refine ite_not_mem_char _ _ _ (fun _ => ?_) (fun _ => ?_)

theorem quote_no_newline (X : Extern) (s : GoString) : '\n' ∉ strconv.Quote X s := by
  unfold strconv.Quote
  rw [List.mem_append, List.mem_append, not_or, not_or]
  refine ⟨⟨by decide, ?_⟩, by decide⟩
  rw [List.mem_flatten]
  rintro ⟨l, hl, hmem⟩
  rw [List.mem_map] at hl
  obtain ⟨r, _, rfl⟩ := hl
  exact escapedRune_no_newline X r hmem

theorem primitive_no_newline (X : Extern) (hX : NoBreaks X) (v : JValue) (indent : Nat)
    (hv : isPrimitive v = true) : '\n' ∉ formatValue X v indent := by
  obtain ⟨hstr, hnum, hbool, hnull, _, hg⟩ := hX
  cases v with
  | obj m => cases hv
  | arr l => cases hv
  | str s => exact hstr _ (quote_no_newline X s)
  | num f =>
    show '\n' ∉ formatNumber X f
    unfold formatNumber
    split
    · exact hnum _ (format0f_no_newline f)
    · exact hnum _ (hg f)
  | bool b =>
    apply hbool
    cases b <;> decide
  | null =>
    apply hnull
    decide

theorem join_no_newline (parts : List GoString) (sep : GoString) (hsep : '\n' ∉ sep)
    (h : ∀ p ∈ parts, '\n' ∉ p) : '\n' ∉ strings.Join parts sep := by
  induction parts with
  | nil => exact List.not_mem_nil _
  | cons a t ih =>
    cases t with
    | nil => exact h a (List.mem_cons_self _ _)
    | cons b t' =>
      show '\n' ∉ a ++ sep ++ strings.Join (b :: t') sep
      rw [List.mem_append, List.mem_append, not_or, not_or]
      exact ⟨⟨h a (List.mem_cons_self _ _), hsep⟩,
        ih (fun p hp => h p (List.mem_cons_of_mem _ hp))⟩

/-- C9: the empty array renders as `[]`; a non-empty array renders inline, as the texts of
its elements joined by a comma and a space between the brackets, without line break, when
every element is a primitive (string, number, boolean or null) and there are at most 5
elements; in every other case it renders one element per line, with a line break after
the opening bracket: each element indented by `indent+1` times two spaces, a comma after
all but the last, and the closing bracket indented by `indent` times two spaces. -/
theorem formatArray_layout (X : Extern) (hX : NoBreaks X) (arr : List JValue) (indent : Nat) :
    formatArray X [] indent = X.bracketStyle ['[', ']'] ∧
    (∀ v, isPrimitive v = true ↔
      ((∃ s, v = .str s) ∨ (∃ f, v = .num f) ∨ (∃ b, v = .bool b) ∨ v = .null)) ∧
    (arr ≠ [] → (arr.all isPrimitive = true ∧ arr.length ≤ 5) →
      formatArray X arr indent
        = X.bracketStyle ['['] ++ strings.Join (arr.map (fun v => formatValue X v indent)) [',', ' ']
          ++ X.bracketStyle [']'] ∧
      '\n' ∉ formatArray X arr indent) ∧
    (arr ≠ [] → ¬ (arr.all isPrimitive = true ∧ arr.length ≤ 5) →
      formatArray X arr indent
        = X.bracketStyle ['['] ++ ['\n']
          ++ arrayLines (strings.Repeat [' ', ' '] (indent + 1))
            (arr.map (fun v => formatValue X v (indent + 1)))
          ++ strings.Repeat [' ', ' '] indent ++ X.bracketStyle [']'] ∧
      '\n' ∈ formatArray X arr indent) ∧
    (arr ≠ [] →
      ('\n' ∉ formatArray X arr indent ↔ (arr.all isPrimitive = true ∧ arr.length ≤ 5))) := by
  have hne : arr ≠ [] → ¬ arr.length = 0 := fun h h0 => h (List.length_eq_zero.1 h0)
  have hinline : arr ≠ [] → (arr.all isPrimitive = true ∧ arr.length ≤ 5) →
      formatArray X arr indent
        = X.bracketStyle ['['] ++ strings.Join (arr.map (fun v => formatValue X v indent)) [',', ' ']
          ++ X.bracketStyle [']'] ∧
      '\n' ∉ formatArray X arr indent := by
    intro h hc
    have heq : formatArray X arr indent
        = X.bracketStyle ['['] ++ strings.Join (arr.map (fun v => formatValue X v indent)) [',', ' ']
          ++ X.bracketStyle [']'] := by
      rw [formatArray_eq]
      unfold arrayText
      rw [if_neg (hne h), if_pos hc]
    refine ⟨heq, ?_⟩
    rw [heq, List.mem_append, List.mem_append, not_or, not_or]
    refine ⟨⟨hX.2.2.2.2.1 _ (by decide), ?_⟩, hX.2.2.2.2.1 _ (by decide)⟩
    apply join_no_newline _ _ (by decide)
    intro p hp
    rw [List.mem_map] at hp
    obtain ⟨v, hv, rfl⟩ := hp
    exact primitive_no_newline X hX v indent (List.all_eq_true.1 hc.1 v hv)
  have hlines : arr ≠ [] → ¬ (arr.all isPrimitive = true ∧ arr.length ≤ 5) →
      formatArray X arr indent
        = X.bracketStyle ['['] ++ ['\n']
          ++ arrayLines (strings.Repeat [' ', ' '] (indent + 1))
            (arr.map (fun v => formatValue X v (indent + 1)))
          ++ strings.Repeat [' ', ' '] indent ++ X.bracketStyle [']'] ∧
      '\n' ∈ formatArray X arr indent := by
    intro h hc
    have heq : formatArray X arr indent
        = X.bracketStyle ['['] ++ ['\n']
          ++ arrayLines (strings.Repeat [' ', ' '] (indent + 1))
            (arr.map (fun v => formatValue X v (indent + 1)))
          ++ strings.Repeat [' ', ' '] indent ++ X.bracketStyle [']'] := by
      rw [formatArray_eq]
      unfold arrayText
      rw [if_neg (hne h), if_neg hc]
    refine ⟨heq, ?_⟩
    rw [heq]
    apply List.mem_append_left
    apply List.mem_append_left
    apply List.mem_append_left
    exact List.mem_append_right _ (List.mem_singleton_self _)
  refine ⟨rfl, ?_, hinline, hlines, ?_⟩
  · intro v
    cases v with
    | obj m =>
      constructor
      · intro h; cases h
      · rintro (⟨s, h⟩ | ⟨f, h⟩ | ⟨b, h⟩ | h) <;> cases h
    | arr l =>
      constructor
      · intro h; cases h
      · rintro (⟨s, h⟩ | ⟨f, h⟩ | ⟨b, h⟩ | h) <;> cases h
    | str s => exact ⟨fun _ => Or.inl ⟨s, rfl⟩, fun _ => rfl⟩
    | num f => exact ⟨fun _ => Or.inr (Or.inl ⟨f, rfl⟩), fun _ => rfl⟩
    | bool b => exact ⟨fun _ => Or.inr (Or.inr (Or.inl ⟨b, rfl⟩)), fun _ => rfl⟩
    | null => exact ⟨fun _ => Or.inr (Or.inr (Or.inr rfl)), fun _ => rfl⟩
  · intro h
    constructor
    · intro hnl
      by_contra hc
      exact hnl (hlines h hc).2
    · intro hc
      exact (hinline h hc).2

end formatter

namespace formatter

theorem noBreaks_plainExtern : NoBreaks plainExtern :=
  ⟨fun _ h => h, fun _ h => h, fun _ h => h, fun _ h => h, fun _ h => h,
    fun _ => List.not_mem_nil _⟩

theorem noBreaks_ansiExtern : NoBreaks ansiExtern := by
  have hcol : ∀ code s : GoString, '\n' ∉ code → '\n' ∉ s →
      '\n' ∉ ['\x1b', '[', '3', '8', ';', '5', ';'] ++ code ++ ['m'] ++ s
        ++ ['\x1b', '[', '0', 'm'] := by
    intro code s hc hs
    rw [List.mem_append, List.mem_append, List.mem_append, List.mem_append]
    rintro ((((h | h) | h) | h) | h)
    · revert h; decide
    · exact hc h
    · revert h; decide
    · exact hs h
    · revert h; decide
  exact ⟨fun s h => hcol _ s (by decide) h, fun s h => hcol _ s (by decide) h,
    fun s h => hcol _ s (by decide) h, fun s h => hcol _ s (by decide) h,
    fun s h => hcol _ s (by decide) h, fun _ => List.not_mem_nil _⟩

/-- C9 at three arrays: two primitives render inline, an array holding an array renders
one element per line, and so do six primitives. -/
theorem formatArray_layout_witness :
    formatArray plainExtern [.bool true, .null] 0
      = ['[', 't', 'r', 'u', 'e', ',', ' ', 'n', 'u', 'l', 'l', ']'] ∧
    '\n' ∉ formatArray ansiExtern [.bool true, .str ['a', '\n', 'b']] 0 ∧
    formatArray plainExtern [.arr [], .null] 1
      = ['[', '\n', ' ', ' ', ' ', ' ', '[', ']', ',', '\n', ' ', ' ', ' ', ' ',
          'n', 'u', 'l', 'l', '\n', ' ', ' ', ']'] ∧
    '\n' ∈ formatArray ansiExtern [.null, .null, .null, .null, .null, .null] 0 :=
  ⟨((formatArray_layout plainExtern noBreaks_plainExtern [.bool true, .null] 0).2.2.1
      (List.cons_ne_nil _ _) (by decide)).1.trans (by decide),
    ((formatArray_layout ansiExtern noBreaks_ansiExtern [.bool true, .str ['a', '\n', 'b']] 0).2.2.1
      (List.cons_ne_nil _ _) (by decide)).2,
    ((formatArray_layout plainExtern noBreaks_plainExtern [.arr [], .null] 1).2.2.2.1
      (List.cons_ne_nil _ _) (by decide)).1.trans (by decide),
    ((formatArray_layout ansiExtern noBreaks_ansiExtern
      [.null, .null, .null, .null, .null, .null] 0).2.2.2.1 (List.cons_ne_nil _ _) (by decide)).2⟩

end formatter

/-! ## The view -/

namespace ui

open parser formatter

theorem foldl_filter_map {α β : Type} (p : α → Bool) (f : α → β) (l : List α) (acc : List β) :
    l.foldl (fun lines e => if p e = true then lines ++ [f e] else lines) acc
      = acc ++ (l.filter p).map f := by
  induction l generalizing acc with
  | nil => rw [List.foldl_nil, List.filter_nil, List.map_nil, List.append_nil]
  | cons a t ih =>
    rw [List.foldl_cons, ih, List.filter_cons]
    by_cases h : p a = true
    · rw [if_pos h, if_pos h, List.map_cons, List.append_assoc]
      rfl
    · rw [if_neg h, if_neg h]

theorem setContent_content (v : viewport.Model) (s : GoString) :
    (v.SetContent s).content = some s := by
  unfold viewport.Model.SetContent
  dsimp only
  split <;> rfl

/-- C10: with a container selected, recomputing the view hands the viewport the texts
`Format(e)` of the entries `e` of the selected container, in arrival order, whose content
contains the filter when both are put in lower case (every entry when the filter is empty),
joined by line feeds; when the filter is not empty and no entry matches, it hands it the
one line "No matches for: " followed by the filter. Nothing but the viewport changes. -/
theorem updateViewportContent_content (X : Extern) (m : Model) (h : m.selectedContainer ≠ []) :
    (m.updateViewportContent X).viewport.content
      = some
        (if ((m.store.Entries m.selectedContainer).filter (fun e =>
              decide (m.filter = []) ||
                strings.Contains (strings.ToLower X e.Content) (strings.ToLower X m.filter))).length
              = 0 ∧ m.filter ≠ [] then
          X.helpStyle (noMatchesText ++ m.filter)
        else
          strings.Join
            (((m.store.Entries m.selectedContainer).filter (fun e =>
                decide (m.filter = []) ||
                  strings.Contains (strings.ToLower X e.Content) (strings.ToLower X m.filter))).map
              (Format X)) ['\n']) ∧
    (m.filter = [] →
      (m.updateViewportContent X).viewport.content
        = some (strings.Join ((m.store.Entries m.selectedContainer).map (Format X)) ['\n'])) ∧
    (m.updateViewportContent X).store = m.store ∧
    (m.updateViewportContent X).selectedContainer = m.selectedContainer ∧
    (m.updateViewportContent X).selectedIndex = m.selectedIndex ∧
    (m.updateViewportContent X).filter = m.filter ∧
    (m.updateViewportContent X).focus = m.focus := by
  have hmain : (m.updateViewportContent X).viewport.content
      = some
        (if ((m.store.Entries m.selectedContainer).filter (fun e =>
              decide (m.filter = []) ||
                strings.Contains (strings.ToLower X e.Content) (strings.ToLower X m.filter))).length
              = 0 ∧ m.filter ≠ [] then
          X.helpStyle (noMatchesText ++ m.filter)
        else
          strings.Join
            (((m.store.Entries m.selectedContainer).filter (fun e =>
                decide (m.filter = []) ||
                  strings.Contains (strings.ToLower X e.Content) (strings.ToLower X m.filter))).map
              (Format X)) ['\n']) := by
    unfold Model.updateViewportContent
    rw [if_neg h]
    dsimp only
    rw [setContent_content]
    have hfold := foldl_filter_map (fun e : Entry =>
        decide (m.filter = []) ||
          strings.Contains (strings.ToLower X e.Content) (strings.ToLower X m.filter))
      (Format X) (m.store.Entries m.selectedContainer) []
    simp only [Bool.or_eq_true, decide_eq_true_eq] at hfold
    rw [hfold, List.nil_append, List.length_map]
    congr 1
    split
    · rename_i hc
      rw [List.length_eq_zero.1 hc.1]
      rfl
    · rfl
  refine ⟨hmain, ?_, ?_⟩
  · intro hf
    rw [hmain, if_neg (fun hc => hc.2 hf)]
    have : (m.store.Entries m.selectedContainer).filter (fun e =>
        decide (m.filter = []) ||
          strings.Contains (strings.ToLower X e.Content) (strings.ToLower X m.filter))
        = m.store.Entries m.selectedContainer := by
      rw [List.filter_eq_self]
      intro a _
      rw [Bool.or_eq_true, decide_eq_true_eq]
      exact Or.inl hf
    rw [this]
  · unfold Model.updateViewportContent
    rw [if_neg h]
    exact ⟨rfl, rfl, rfl, rfl, rfl⟩

/-- C10 at three entries with contents "alpha", "beta", "gamma": the filter "a" keeps all
three, the filters "et" and "ET" keep only "beta", the filter "zzz" gives the placeholder. -/
theorem updateViewportContent_witness :
    ((sampleModel [['a', 'l', 'p', 'h', 'a'], ['b', 'e', 't', 'a'], ['g', 'a', 'm', 'm', 'a']]
        ['a']).updateViewportContent plainExtern).viewport.content
      = some ['a', 'l', 'p', 'h', 'a', '\n', 'b', 'e', 't', 'a', '\n', 'g', 'a', 'm', 'm', 'a'] ∧
    ((sampleModel [['a', 'l', 'p', 'h', 'a'], ['b', 'e', 't', 'a'], ['g', 'a', 'm', 'm', 'a']]
        ['e', 't']).updateViewportContent plainExtern).viewport.content
      = some ['b', 'e', 't', 'a'] ∧
    ((sampleModel [['a', 'l', 'p', 'h', 'a'], ['b', 'e', 't', 'a'], ['g', 'a', 'm', 'm', 'a']]
        ['E', 'T']).updateViewportContent plainExtern).viewport.content
      = some ['b', 'e', 't', 'a'] ∧
    ((sampleModel [['a', 'l', 'p', 'h', 'a'], ['b', 'e', 't', 'a'], ['g', 'a', 'm', 'm', 'a']]
        ['z', 'z', 'z']).updateViewportContent plainExtern).viewport.content
      = some (noMatchesText ++ ['z', 'z', 'z']) :=
  ⟨(updateViewportContent_content plainExtern _ (by decide)).1.trans (by decide),
    (updateViewportContent_content plainExtern _ (by decide)).1.trans (by decide),
    (updateViewportContent_content plainExtern _ (by decide)).1.trans (by decide),
    (updateViewportContent_content plainExtern _ (by decide)).1.trans (by decide)⟩

end ui

/-! ## The state machine of `Update` -/

namespace ui

open parser formatter

theorem updateViewportContent_frame (X : Extern) (m : Model) :
    (m.updateViewportContent X).store = m.store ∧
    (m.updateViewportContent X).selectedContainer = m.selectedContainer ∧
    (m.updateViewportContent X).selectedIndex = m.selectedIndex ∧
    (m.updateViewportContent X).filter = m.filter ∧
    (m.updateViewportContent X).focus = m.focus := by
  unfold Model.updateViewportContent
  split
  · exact ⟨rfl, rfl, rfl, rfl, rfl⟩
  · exact ⟨rfl, rfl, rfl, rfl, rfl⟩

theorem updateViewportContent_all (X : Extern) (m : Model) (h : m.selectedContainer ≠ [])
    (hf : m.filter = []) :
    (m.updateViewportContent X).viewport.content
      = some (strings.Join ((m.store.Entries m.selectedContainer).map (Format X)) ['\n']) := by
  unfold Model.updateViewportContent
  rw [if_neg h]
  dsimp only
  rw [setContent_content]
  have hfold := foldl_filter_map (fun _ : Entry => true)
    (Format X) (m.store.Entries m.selectedContainer) []
  simp only [hf, true_or, if_true, ne_eq, not_true_eq_false, and_false, if_false] at hfold ⊢
  rw [hfold, List.nil_append, List.filter_true]

theorem updateViewportContent_none (X : Extern) (m : Model) (h : m.selectedContainer = []) :
    (m.updateViewportContent X).viewport.content = some noContainerText := by
  unfold Model.updateViewportContent
  rw [if_pos h]
  exact setContent_content _ _

/-- C11: the key "/" changes the focus only from the log view. With the focus on the
container list, `Update` returns the model as it is (focus and filter unchanged) and no
command; with the focus on the log view, it returns the model with the focus on the filter
and nothing else changed (the filter unchanged); with the focus on the filter, "/" is
text for the filter and the focus stays. -/
theorem update_slash (X : Extern) (m : Model) :
    (m.focus = .focusList → m.Update X (.KeyMsg ['/']) = .ok (m, .nil)) ∧
    (m.focus = .focusLogs →
      m.Update X (.KeyMsg ['/']) = .ok ({ m with focus := .focusFilter }, .nil)) ∧
    (m.focus = .focusFilter →
      ∃ m', m.Update X (.KeyMsg ['/']) = .ok (m', .nil) ∧ m'.focus = .focusFilter) := by
  have hfr := updateViewportContent_frame X ({ m with filter := m.filter ++ ['/'] } : Model)
  rcases m with ⟨st, si, sc, vp, w, h, r, f, fl⟩
  refine ⟨?_, ?_, ?_⟩
  · rintro rfl
    rfl
  · rintro rfl
    rfl
  · rintro rfl
    exact ⟨_, rfl, hfr.2.2.2.2⟩

end ui

namespace ui

open parser formatter

/-- C12: the key "esc". From the filter, `Update` returns the model with the filter emptied,
the focus on the log view and the view recomputed; from the log view with a filter, the
model with the filter emptied and the view recomputed, the focus kept; from the log view
without a filter, the model with the focus on the container list. In the first two cases the
resulting focus is the log view, the resulting filter is empty, and the content handed to
the viewport is, when a container is selected, the texts of all its entries joined by line
feeds. -/
theorem update_esc (X : Extern) (m : Model) :
    (m.focus = .focusFilter →
      m.Update X (.KeyMsg ['e', 's', 'c'])
        = .ok (({ m with filter := [], focus := .focusLogs } : Model).updateViewportContent X,
            .nil)) ∧
    (m.focus = .focusLogs → m.filter ≠ [] →
      m.Update X (.KeyMsg ['e', 's', 'c'])
        = .ok (({ m with filter := [] } : Model).updateViewportContent X, .nil)) ∧
    (m.focus = .focusLogs → m.filter = [] →
      m.Update X (.KeyMsg ['e', 's', 'c']) = .ok ({ m with focus := .focusList }, .nil)) ∧
    (m.focus = .focusFilter ∨ (m.focus = .focusLogs ∧ m.filter ≠ []) →
      ∃ m', m.Update X (.KeyMsg ['e', 's', 'c']) = .ok (m', .nil) ∧
        m'.focus = .focusLogs ∧ m'.filter = [] ∧
        m'.selectedContainer = m.selectedContainer ∧ m'.store = m.store ∧
        (m.selectedContainer ≠ [] →
          m'.viewport.content
            = some (strings.Join ((m.store.Entries m.selectedContainer).map (Format X))
                ['\n']))) := by
  have h1 : m.focus = .focusFilter →
      m.Update X (.KeyMsg ['e', 's', 'c'])
        = .ok (({ m with filter := [], focus := .focusLogs } : Model).updateViewportContent X,
            .nil) := by
    rcases m with ⟨st, si, sc, vp, w, h, r, f, fl⟩
    rintro rfl
    rfl
  have h2 : m.focus = .focusLogs → m.filter ≠ [] →
      m.Update X (.KeyMsg ['e', 's', 'c'])
        = .ok (({ m with filter := [] } : Model).updateViewportContent X, .nil) := by
    rcases m with ⟨st, si, sc, vp, w, h, r, f, fl⟩
    rintro rfl hne
    change fl ≠ [] at hne
    unfold Model.Update
    dsimp only
    rw [if_neg (by decide)]
    unfold Model.updateNormalKey
    dsimp only
    rw [if_neg (by decide), if_neg (by decide), if_neg (by decide), if_neg (by decide),
      if_pos rfl, if_pos rfl, if_pos hne]
    rfl
  have h3 : m.focus = .focusLogs → m.filter = [] →
      m.Update X (.KeyMsg ['e', 's', 'c']) = .ok ({ m with focus := .focusList }, .nil) := by
    rcases m with ⟨st, si, sc, vp, w, h, r, f, fl⟩
    rintro rfl hf
    change fl = [] at hf
    subst hf
    rfl
  refine ⟨h1, h2, h3, ?_⟩
  rintro (hf | ⟨hf, hne⟩)
  · refine ⟨_, h1 hf, ?_⟩
    have hfr := updateViewportContent_frame X
      ({ m with filter := [], focus := .focusLogs } : Model)
    refine ⟨hfr.2.2.2.2, hfr.2.2.2.1, hfr.2.1, hfr.1, fun hs => ?_⟩
    exact updateViewportContent_all X _ hs rfl
  · refine ⟨_, h2 hf hne, ?_⟩
    have hfr := updateViewportContent_frame X ({ m with filter := [] } : Model)
    refine ⟨hfr.2.2.2.2.trans hf, hfr.2.2.2.1, hfr.2.1, hfr.1, fun hs => ?_⟩
    exact updateViewportContent_all X _ hs rfl

/-- C13, as stated, fails: in the state reached from the initial one by the keys "tab" and
"/", the focus is on the filter, and the key "q" gives no quit command: it is appended to
the filter. -/
theorem update_quit_counterexample :
    ∃ m m', (New store.New).run plainExtern [.KeyMsg ['t', 'a', 'b'], .KeyMsg ['/']] = .ok m ∧
      m.focus = .focusFilter ∧
      m.Update plainExtern (.KeyMsg ['q']) = .ok (m', .nil) ∧
      m'.filter = ['q'] ∧ m'.focus = .focusFilter :=
  ⟨_, _, rfl, rfl, rfl, rfl, rfl⟩

/-- C13 (amended): with the focus on the container list or on the log view, the keys "q"
and "ctrl+c" make `Update` return the model unchanged with the quit command; with the focus
on the filter, "ctrl+c" does so too, while "q" is appended to the filter and the command is
`nil`. -/
theorem update_quit (X : Extern) (m : Model) :
    (m.focus ≠ .focusFilter → m.Update X (.KeyMsg ['q']) = .ok (m, .Quit)) ∧
    m.Update X (.KeyMsg ['c', 't', 'r', 'l', '+', 'c']) = .ok (m, .Quit) ∧
    (m.focus = .focusFilter →
      m.Update X (.KeyMsg ['q'])
        = .ok (({ m with filter := m.filter ++ ['q'] } : Model).updateViewportContent X,
            .nil)) := by
  rcases m with ⟨st, si, sc, vp, w, h, r, f, fl⟩
  refine ⟨fun hne => ?_, ?_, ?_⟩
  · cases f
    · rfl
    · rfl
    · exact absurd rfl hne
  · cases f <;> rfl
  · rintro rfl
    rfl

end ui

namespace ui

open parser formatter

theorem byteLen_singleton (c : Char) : byteLen [c] = c.utf8Size := by
  unfold byteLen
  rw [List.map_cons, List.map_nil, List.sum_cons, List.sum_nil, Nat.add_zero]

/-- C14 fails on the key "é": it is a single printable character, yet in the state reached
by the keys "tab" and "/", where the focus is on the filter, the key "é" (two bytes long,
so that `len(msg.String()) == 1` is false) leaves the model as it is: the filter stays
empty. -/
theorem update_filter_char_counterexample :
    ∃ m, (New store.New).run plainExtern [.KeyMsg ['t', 'a', 'b'], .KeyMsg ['/']] = .ok m ∧
      m.focus = .focusFilter ∧ m.filter = [] ∧
      strconv.IsPrint plainExtern 'é' = true ∧ byteLen ['é'] = 2 ∧
      m.Update plainExtern (.KeyMsg ['é']) = .ok (m, .nil) :=
  ⟨_, rfl, rfl, rfl, by decide, by decide, rfl⟩

/-- What `Update` does with a character key in filter mode (C14 holds for one-byte
characters only): with the focus on the filter, a key whose text is one character of one
byte (an ASCII character, the space included) is appended to the filter: `Update` returns
the model with the filter followed by that character and the view recomputed with the new
filter, the focus still on the filter, and no command. A key whose text is not one byte
long and is none of "esc", "enter", "backspace", "ctrl+c" leaves the model as it is. -/
theorem update_filter_char (X : Extern) (m : Model) (c : Char)
    (hf : m.focus = .focusFilter) (hc : c.utf8Size = 1) :
    m.Update X (.KeyMsg [c])
      = .ok (({ m with filter := m.filter ++ [c] } : Model).updateViewportContent X, .nil) ∧
    (({ m with filter := m.filter ++ [c] } : Model).updateViewportContent X).filter
      = m.filter ++ [c] ∧
    (({ m with filter := m.filter ++ [c] } : Model).updateViewportContent X).focus
      = .focusFilter ∧
    (∀ key : GoString, byteLen key ≠ 1 → key ≠ ['e', 's', 'c'] →
      key ≠ ['e', 'n', 't', 'e', 'r'] → key ≠ ['b', 'a', 'c', 'k', 's', 'p', 'a', 'c', 'e'] →
      key ≠ ['c', 't', 'r', 'l', '+', 'c'] → m.Update X (.KeyMsg key) = .ok (m, .nil)) := by
  have hfr := updateViewportContent_frame X ({ m with filter := m.filter ++ [c] } : Model)
  refine ⟨?_, hfr.2.2.2.1, hfr.2.2.2.2.trans hf, ?_⟩
  · unfold Model.Update
    dsimp only
    rw [if_pos hf]
    unfold Model.updateFilterKey
    rw [if_neg (fun h => by injection h with _ h2; cases h2),
      if_neg (fun h => by injection h with _ h2; cases h2),
      if_neg (fun h => by injection h with _ h2; cases h2),
      if_neg (fun h => by injection h with _ h2; cases h2),
      if_pos ((byteLen_singleton c).trans hc)]
  · intro key h1 h2 h3 h4 h5
    unfold Model.Update
    dsimp only
    rw [if_pos hf]
    unfold Model.updateFilterKey
    rw [if_neg h2, if_neg h3, if_neg h4, if_neg h5, if_neg h1]

/-- The key "t" at a model with the entries "alpha" and "beta", the filter "e" and the
focus on the filter: the filter becomes "et" and the content "beta". -/
theorem update_filter_char_witness :
    ({ sampleModel [['a', 'l', 'p', 'h', 'a'], ['b', 'e', 't', 'a']] ['e'] with
        focus := .focusFilter } : Model).focus = .focusFilter ∧
    't'.utf8Size = 1 ∧
    (({ sampleModel [['a', 'l', 'p', 'h', 'a'], ['b', 'e', 't', 'a']] ['e'] with
        focus := .focusFilter } : Model).Update plainExtern (.KeyMsg ['t'])).toOption.map
      (fun r => (r.1.filter, r.1.viewport.content, r.1.focus, r.2))
      = some (['e', 't'], some ['b', 'e', 't', 'a'], .focusFilter, .nil) :=
  ⟨rfl, rfl,
    (congrArg (fun r : Except Fault (Model × tea.Cmd) =>
        r.toOption.map (fun r => (r.1.filter, r.1.viewport.content, r.1.focus, r.2)))
      (update_filter_char plainExtern
        ({ sampleModel [['a', 'l', 'p', 'h', 'a'], ['b', 'e', 't', 'a']] ['e'] with
          focus := .focusFilter } : Model) 't' rfl rfl).1).trans (by decide)⟩

end ui

namespace ui

open parser formatter

theorem add_containers_length (s : store.Store) (e : Entry) :
    s.Containers.length ≤ (s.Add e).Containers.length := by
  unfold store.Store.Add store.Store.Containers
  dsimp only
  split
  · exact le_refl _
  · rw [(sortStrings_perm _).length_eq, List.length_append]
    exact Nat.le_add_right _ _

theorem updateSelectedContainer_in (X : Extern) (m : Model) (c : GoString)
    (hlt : m.selectedIndex < m.store.Containers.length)
    (hc : index m.store.Containers m.selectedIndex = .ok c) :
    m.updateSelectedContainer X
      = .ok { ({ m with selectedContainer := c, filter := [] } : Model).updateViewportContent X
          with viewport :=
            (({ m with selectedContainer := c, filter := [] } : Model).updateViewportContent
              X).viewport.GotoBottom } := by
  unfold Model.updateSelectedContainer
  dsimp only
  rw [if_pos hlt, hc]

theorem updateSelectedContainer_out (X : Extern) (m : Model)
    (hlt : ¬ m.selectedIndex < m.store.Containers.length) :
    m.updateSelectedContainer X = .ok m := by
  unfold Model.updateSelectedContainer
  dsimp only
  rw [if_neg hlt]

theorem index_ok (l : List GoString) (i : Int) (h0 : 0 ≤ i) (hlt : i < l.length) :
    ∃ c, index l i = .ok c ∧ l[i.toNat]? = some c := by
  unfold index
  rw [if_neg (not_lt.2 h0)]
  have hn : i.toNat < l.length := by omega
  rw [List.getElem?_eq_getElem hn]
  exact ⟨_, rfl, rfl⟩

theorem ite_elim {α : Type} {P : α → Prop} {c : Prop} [Decidable c] {a b : α}
    (ha : c → P a) (hb : ¬ c → P b) : P (if c then a else b) := by
  by_cases h : c
  · rw [if_pos h]
    exact ha h
  · rw [if_neg h]
    exact hb h

theorem updateSelectedContainer_elim (X : Extern) (m : Model) (P : Except Fault Model → Prop)
    (hs : ∀ m' : Model, m'.store = m.store → m'.selectedIndex = m.selectedIndex →
      (m'.filter = m.filter ∨ m'.filter = []) → m'.focus = m.focus → P (.ok m'))
    (he : ∀ e, m.selectedIndex < 0 → P (.error e)) :
    P (m.updateSelectedContainer X) := by
  by_cases hlt : m.selectedIndex < m.store.Containers.length
  · by_cases h0 : m.selectedIndex < 0
    · have hi : index m.store.Containers m.selectedIndex = .error .panic := by
        unfold index
        rw [if_pos h0]
      unfold Model.updateSelectedContainer
      dsimp only
      rw [if_pos hlt, hi]
      exact he _ h0
    · obtain ⟨c, hc, _⟩ := index_ok _ _ (not_lt.1 h0) hlt
      rw [updateSelectedContainer_in X m c hlt hc]
      have hfr := updateViewportContent_frame X
        ({ m with selectedContainer := c, filter := [] } : Model)
      exact hs _ hfr.1 hfr.2.2.1 (Or.inr hfr.2.2.2.1) hfr.2.2.2.2
  · rw [updateSelectedContainer_out X m hlt]
    exact hs _ rfl rfl (Or.inl rfl) rfl

theorem updateNormalKey_elim (X : Extern) (m : Model) (key : GoString)
    (P : Except Fault (Option Model) → Prop)
    (hq : P (.ok none))
    (hs : ∀ m' : Model, m'.store = m.store → (m'.filter = m.filter ∨ m'.filter = []) →
      (m'.selectedIndex = m.selectedIndex ∨
        (0 < m.selectedIndex ∧ m'.selectedIndex = m.selectedIndex - 1) ∨
        (m.selectedIndex < (m.store.Containers.length : Int) - 1 ∧
          m'.selectedIndex = m.selectedIndex + 1)) → P (.ok (some m')))
    (he : ∀ e, m.selectedIndex + 1 < 0 → P (.error e)) :
    P (m.updateNormalKey X key) := by
  have hup : 0 < m.selectedIndex → P ((Model.updateSelectedContainer X
      { m with selectedIndex := m.selectedIndex - 1 }).map some) := by
    intro h0
    refine updateSelectedContainer_elim X _ (fun r => P (r.map some))
      (fun m' h1 h2 h3 _ => ?_) (fun e hneg => ?_)
    · exact hs m' h1 h3 (Or.inr (Or.inl ⟨h0, h2⟩))
    · exact absurd hneg (by show ¬ m.selectedIndex - 1 < 0; omega)
  have hdown : m.selectedIndex < (m.store.Containers.length : Int) - 1 →
      P ((Model.updateSelectedContainer X
        { m with selectedIndex := m.selectedIndex + 1 }).map some) := by
    intro h0
    refine updateSelectedContainer_elim X _ (fun r => P (r.map some))
      (fun m' h1 h2 h3 _ => ?_) (fun e hneg => ?_)
    · exact hs m' h1 h3 (Or.inr (Or.inr ⟨h0, h2⟩))
    · exact he e hneg
  have hesc : P (.ok (some (({ m with filter := [] } : Model).updateViewportContent X))) :=
    hs _ (updateViewportContent_frame X ({ m with filter := [] } : Model)).1
      (Or.inr (updateViewportContent_frame X ({ m with filter := [] } : Model)).2.2.2.1)
      (Or.inl (updateViewportContent_frame X ({ m with filter := [] } : Model)).2.2.1)
  unfold Model.updateNormalKey
  repeat' first
    | exact hq
    | exact hesc
    | exact hs _ rfl (Or.inl rfl) (Or.inl rfl)
    | exact hup (by assumption)
    | exact hdown (by assumption)
    | refine ite_elim (fun _ => ?_) (fun _ => ?_)

end ui

namespace ui

open parser formatter

theorem byteLen_cons (c : Char) (s : GoString) : byteLen (c :: s) = c.utf8Size + byteLen s := by
  unfold byteLen
  rw [List.map_cons, List.sum_cons]

theorem byteLen_pos (c : Char) (s : GoString) : 0 < byteLen (c :: s) := by
  rw [byteLen_cons]
  exact Nat.lt_of_lt_of_le (Char.utf8Size_pos c) (Nat.le_add_right _ _)

theorem byteLen_eq_one (key : GoString) (h : byteLen key = 1) :
    ∃ ch, key = [ch] ∧ ch.utf8Size = 1 := by
  cases key with
  | nil => cases h
  | cons c t =>
    cases t with
    | nil => exact ⟨c, rfl, (byteLen_singleton c).symm.trans h⟩
    | cons d t =>
      rw [byteLen_cons] at h
      have h1 := Char.utf8Size_pos c
      have h2 := byteLen_pos d t
      omega

theorem updateFilterKey_elim (X : Extern) (m : Model) (key : GoString)
    (P : Except Fault (Model × tea.Cmd) → Prop)
    (hs : ∀ (m' : Model) (c : tea.Cmd), m'.store = m.store →
      m'.selectedIndex = m.selectedIndex →
      (m'.filter = m.filter ∨ m'.filter = [] ∨
        (∃ ch : Char, ch.utf8Size = 1 ∧ m'.filter = m.filter ++ [ch]) ∨
        m'.filter = m.filter.dropLast) → P (.ok (m', c)))
    (he : ∀ e, (∃ ch ∈ m.filter, ch.utf8Size ≠ 1) → P (.error e)) :
    P (m.updateFilterKey X key) := by
  have hvc : ∀ m₀ : Model, m₀.store = m.store → m₀.selectedIndex = m.selectedIndex →
      (m₀.filter = m.filter ∨ m₀.filter = [] ∨
        (∃ ch : Char, ch.utf8Size = 1 ∧ m₀.filter = m.filter ++ [ch]) ∨
        m₀.filter = m.filter.dropLast) →
      P (.ok (m₀.updateViewportContent X, .nil)) := by
    intro m₀ h1 h2 h3
    have hfr := updateViewportContent_frame X m₀
    refine hs _ _ (hfr.1.trans h1) (hfr.2.2.1.trans h2) ?_
    rw [hfr.2.2.2.1]
    exact h3
  have hback : byteLen m.filter > 0 → P (match dropLastByte m.filter with
      | .error e => .error e
      | .ok f => .ok (({ m with filter := f } : Model).updateViewportContent X, .nil)) := by
    intro hpos
    unfold dropLastByte
    cases hl : m.filter.getLast? with
    | none =>
      dsimp only
      have hnil : m.filter = [] := List.getLast?_eq_none_iff.1 hl
      rw [hnil] at hpos
      exact absurd hpos (by decide)
    | some c =>
      dsimp only
      have hmem : c ∈ m.filter := List.mem_of_getLast?_eq_some hl
      by_cases hc : c.utf8Size = 1
      · rw [if_pos hc]
        exact hvc _ rfl rfl (Or.inr (Or.inr (Or.inr rfl)))
      · rw [if_neg hc]
        exact he _ ⟨c, hmem, hc⟩
  unfold Model.updateFilterKey
  refine ite_elim (fun _ => hvc _ rfl rfl (Or.inr (Or.inl rfl))) (fun _ => ?_)
  refine ite_elim (fun _ => hs _ _ rfl rfl (Or.inl rfl)) (fun _ => ?_)
  refine ite_elim (fun _ => ?_) (fun _ => ?_)
  · refine ite_elim (fun hp => hback hp) (fun _ => hs _ _ rfl rfl (Or.inl rfl))
  refine ite_elim (fun _ => hs _ _ rfl rfl (Or.inl rfl)) (fun _ => ?_)
  refine ite_elim (fun h1 => ?_) (fun _ => hs _ _ rfl rfl (Or.inl rfl))
  obtain ⟨ch, rfl, hch⟩ := byteLen_eq_one key h1
  exact hvc _ rfl rfl (Or.inr (Or.inr (Or.inl ⟨ch, hch, rfl⟩)))

end ui

namespace ui

open parser formatter

theorem updateNormalKey_cases (X : Extern) (m : Model) (key : GoString) :
    m.updateNormalKey X key = .ok none ∨
    (∃ m' : Model, m.updateNormalKey X key = .ok (some m') ∧ m'.store = m.store ∧
      (m'.filter = m.filter ∨ m'.filter = []) ∧
      (m'.selectedIndex = m.selectedIndex ∨
        (0 < m.selectedIndex ∧ m'.selectedIndex = m.selectedIndex - 1) ∨
        (m.selectedIndex < (m.store.Containers.length : Int) - 1 ∧
          m'.selectedIndex = m.selectedIndex + 1))) ∨
    (∃ e, m.updateNormalKey X key = .error e ∧ m.selectedIndex + 1 < 0) :=
  updateNormalKey_elim X m key
    (fun r => r = .ok none ∨
      (∃ m' : Model, r = .ok (some m') ∧ m'.store = m.store ∧
        (m'.filter = m.filter ∨ m'.filter = []) ∧
        (m'.selectedIndex = m.selectedIndex ∨
          (0 < m.selectedIndex ∧ m'.selectedIndex = m.selectedIndex - 1) ∨
          (m.selectedIndex < (m.store.Containers.length : Int) - 1 ∧
            m'.selectedIndex = m.selectedIndex + 1))) ∨
      (∃ e, r = .error e ∧ m.selectedIndex + 1 < 0))
    (Or.inl rfl) (fun m' h1 h2 h3 => Or.inr (Or.inl ⟨m', rfl, h1, h2, h3⟩))
    (fun e h => Or.inr (Or.inr ⟨e, rfl, h⟩))

theorem updateWindowSize_frame (X : Extern) (m : Model) (w h : Int) :
    (m.updateWindowSize X w h).store = m.store ∧
    (m.updateWindowSize X w h).selectedContainer = m.selectedContainer ∧
    (m.updateWindowSize X w h).selectedIndex = m.selectedIndex ∧
    (m.updateWindowSize X w h).filter = m.filter ∧
    (m.updateWindowSize X w h).focus = m.focus := by
  unfold Model.updateWindowSize
  dsimp only
  by_cases hr : m.ready = true
  · rw [if_neg (not_not.2 hr)]
    exact updateViewportContent_frame X _
  · rw [if_pos hr]
    exact updateViewportContent_frame X _

theorem updateNewEntry_frame (X : Extern) (m : Model) (e : Entry) :
    (m.updateNewEntry X e).store = m.store.Add e ∧
    (m.updateNewEntry X e).selectedIndex = m.selectedIndex ∧
    (m.updateNewEntry X e).filter = m.filter ∧
    (m.updateNewEntry X e).focus = m.focus := by
  unfold Model.updateNewEntry
  dsimp only
  have hsel : ∀ m₁ : Model, m₁.store = m.store.Add e → m₁.selectedIndex = m.selectedIndex →
      m₁.filter = m.filter → m₁.focus = m.focus →
      (if e.Container = m₁.selectedContainer then
          { m₁.updateViewportContent X with
            viewport := (m₁.updateViewportContent X).viewport.GotoBottom }
        else m₁).store = m.store.Add e ∧
      (if e.Container = m₁.selectedContainer then
          { m₁.updateViewportContent X with
            viewport := (m₁.updateViewportContent X).viewport.GotoBottom }
        else m₁).selectedIndex = m.selectedIndex ∧
      (if e.Container = m₁.selectedContainer then
          { m₁.updateViewportContent X with
            viewport := (m₁.updateViewportContent X).viewport.GotoBottom }
        else m₁).filter = m.filter ∧
      (if e.Container = m₁.selectedContainer then
          { m₁.updateViewportContent X with
            viewport := (m₁.updateViewportContent X).viewport.GotoBottom }
        else m₁).focus = m.focus := by
    intro m₁ h1 h2 h3 h4
    have hfr := updateViewportContent_frame X m₁
    by_cases hc : e.Container = m₁.selectedContainer
    · rw [if_pos hc]
      exact ⟨hfr.1.trans h1, hfr.2.2.1.trans h2, hfr.2.2.2.1.trans h3, hfr.2.2.2.2.trans h4⟩
    · rw [if_neg hc]
      exact ⟨h1, h2, h3, h4⟩
  by_cases hs : m.selectedContainer = []
  · rw [if_pos hs]
    cases hcs : (m.store.Add e).Containers with
    | nil => exact hsel _ rfl rfl rfl rfl
    | cons c t => exact hsel _ rfl rfl rfl rfl
  · rw [if_neg hs]
    exact hsel _ rfl rfl rfl rfl

theorem update_elim (X : Extern) (m : Model) (msg : tea.Msg)
    (P : Except Fault (Model × tea.Cmd) → Prop)
    (hs : ∀ (m' : Model) (c : tea.Cmd),
      (m'.store = m.store ∨ ∃ e, m'.store = m.store.Add e) →
      (m'.filter = m.filter ∨ m'.filter = [] ∨
        (∃ ch : Char, ch.utf8Size = 1 ∧ m'.filter = m.filter ++ [ch]) ∨
        m'.filter = m.filter.dropLast) →
      (m'.selectedIndex = m.selectedIndex ∨
        (0 < m.selectedIndex ∧ m'.selectedIndex = m.selectedIndex - 1) ∨
        (m.selectedIndex < (m.store.Containers.length : Int) - 1 ∧
          m'.selectedIndex = m.selectedIndex + 1)) → P (.ok (m', c)))
    (he : ∀ e, (m.selectedIndex + 1 < 0 ∨ ∃ ch ∈ m.filter, ch.utf8Size ≠ 1) → P (.error e)) :
    P (m.Update X msg) := by
  cases msg with
  | KeyMsg key =>
    show P (if m.focus = focus.focusFilter then m.updateFilterKey X key else _)
    refine ite_elim (fun _ => ?_) (fun _ => ?_)
    · exact updateFilterKey_elim X m key P
        (fun m' c h1 h2 h3 => hs m' c (Or.inl h1) h3 (Or.inl h2)) (fun e h => he e (Or.inr h))
    · rcases updateNormalKey_cases X m key with h | ⟨m', h, h1, h2, h3⟩ | ⟨e, h, hneg⟩
      · rw [h]
        exact hs m .Quit (Or.inl rfl) (Or.inl rfl) (Or.inl rfl)
      · rw [h]
        refine hs _ .nil (Or.inl h1) ?_ h3
        rcases h2 with h2 | h2
        · exact Or.inl h2
        · exact Or.inr (Or.inl h2)
      · rw [h]
        exact he e (Or.inl hneg)
  | WindowSizeMsg w h =>
    have hfr := updateWindowSize_frame X m w h
    exact hs _ .nil (Or.inl hfr.1) (Or.inl hfr.2.2.2.1) (Or.inl hfr.2.2.1)
  | NewEntryMsg e =>
    have hfr := updateNewEntry_frame X m e
    exact hs _ .nil (Or.inr ⟨e, hfr.1⟩) (Or.inl hfr.2.2.1) (Or.inl hfr.2.1)

theorem update_inv (X : Extern) (m m' : Model) (msg : tea.Msg) (c : tea.Cmd)
    (h : m.Update X msg = .ok (m', c))
    (hinv : 0 ≤ m.selectedIndex ∧
      (m.selectedIndex = 0 ∨ m.selectedIndex < m.store.Containers.length) ∧
      ∀ ch ∈ m.filter, ch.utf8Size = 1) :
    0 ≤ m'.selectedIndex ∧
      (m'.selectedIndex = 0 ∨ m'.selectedIndex < m'.store.Containers.length) ∧
      ∀ ch ∈ m'.filter, ch.utf8Size = 1 := by
  revert h
  refine update_elim X m msg (fun r => r = .ok (m', c) →
    0 ≤ m'.selectedIndex ∧
      (m'.selectedIndex = 0 ∨ m'.selectedIndex < m'.store.Containers.length) ∧
      ∀ ch ∈ m'.filter, ch.utf8Size = 1) ?_ ?_
  · intro m₁ c₁ hst hfl hsi heq
    cases heq
    obtain ⟨h0, hlt, hasc⟩ := hinv
    have hlen : m.store.Containers.length ≤ m'.store.Containers.length := by
      rcases hst with hst | ⟨e, hst⟩
      · rw [hst]
      · rw [hst]
        exact add_containers_length _ _
    refine ⟨?_, ?_, ?_⟩
    · rcases hsi with hsi | ⟨_, hsi⟩ | ⟨_, hsi⟩ <;> omega
    · rcases hsi with hsi | ⟨_, hsi⟩ | ⟨_, hsi⟩ <;> omega
    · rcases hfl with hfl | hfl | ⟨ch, hch, hfl⟩ | hfl
      · rw [hfl]
        exact hasc
      · rw [hfl]
        intro ch hm
        cases hm
      · rw [hfl]
        intro d hd
        rcases List.mem_append.1 hd with hd | hd
        · exact hasc d hd
        · rw [List.mem_singleton.1 hd]
          exact hch
      · rw [hfl]
        intro d hd
        exact hasc d (List.mem_of_mem_dropLast hd)
  · intro e _ heq
    cases heq

theorem update_ok (X : Extern) (m : Model) (msg : tea.Msg)
    (h0 : 0 ≤ m.selectedIndex) (hasc : ∀ ch ∈ m.filter, ch.utf8Size = 1) :
    ∃ m' c, m.Update X msg = .ok (m', c) := by
  refine update_elim X m msg (fun r => ∃ m' c, r = .ok (m', c)) ?_ ?_
  · intro m₁ c₁ _ _ _
    exact ⟨m₁, c₁, rfl⟩
  · rintro e (hneg | ⟨ch, hm, hne⟩)
    · omega
    · exact absurd (hasc ch hm) hne

theorem reachable_inv (X : Extern) (m : Model) (h : Reachable X m) :
    0 ≤ m.selectedIndex ∧
      (m.selectedIndex = 0 ∨ m.selectedIndex < m.store.Containers.length) ∧
      ∀ ch ∈ m.filter, ch.utf8Size = 1 := by
  induction h with
  | init => exact ⟨le_refl _, Or.inl rfl, fun ch hm => by cases hm⟩
  | step msg _ hu ih => exact update_inv X _ _ msg _ hu ih

theorem reachable_run (X : Extern) (msgs : List tea.Msg) (m m' : Model) (h : Reachable X m)
    (hr : m.run X msgs = .ok m') : Reachable X m' := by
  induction msgs generalizing m with
  | nil =>
    cases hr
    exact h
  | cons msg msgs ih =>
    unfold Model.run at hr
    cases hu : m.Update X msg with
    | error e =>
      rw [hu] at hr
      cases hr
    | ok r =>
      obtain ⟨m₁, c⟩ := r
      rw [hu] at hr
      exact ih m₁ (Reachable.step msg h hu) hr

end ui

namespace ui

open parser formatter

/-- C15: in every state reachable from the initial one, with the focus on the filter, the
key "backspace" on a non-empty filter returns the model whose filter is the old one without
its last character (the old filter is the new one followed by one character; no fault for a
string cut inside a character arises), with the view recomputed for the new filter, the
focus still on the filter, and no command; on an empty filter it returns the model
unchanged. -/
theorem update_backspace (X : Extern) (m : Model) (hr : Reachable X m)
    (hf : m.focus = .focusFilter) :
    (m.filter ≠ [] →
      m.Update X (.KeyMsg ['b', 'a', 'c', 'k', 's', 'p', 'a', 'c', 'e'])
        = .ok (({ m with filter := m.filter.dropLast } : Model).updateViewportContent X, .nil) ∧
      (({ m with filter := m.filter.dropLast } : Model).updateViewportContent X).filter
        = m.filter.dropLast ∧
      (∃ ch, m.filter = m.filter.dropLast ++ [ch]) ∧
      (({ m with filter := m.filter.dropLast } : Model).updateViewportContent X).focus
        = .focusFilter) ∧
    (m.filter = [] →
      m.Update X (.KeyMsg ['b', 'a', 'c', 'k', 's', 'p', 'a', 'c', 'e']) = .ok (m, .nil)) := by
  have hasc := (reachable_inv X m hr).2.2
  have hupd : m.Update X (.KeyMsg ['b', 'a', 'c', 'k', 's', 'p', 'a', 'c', 'e'])
      = if byteLen m.filter > 0 then
          match dropLastByte m.filter with
          | .error e => .error e
          | .ok f => .ok (({ m with filter := f } : Model).updateViewportContent X, .nil)
        else .ok (m, .nil) := by
    show (if m.focus = focus.focusFilter then _ else _) = _
    rw [if_pos hf]
    rfl
  constructor
  · intro hne
    have hfr := updateViewportContent_frame X ({ m with filter := m.filter.dropLast } : Model)
    refine ⟨?_, hfr.2.2.2.1, ⟨m.filter.getLast hne, (List.dropLast_append_getLast hne).symm⟩,
      hfr.2.2.2.2.trans hf⟩
    have hpos : byteLen m.filter > 0 := by
      cases hfl : m.filter with
      | nil => exact absurd hfl hne
      | cons c t => exact byteLen_pos c t
    have hdrop : dropLastByte m.filter = .ok m.filter.dropLast := by
      unfold dropLastByte
      rw [List.getLast?_eq_getLast _ hne]
      dsimp only
      rw [if_pos (hasc _ (List.getLast_mem hne))]
    rw [hupd, if_pos hpos, hdrop]
  · intro he
    rw [hupd, he]
    rfl

/-- C15 in the state reached by the keys "tab", "/", "a", "b": the focus is on the filter
"ab", and backspace makes the filter "a". -/
theorem update_backspace_witness :
    ∃ m, (New store.New).run plainExtern
        [.KeyMsg ['t', 'a', 'b'], .KeyMsg ['/'], .KeyMsg ['a'], .KeyMsg ['b']] = .ok m ∧
      m.focus = .focusFilter ∧ m.filter = ['a', 'b'] ∧
      (m.Update plainExtern (.KeyMsg ['b', 'a', 'c', 'k', 's', 'p', 'a', 'c', 'e'])).toOption.map
        (fun r => (r.1.filter, r.1.focus, r.2)) = some (['a'], .focusFilter, .nil) := by
  refine ⟨_, rfl, rfl, rfl, ?_⟩
  exact (congrArg (fun r : Except Fault (Model × tea.Cmd) =>
      r.toOption.map (fun r => (r.1.filter, r.1.focus, r.2)))
    ((update_backspace plainExtern _
      (reachable_run plainExtern
        [.KeyMsg ['t', 'a', 'b'], .KeyMsg ['/'], .KeyMsg ['a'], .KeyMsg ['b']] _ _
        Reachable.init rfl) rfl).1 (List.cons_ne_nil _ _)).1).trans rfl

end ui

namespace ui

open parser formatter

theorem updateNormalKey_up (X : Extern) (m : Model) (key : GoString)
    (hk : key = ['u', 'p'] ∨ key = ['k']) :
    m.updateNormalKey X key
      = if m.focus = .focusList then
          if m.selectedIndex > 0 then
            (Model.updateSelectedContainer X
              { m with selectedIndex := m.selectedIndex - 1 }).map some
          else .ok (some m)
        else .ok (some { m with viewport := m.viewport.LineUp 1 }) := by
  rcases hk with rfl | rfl <;> rfl

theorem updateNormalKey_down (X : Extern) (m : Model) (key : GoString)
    (hk : key = ['d', 'o', 'w', 'n'] ∨ key = ['j']) :
    m.updateNormalKey X key
      = if m.focus = .focusList then
          if m.selectedIndex < (m.store.Containers.length : Int) - 1 then
            (Model.updateSelectedContainer X
              { m with selectedIndex := m.selectedIndex + 1 }).map some
          else .ok (some m)
        else .ok (some { m with viewport := m.viewport.LineDown 1 }) := by
  rcases hk with rfl | rfl <;> rfl

theorem viewport_update_up (v : viewport.Model) (key : GoString)
    (hk : key = ['u', 'p'] ∨ key = ['k']) : v.Update (.KeyMsg key) = v.LineUp 1 := by
  rcases hk with rfl | rfl <;> rfl

theorem viewport_update_down (v : viewport.Model) (key : GoString)
    (hk : key = ['d', 'o', 'w', 'n'] ∨ key = ['j']) : v.Update (.KeyMsg key) = v.LineDown 1 := by
  rcases hk with rfl | rfl <;> rfl

theorem update_normal_some (X : Extern) (m m₁ : Model) (key : GoString)
    (hf : m.focus ≠ .focusFilter) (h : m.updateNormalKey X key = .ok (some m₁)) :
    m.Update X (.KeyMsg key)
      = .ok ({ m₁ with viewport := m₁.viewport.Update (.KeyMsg key) }, .nil) := by
  show (if m.focus = focus.focusFilter then _ else _) = _
  rw [if_neg hf, h]

theorem update_filter_other (X : Extern) (m : Model) (key : GoString)
    (hf : m.focus = .focusFilter)
    (hk : key = ['u', 'p'] ∨ key = ['d', 'o', 'w', 'n']) :
    m.Update X (.KeyMsg key) = .ok (m, .nil) := by
  show (if m.focus = focus.focusFilter then _ else _) = _
  rw [if_pos hf]
  rcases hk with rfl | rfl <;> rfl

/-- C17: with a container selected, a new entry for another container `c` makes `Update`
return the model with the entry added to the store and nothing else changed (the viewport
with its content and scroll position, the selected container, the selected index, the
filter and the focus are the old ones), and no command; the entry count of `c` in the new
store is the old one plus one. -/
theorem update_newEntry_other (X : Extern) (m : Model) (entry : Entry)
    (hs : m.selectedContainer ≠ []) (hc : entry.Container ≠ m.selectedContainer) :
    m.Update X (.NewEntryMsg entry) = .ok ({ m with store := m.store.Add entry }, .nil) ∧
    (m.store.Add entry).EntryCount entry.Container
      = m.store.EntryCount entry.Container + 1 := by
  constructor
  · show Except.ok (_, tea.Cmd.nil) = _
    have hne : m.updateNewEntry X entry = { m with store := m.store.Add entry } := by
      unfold Model.updateNewEntry
      dsimp only
      rw [if_neg hs, if_neg hc]
    rw [hne]
    rfl
  · unfold store.Store.EntryCount store.Store.Add
    dsimp only
    rw [mapGet_mapSet_same, Option.getD_some, List.length_append]
    rfl

/-- C17 at the model with two entries of the selected container "c" and the filter "x", and
a new entry of the container "d": its count goes from 0 to 1, the name list becomes "c",
"d", and the viewport, the selection, the filter and the focus stay. -/
theorem update_newEntry_other_witness :
    (sampleModel [['x'], ['y']] ['x']).selectedContainer ≠ [] ∧
    (plainEntry ['d'] ['z']).Container ≠ (sampleModel [['x'], ['y']] ['x']).selectedContainer ∧
    (sampleModel [['x'], ['y']] ['x']).store.EntryCount ['d'] = 0 ∧
    ((sampleModel [['x'], ['y']] ['x']).Update plainExtern
        (.NewEntryMsg (plainEntry ['d'] ['z']))).toOption.map
      (fun r => (r.1.store.EntryCount ['d'], r.1.store.Containers, r.1.viewport.content,
        r.1.viewport.YOffset, r.1.selectedContainer, r.1.selectedIndex, r.1.filter, r.1.focus,
        r.2))
      = some (1, [['c'], ['d']], none, 0, ['c'], 0, ['x'], .focusList, .nil) :=
  ⟨by decide, by decide, by decide,
    (congrArg (fun r : Except Fault (Model × tea.Cmd) =>
        r.toOption.map (fun r => (r.1.store.EntryCount ['d'], r.1.store.Containers,
          r.1.viewport.content, r.1.viewport.YOffset, r.1.selectedContainer, r.1.selectedIndex,
          r.1.filter, r.1.focus, r.2)))
      (update_newEntry_other plainExtern (sampleModel [['x'], ['y']] ['x'])
        (plainEntry ['d'] ['z']) (by decide) (by decide)).1).trans rfl⟩

end ui

namespace ui

open parser formatter

/-- The parts of C18 that hold: in every state reachable from the initial one, the selected
index is at least 0 and, when the store has a container, below the number of containers;
`Update`, which leaves the panics of the viewport library out, yields a state for every
message (the program itself indexes no list out of range and cuts no string inside a
character; for the library see `updateSelectedContainerChecked`); and with the focus on
the container list or the log view, an up key ("up", "k") at index 0, a down key ("down",
"j") at the last index, and either key while the store is empty leave the selected index,
the selected container, the filter, the store and the focus as they are. With the focus on
the filter the keys "up" and "down" change nothing at all. -/
theorem selection_safe (X : Extern) (m : Model) (hr : Reachable X m) :
    (0 ≤ m.selectedIndex ∧
      (m.store.Containers ≠ [] → m.selectedIndex < m.store.Containers.length)) ∧
    (∀ msg, ∃ m' c, m.Update X msg = .ok (m', c)) ∧
    (∀ key, m.focus ≠ .focusFilter →
      (((key = ['u', 'p'] ∨ key = ['k']) ∧ m.selectedIndex = 0) ∨
        ((key = ['d', 'o', 'w', 'n'] ∨ key = ['j']) ∧
          m.selectedIndex = (m.store.Containers.length : Int) - 1) ∨
        ((key = ['u', 'p'] ∨ key = ['k'] ∨ key = ['d', 'o', 'w', 'n'] ∨ key = ['j']) ∧
          m.store.Containers = [])) →
      ∃ m', m.Update X (.KeyMsg key) = .ok (m', .nil) ∧
        m'.selectedIndex = m.selectedIndex ∧ m'.selectedContainer = m.selectedContainer ∧
        m'.filter = m.filter ∧ m'.store = m.store ∧ m'.focus = m.focus) ∧
    (∀ key, m.focus = .focusFilter → (key = ['u', 'p'] ∨ key = ['d', 'o', 'w', 'n']) →
      m.Update X (.KeyMsg key) = .ok (m, .nil)) := by
  obtain ⟨h0, hlt, hasc⟩ := reachable_inv X m hr
  refine ⟨⟨h0, fun hne => ?_⟩, fun msg => update_ok X m msg h0 hasc, ?_,
    fun key hf hk => update_filter_other X m key hf hk⟩
  · have hpos : 0 < m.store.Containers.length := List.length_pos.2 hne
    omega
  · intro key hf hcase
    have hup : (key = ['u', 'p'] ∨ key = ['k']) → m.selectedIndex = 0 →
        ∃ m', m.Update X (.KeyMsg key) = .ok (m', .nil) ∧
          m'.selectedIndex = m.selectedIndex ∧ m'.selectedContainer = m.selectedContainer ∧
          m'.filter = m.filter ∧ m'.store = m.store ∧ m'.focus = m.focus := by
      intro hk hz
      by_cases hfl : m.focus = .focusList
      · refine ⟨_, update_normal_some X m m key hf ?_, rfl, rfl, rfl, rfl, rfl⟩
        rw [updateNormalKey_up X m key hk, if_pos hfl, if_neg (by omega)]
      · refine ⟨_, update_normal_some X m { m with viewport := m.viewport.LineUp 1 } key hf ?_,
          rfl, rfl, rfl, rfl, rfl⟩
        rw [updateNormalKey_up X m key hk, if_neg hfl]
    have hdown : (key = ['d', 'o', 'w', 'n'] ∨ key = ['j']) →
        ¬ m.selectedIndex < (m.store.Containers.length : Int) - 1 →
        ∃ m', m.Update X (.KeyMsg key) = .ok (m', .nil) ∧
          m'.selectedIndex = m.selectedIndex ∧ m'.selectedContainer = m.selectedContainer ∧
          m'.filter = m.filter ∧ m'.store = m.store ∧ m'.focus = m.focus := by
      intro hk hz
      by_cases hfl : m.focus = .focusList
      · refine ⟨_, update_normal_some X m m key hf ?_, rfl, rfl, rfl, rfl, rfl⟩
        rw [updateNormalKey_down X m key hk, if_pos hfl, if_neg hz]
      · refine ⟨_, update_normal_some X m { m with viewport := m.viewport.LineDown 1 } key hf ?_,
          rfl, rfl, rfl, rfl, rfl⟩
        rw [updateNormalKey_down X m key hk, if_neg hfl]
    rcases hcase with ⟨hk, hz⟩ | ⟨hk, hz⟩ | ⟨hk, hz⟩
    · exact hup hk hz
    · exact hdown hk (by omega)
    · have hlen : m.store.Containers.length = 0 := by rw [hz]; rfl
      rcases hk with hk | hk | hk | hk
      · exact hup (Or.inl hk) (by omega)
      · exact hup (Or.inr hk) (by omega)
      · exact hdown (Or.inl hk) (by omega)
      · exact hdown (Or.inr hk) (by omega)

/-- The state reached by two new entries of the containers "a" and "b" and the key "down":
the selected index is 1, the last one, and another "down" leaves the selection. -/
theorem selection_safe_witness :
    ∃ m, (New store.New).run plainExtern
        [.NewEntryMsg (plainEntry ['a'] ['x']), .NewEntryMsg (plainEntry ['b'] ['y']),
          .KeyMsg ['d', 'o', 'w', 'n']] = .ok m ∧
      m.selectedIndex = 1 ∧ m.store.Containers = [['a'], ['b']] ∧
      m.selectedContainer = ['b'] ∧
      ∃ m', m.Update plainExtern (.KeyMsg ['d', 'o', 'w', 'n']) = .ok (m', .nil) ∧
        m'.selectedIndex = m.selectedIndex ∧ m'.selectedContainer = m.selectedContainer ∧
        m'.filter = m.filter ∧ m'.store = m.store ∧ m'.focus = m.focus := by
  refine ⟨_, rfl, rfl, rfl, rfl, ?_⟩
  exact (selection_safe plainExtern _
    (reachable_run plainExtern
      [.NewEntryMsg (plainEntry ['a'] ['x']), .NewEntryMsg (plainEntry ['b'] ['y']),
        .KeyMsg ['d', 'o', 'w', 'n']] _ _ Reachable.init rfl)).2.2.1
    ['d', 'o', 'w', 'n'] (fun h => by cases h) (Or.inr (Or.inl ⟨Or.inl rfl, rfl⟩))

end ui

namespace ui

open parser formatter

theorem lineCount_pos (v : viewport.Model) (s : GoString) (h : v.content = some s) :
    1 ≤ v.lineCount := by
  unfold viewport.Model.lineCount
  rw [h]
  dsimp only
  omega

theorem gotoBottom_lineUp (v : viewport.Model) (s : GoString) (h : v.content = some s) :
    (v.GotoBottom.LineUp 1).YOffset = max 0 (v.maxYOffset - 1) ∧
    (v.GotoBottom.LineUp 1).content = v.content ∧
    (v.GotoBottom.LineUp 1).Height = v.Height ∧
    (v.GotoBottom.LineUp 1).maxYOffset = v.maxYOffset := by
  have hl := lineCount_pos v s h
  have hlc : v.GotoBottom.lineCount = v.lineCount := rfl
  have hmax : v.GotoBottom.maxYOffset = v.maxYOffset := rfl
  have hy : v.GotoBottom.YOffset = v.maxYOffset := rfl
  have hm0 : 0 ≤ v.maxYOffset := le_max_left _ _
  unfold viewport.Model.LineUp
  by_cases htop : v.GotoBottom.AtTop = true
  · rw [if_pos (Or.inl htop)]
    refine ⟨?_, rfl, rfl, rfl⟩
    unfold viewport.Model.AtTop at htop
    rw [decide_eq_true_eq, hy] at htop
    rw [hy]
    omega
  · have hcond : ¬ (v.GotoBottom.AtTop = true ∨ (1 : Int) = 0 ∨ v.GotoBottom.lineCount = 0) := by
      rw [hlc]
      rintro (h1 | h1 | h1)
      · exact htop h1
      · omega
      · omega
    rw [if_neg hcond]
    refine ⟨?_, rfl, rfl, rfl⟩
    unfold viewport.Model.AtTop at htop
    rw [decide_eq_true_eq, hy] at htop
    show viewport.clamp (v.GotoBottom.YOffset - 1) 0 v.GotoBottom.maxYOffset = _
    rw [hy, hmax]
    unfold viewport.clamp
    rw [if_neg (by omega)]
    omega

theorem gotoBottom_lineDown (v : viewport.Model) : v.GotoBottom.LineDown 1 = v.GotoBottom := by
  unfold viewport.Model.LineDown
  have hb : v.GotoBottom.AtBottom = true := by
    unfold viewport.Model.AtBottom
    rw [decide_eq_true_eq]
    exact le_refl _
  rw [if_pos (Or.inl hb)]

/-- C16: with the focus on the container list and the selected index not negative, a down
key ("down", "j") below the last index moves the selection to the next index `i`: the
result has `selectedIndex == i`, `selectedContainer == Containers()[i]`, an empty filter, the
content recomputed for that container, and the viewport at the bottom
(`YOffset == maxYOffset`). An up key ("up", "k") above index 0 does the same for the index
before, except for the scroll position: the call of `viewport.Update` that ends `Update`
scrolls one line up again, so the viewport is one line above the bottom
(`YOffset == max(0, maxYOffset - 1)`), which is the bottom only when the content fits the
viewport. -/
theorem update_select (X : Extern) (m : Model) (key : GoString)
    (hf : m.focus = .focusList) (h0 : 0 ≤ m.selectedIndex) :
    ((key = ['d', 'o', 'w', 'n'] ∨ key = ['j']) →
      m.selectedIndex < (m.store.Containers.length : Int) - 1 →
      ∃ m' c, m.Update X (.KeyMsg key) = .ok (m', .nil) ∧
        index m.store.Containers (m.selectedIndex + 1) = .ok c ∧
        m'.selectedIndex = m.selectedIndex + 1 ∧ m'.selectedContainer = c ∧ m'.filter = [] ∧
        m'.viewport.content
          = (({ m with
                selectedIndex := m.selectedIndex + 1, selectedContainer := c, filter := [] } :
              Model).updateViewportContent X).viewport.content ∧
        (c ≠ [] → m'.viewport.content
          = some (strings.Join ((m.store.Entries c).map (Format X)) ['\n'])) ∧
        m'.viewport.YOffset = m'.viewport.maxYOffset) ∧
    ((key = ['u', 'p'] ∨ key = ['k']) → 0 < m.selectedIndex →
      m.selectedIndex - 1 < (m.store.Containers.length : Int) →
      ∃ m' c, m.Update X (.KeyMsg key) = .ok (m', .nil) ∧
        index m.store.Containers (m.selectedIndex - 1) = .ok c ∧
        m'.selectedIndex = m.selectedIndex - 1 ∧ m'.selectedContainer = c ∧ m'.filter = [] ∧
        m'.viewport.content
          = (({ m with
                selectedIndex := m.selectedIndex - 1, selectedContainer := c, filter := [] } :
              Model).updateViewportContent X).viewport.content ∧
        (c ≠ [] → m'.viewport.content
          = some (strings.Join ((m.store.Entries c).map (Format X)) ['\n'])) ∧
        m'.viewport.YOffset = max 0 (m'.viewport.maxYOffset - 1)) := by
  have hff : m.focus ≠ .focusFilter := by
    rw [hf]
    exact fun h => by cases h
  have hcontent : ∀ m₀ : Model, ∃ s, (m₀.updateViewportContent X).viewport.content = some s := by
    intro m₀
    by_cases hs : m₀.selectedContainer = []
    · exact ⟨_, updateViewportContent_none X m₀ hs⟩
    · unfold Model.updateViewportContent
      rw [if_neg hs]
      exact ⟨_, setContent_content _ _⟩
  constructor
  · intro hk hlt
    obtain ⟨c, hc, _⟩ := index_ok m.store.Containers (m.selectedIndex + 1) (by omega) (by omega)
    have hsel := updateSelectedContainer_in X
      ({ m with selectedIndex := m.selectedIndex + 1 } : Model) c
      (show m.selectedIndex + 1 < (m.store.Containers.length : Int) by omega) hc
    have hnk := updateNormalKey_down X m key hk
    rw [if_pos hf, if_pos hlt, hsel] at hnk
    have hu := update_normal_some X m _ key hff hnk
    have hfr := updateViewportContent_frame X
      ({ m with selectedIndex := m.selectedIndex + 1, selectedContainer := c, filter := [] } :
        Model)
    refine ⟨_, c, hu, hc, hfr.2.2.1, hfr.2.1, hfr.2.2.2.1, ?_, ?_, ?_⟩
    · show (viewport.Model.Update _ (tea.Msg.KeyMsg key)).content = _
      rw [viewport_update_down _ key hk, gotoBottom_lineDown]
      rfl
    · intro hne
      show (viewport.Model.Update _ (tea.Msg.KeyMsg key)).content = _
      rw [viewport_update_down _ key hk, gotoBottom_lineDown]
      exact updateViewportContent_all X _ hne rfl
    · show (viewport.Model.Update _ (tea.Msg.KeyMsg key)).YOffset
        = (viewport.Model.Update _ (tea.Msg.KeyMsg key)).maxYOffset
      rw [viewport_update_down _ key hk, gotoBottom_lineDown]
      rfl
  · intro hk hpos hlt
    obtain ⟨c, hc, _⟩ := index_ok m.store.Containers (m.selectedIndex - 1) (by omega) hlt
    have hsel := updateSelectedContainer_in X
      ({ m with selectedIndex := m.selectedIndex - 1 } : Model) c hlt hc
    have hnk := updateNormalKey_up X m key hk
    rw [if_pos hf, if_pos hpos, hsel] at hnk
    have hu := update_normal_some X m _ key hff hnk
    have hfr := updateViewportContent_frame X
      ({ m with selectedIndex := m.selectedIndex - 1, selectedContainer := c, filter := [] } :
        Model)
    obtain ⟨s, hs⟩ := hcontent
      ({ m with selectedIndex := m.selectedIndex - 1, selectedContainer := c, filter := [] } :
        Model)
    have hlu := gotoBottom_lineUp _ s hs
    refine ⟨_, c, hu, hc, hfr.2.2.1, hfr.2.1, hfr.2.2.2.1, ?_, ?_, ?_⟩
    · show (viewport.Model.Update _ (tea.Msg.KeyMsg key)).content = _
      rw [viewport_update_up _ key hk]
      exact hlu.2.1
    · intro hne
      show (viewport.Model.Update _ (tea.Msg.KeyMsg key)).content = _
      rw [viewport_update_up _ key hk]
      exact hlu.2.1.trans (updateViewportContent_all X _ hne rfl)
    · show (viewport.Model.Update _ (tea.Msg.KeyMsg key)).YOffset
        = max 0 ((viewport.Model.Update _ (tea.Msg.KeyMsg key)).maxYOffset - 1)
      rw [viewport_update_up _ key hk, hlu.1, hlu.2.2.2]

end ui

namespace ui

open parser formatter

/-- C16 at `selectState`, the state reached from the initial one by a window of 5 rows,
three entries and the key "down": the key "up" selects index 0 (container "a") with an empty
filter and the two-line content "x", "z", whose bottom is at offset 1, and leaves the
viewport at offset 0, which is not the bottom. -/
theorem update_select_witness :
    (New store.New).run plainExtern
        [.WindowSizeMsg 80 5, .NewEntryMsg (plainEntry ['a'] ['x']),
          .NewEntryMsg (plainEntry ['b'] ['y']), .NewEntryMsg (plainEntry ['a'] ['z']),
          .KeyMsg ['d', 'o', 'w', 'n']] = .ok selectState ∧
    selectState.focus = .focusList ∧ 0 ≤ selectState.selectedIndex ∧
    (∃ m', selectState.Update plainExtern (.KeyMsg ['u', 'p']) = .ok (m', .nil) ∧
      m'.selectedIndex = 0 ∧ m'.filter = [] ∧
      m'.viewport.YOffset = max 0 (m'.viewport.maxYOffset - 1)) ∧
    (selectState.Update plainExtern (.KeyMsg ['u', 'p'])).toOption.map
      (fun r => (r.1.selectedIndex, r.1.selectedContainer, r.1.filter, r.1.viewport.content,
        r.1.viewport.Height, r.1.viewport.maxYOffset, r.1.viewport.YOffset,
        r.1.viewport.AtBottom, r.2))
      = some (0, ['a'], [], some ['x', '\n', 'z'], 1, 1, 0, false, .nil) := by
  refine ⟨rfl, rfl, by decide, ?_, rfl⟩
  obtain ⟨m', c, hu, _, h1, _, h3, _, _, h6⟩ :=
    (update_select plainExtern selectState ['u', 'p'] rfl (by decide)).2 (Or.inl rfl)
      (by decide) (by decide)
  exact ⟨m', hu, h1, h3, h6⟩

end ui

namespace ui

open parser formatter

/-- C20 fails in a reachable state: after a new entry of container "b" and then one of the
unseen container "a", which sorts before it, the store lists "a", "b", the selected index is
still 0 and the selected container is still "b": the container whose logs are displayed is
not `Containers()[selectedIndex]`, which is "a", the row that the list highlights. -/
theorem selection_mismatch (X : Extern) :
    ∃ m, (New store.New).run X
        [.NewEntryMsg (plainEntry ['b'] ['x']), .NewEntryMsg (plainEntry ['a'] ['y'])] = .ok m ∧
      Reachable X m ∧ m.selectedContainer ≠ [] ∧
      m.store.Containers = [['a'], ['b']] ∧ m.selectedIndex = 0 ∧
      m.selectedContainer = ['b'] ∧
      index m.store.Containers m.selectedIndex = .ok ['a'] ∧
      index m.store.Containers m.selectedIndex ≠ .ok m.selectedContainer := by
  have hrun : ∃ m, (New store.New).run X
      [.NewEntryMsg (plainEntry ['b'] ['x']), .NewEntryMsg (plainEntry ['a'] ['y'])] = .ok m ∧
      m.store.Containers = [['a'], ['b']] ∧ m.selectedIndex = 0 ∧
      m.selectedContainer = ['b'] := ⟨_, rfl, rfl, rfl, rfl⟩
  obtain ⟨m, hm, h1, h2, h3⟩ := hrun
  refine ⟨m, hm, reachable_run X _ _ m Reachable.init hm, ?_, h1, h2, h3, ?_, ?_⟩
  · rw [h3]
    exact List.cons_ne_nil _ _
  · rw [h1, h2]
    rfl
  · rw [h1, h2, h3]
    intro h
    change (Except.ok ['a'] : Except Fault GoString) = Except.ok ['b'] at h
    injection h with h
    exact absurd h (by decide)

end ui

/-! ## Numbers beyond the range of `int64` -/

namespace formatter

theorem round_nat_bound (n j m' : Nat) (hn : n ≤ 2 ^ 63)
    (hm : m' = n / 2 ^ j ∨
      (m' = n / 2 ^ j + 1 ∧
        (2 ^ j < 2 * (n % 2 ^ j) ∨ (2 * (n % 2 ^ j) = 2 ^ j ∧ n / 2 ^ j % 2 = 1)))) :
    m' * 2 ^ j ≤ 2 ^ 63 := by
  have hpos : 0 < 2 ^ j := Nat.pow_pos (by decide)
  rcases hm with rfl | ⟨rfl, hc⟩
  · exact le_trans (Nat.div_mul_le_self n (2 ^ j)) hn
  · by_cases hj : j ≤ 63
    · have h63 : 2 ^ 63 = 2 ^ (63 - j) * 2 ^ j := by
        rw [← pow_add]
        congr 1
        omega
      have hr : 0 < n % 2 ^ j := by
        rcases hc with h | ⟨h, _⟩ <;> omega
      have hdm := Nat.div_add_mod n (2 ^ j)
      have hlt : n / 2 ^ j < 2 ^ (63 - j) := by
        by_contra hge
        have hge' : 2 ^ (63 - j) ≤ n / 2 ^ j := Nat.le_of_not_lt hge
        have h1 : 2 ^ (63 - j) * 2 ^ j ≤ n / 2 ^ j * 2 ^ j := Nat.mul_le_mul_right _ hge'
        rw [Nat.mul_comm (2 ^ j)] at hdm
        omega
      calc (n / 2 ^ j + 1) * 2 ^ j ≤ 2 ^ (63 - j) * 2 ^ j := Nat.mul_le_mul_right _ hlt
        _ = 2 ^ 63 := h63.symm
    · exfalso
      have h64 : 2 ^ 64 ≤ 2 ^ j := Nat.pow_le_pow_right (by decide) (by omega)
      have hnlt : n < 2 ^ j := by omega
      rw [Nat.mod_eq_of_lt hnlt, Nat.div_eq_of_lt hnlt] at hc
      rcases hc with h | ⟨_, h⟩
      · omega
      · cases h

theorem log2_one : strconv.log2 1 = 0 := by decide

theorem roundFloat64_bound (neg : Bool) (n : Nat) (hn : n ≤ 2 ^ 63) (b : Float64)
    (h : strconv.roundFloat64 neg n 1 = some b) :
    b.mant = 0 ∨ (-53 ≤ b.exp ∧ b.mant * 2 ^ (b.exp + 53).toNat ≤ 2 ^ 116) := by
  unfold strconv.roundFloat64 at h
  by_cases hn0 : n = 0
  · rw [if_pos hn0] at h
    cases h
    exact Or.inl rfl
  rw [if_neg hn0] at h
  dsimp only at h
  have hq : -53 ≤ max ((if strconv.geTwoPow n 1 ((strconv.log2 n : Int) - (strconv.log2 1 : Int))
      = true then (strconv.log2 n : Int) - (strconv.log2 1 : Int)
      else (strconv.log2 n : Int) - (strconv.log2 1 : Int) - 1) - 52) (-1074) := by
    refine le_max_of_le_left ?_
    rw [log2_one]
    split <;> omega
  generalize max ((if strconv.geTwoPow n 1 ((strconv.log2 n : Int) - (strconv.log2 1 : Int))
      = true then (strconv.log2 n : Int) - (strconv.log2 1 : Int)
      else (strconv.log2 n : Int) - (strconv.log2 1 : Int) - 1) - 52) (-1074) = q at h hq
  generalize hn' : (if 0 ≤ q then n else n * 2 ^ (-q).toNat) = n' at h
  generalize hd' : (if 0 ≤ q then 1 * 2 ^ q.toNat else 1) = d' at h
  generalize hm' : (if d' < 2 * (n' % d') ∨ 2 * (n' % d') = d' ∧ n' / d' % 2 = 1
    then n' / d' + 1 else n' / d') = m' at h
  have hV : m' * 2 ^ (q + 53).toNat ≤ 2 ^ 116 := by
    by_cases hq0 : 0 ≤ q
    · rw [if_pos hq0] at hn' hd'
      rw [Nat.one_mul] at hd'
      subst hn' hd'
      have hb := round_nat_bound n q.toNat m' hn (by
        rw [← hm']
        split
        · rename_i hc
          exact Or.inr ⟨rfl, hc⟩
        · exact Or.inl rfl)
      have he : (q + 53).toNat = q.toNat + 53 := by omega
      rw [he, pow_add, ← Nat.mul_assoc]
      calc m' * 2 ^ q.toNat * 2 ^ 53 ≤ 2 ^ 63 * 2 ^ 53 := Nat.mul_le_mul_right _ hb
        _ = 2 ^ 116 := by norm_num
    · rw [if_neg hq0] at hn' hd'
      subst hd'
      rw [Nat.mod_one, Nat.div_one, if_neg (by omega)] at hm'
      subst hm' hn'
      have he : (-q).toNat + (q + 53).toNat = 53 := by omega
      rw [Nat.mul_assoc, ← pow_add, he]
      calc n * 2 ^ 53 ≤ 2 ^ 63 * 2 ^ 53 := Nat.mul_le_mul_right _ hn
        _ = 2 ^ 116 := by norm_num
  by_cases h53 : m' = 2 ^ 53
  · rw [if_pos h53] at h
    by_cases hlt : q + 1 + 52 < 1024
    · rw [if_pos hlt] at h
      cases h
      refine Or.inr ⟨by show -53 ≤ q + 1; omega, ?_⟩
      show 2 ^ 52 * 2 ^ (q + 1 + 53).toNat ≤ 2 ^ 116
      have he : (q + 1 + 53).toNat = 1 + (q + 53).toNat := by omega
      rw [he, pow_add, ← Nat.mul_assoc]
      rw [h53] at hV
      exact hV
    · rw [if_neg hlt] at h
      cases h
  · rw [if_neg h53] at h
    by_cases hz : m' = 0
    · rw [if_pos hz] at h
      cases h
      exact Or.inl rfl
    · rw [if_neg hz] at h
      by_cases hlt : q + 52 < 1024
      · rw [if_pos hlt] at h
        cases h
        exact Or.inr ⟨hq, hV⟩
      · rw [if_neg hlt] at h
        cases h

end formatter

namespace formatter

theorem eq_false_of_large (f b : Float64) (he : 0 ≤ f.exp)
    (hbig : 2 ^ 63 < f.mant * 2 ^ f.exp.toNat)
    (hb : b.mant = 0 ∨ (-53 ≤ b.exp ∧ b.mant * 2 ^ (b.exp + 53).toNat ≤ 2 ^ 116)) :
    f.eq b = false := by
  have hf0 : f.mant ≠ 0 := by
    intro h0
    rw [h0, Nat.zero_mul] at hbig
    exact absurd hbig (by decide)
  unfold Float64.eq
  rcases hb with hb0 | ⟨hbe, hbv⟩
  · rw [if_pos (Or.inr hb0)]
    exact decide_eq_false (fun h => hf0 h.1)
  · by_cases hc : f.mant = 0 ∨ b.mant = 0
    · rw [if_pos hc]
      exact decide_eq_false (fun h => hf0 h.1)
    · rw [if_neg hc]
      refine decide_eq_false (fun h => ?_)
      have hAB := h.2
      have hμ : -53 ≤ min f.exp b.exp := le_min (by omega) hbe
      have hA : f.mant * 2 ^ (f.exp - min f.exp b.exp).toNat * 2 ^ (min f.exp b.exp + 53).toNat
          = f.mant * 2 ^ f.exp.toNat * 2 ^ 53 := by
        rw [Nat.mul_assoc, Nat.mul_assoc, ← pow_add, ← pow_add]
        congr 2
        omega
      have hB : b.mant * 2 ^ (b.exp - min f.exp b.exp).toNat * 2 ^ (min f.exp b.exp + 53).toNat
          = b.mant * 2 ^ (b.exp + 53).toNat := by
        rw [Nat.mul_assoc, ← pow_add]
        congr 2
        have := min_le_right f.exp b.exp
        omega
      rw [hAB, hB] at hA
      have h116 : 2 ^ 63 * 2 ^ 53 < f.mant * 2 ^ f.exp.toNat * 2 ^ 53 :=
        Nat.mul_lt_mul_of_pos_right hbig (by decide)
      rw [← hA] at h116
      have h2 : (2 : Nat) ^ 63 * 2 ^ 53 = 2 ^ 116 := by norm_num
      omega

theorem ofInt64_bound (r : Int) (hr : r.natAbs ≤ 2 ^ 63) :
    (Float64.ofInt64 r).mant = 0 ∨
      (-53 ≤ (Float64.ofInt64 r).exp ∧
        (Float64.ofInt64 r).mant * 2 ^ ((Float64.ofInt64 r).exp + 53).toNat ≤ 2 ^ 116) := by
  unfold Float64.ofInt64
  cases hres : strconv.roundFloat64 (decide (r < 0)) r.natAbs 1 with
  | none => exact Or.inl rfl
  | some b => exact roundFloat64_bound _ _ hr b hres

theorem toInt64_large (X : Extern) (f : Float64) (he : 0 ≤ f.exp)
    (hbig : 2 ^ 63 < f.mant * 2 ^ f.exp.toNat) : (f.toInt64 X).natAbs ≤ 2 ^ 63 := by
  unfold Float64.toInt64
  have hout : ¬ (-(2 ^ 63 : Int) ≤ f.trunc ∧ f.trunc < 2 ^ 63) := by
    unfold Float64.trunc
    dsimp only
    rw [if_pos he]
    have hc : (2 ^ 63 : Int) < ((f.mant * 2 ^ f.exp.toNat : Nat) : Int) := by
      exact_mod_cast hbig
    generalize ((f.mant * 2 ^ f.exp.toNat : Nat) : Int) = N at hc
    split <;> omega
  rw [if_neg hout]
  have h1 := Int.emod_nonneg (X.int64OutOfRange f + 2 ^ 63) (show (2 ^ 64 : Int) ≠ 0 by decide)
  have h2 := Int.emod_lt_of_pos (X.int64OutOfRange f + 2 ^ 63) (show (0 : Int) < 2 ^ 64 by decide)
  omega

/-- C19: a number `mant * 2 ^ exp` with `exp ≥ 0` is mathematically an integer; when its
magnitude is above `2 ^ 63`, `formatValue` does not print it in the `%.0f` form without
decimal point but hands it to the `%g` verb, whatever `int64` the conversion `int64(val)`
gives out of range: `float64(int64(val))` has magnitude at most `2 ^ 63` and so differs
from `val`. -/
theorem formatValue_large (X : Extern) (f : Float64) (indent : Nat) (he : 0 ≤ f.exp)
    (hbig : 2 ^ 63 < f.mant * 2 ^ f.exp.toNat) :
    formatValue X (.num f) indent = X.numberStyle (X.formatG f) := by
  show formatNumber X f = _
  unfold formatNumber
  rw [eq_false_of_large f _ he hbig (ofInt64_bound _ (toInt64_large X f he hbig))]
  rfl

end formatter

namespace formatter

set_option exponentiation.threshold 2000 in
set_option maxRecDepth 100000 in
/-- C19 at the number 1.5e300, which `encoding/json` reads as `5043654821435445 * 2 ^ 945`:
with `%g` standing for the text of the `%g` verb, `formatValue` gives `%g`, while the number
3 is printed as "3". -/
theorem formatValue_large_witness :
    json.number ['1', '.', '5', 'e', '3', '0', '0'] = some ⟨false, 5043654821435445, 945⟩ ∧
    (0 : Int) ≤ 945 ∧ 2 ^ 63 < 5043654821435445 * 2 ^ (945 : Int).toNat ∧
    formatValue ({ plainExtern with formatG := fun _ => ['%', 'g'] } : Extern)
      (.num ⟨false, 5043654821435445, 945⟩) 0 = ['%', 'g'] ∧
    formatValue ({ plainExtern with formatG := fun _ => ['%', 'g'] } : Extern)
      (.num ⟨false, 3, 0⟩) 0 = ['3'] :=
  ⟨by decide, by decide, by decide,
    formatValue_large ({ plainExtern with formatG := fun _ => ['%', 'g'] } : Extern)
      ⟨false, 5043654821435445, 945⟩ 0 (by decide) (by decide),
    by decide⟩

end formatter

/-! ## Selection at a negative viewport height -/

namespace ui

open parser formatter

theorem setYOffset_max (v : viewport.Model) :
    v.SetYOffset v.maxYOffset = v.GotoBottom := by
  have h0 : 0 ≤ v.maxYOffset := le_max_left _ _
  unfold viewport.Model.SetYOffset viewport.Model.GotoBottom
  congr 1
  unfold viewport.clamp
  rw [if_neg (by omega)]
  show min v.maxYOffset (max 0 v.maxYOffset) = v.maxYOffset
  omega

theorem gotoBottomChecked_some (v v' : viewport.Model) (h : v.GotoBottomChecked = some v') :
    v' = v.GotoBottom := by
  unfold viewport.Model.GotoBottomChecked at h
  dsimp only at h
  rw [setYOffset_max] at h
  split at h
  · cases h
  · exact (Option.some.inj h).symm

theorem visibleLines_gotoBottom (v : viewport.Model) :
    v.GotoBottom.visibleLines = none ↔ (0 < v.lineCount ∧ v.Height < 0) := by
  have hlc : v.GotoBottom.lineCount = v.lineCount := rfl
  have hH : v.GotoBottom.Height = v.Height := rfl
  have hy : v.GotoBottom.YOffset = max 0 (v.lineCount - v.Height) := rfl
  unfold viewport.Model.visibleLines
  rw [hlc, hH, hy]
  by_cases hl : v.lineCount > 0
  · rw [if_pos hl]
    dsimp only
    unfold viewport.clamp viewport.sliceInRange
    by_cases hneg : v.Height < 0
    · have hsw : v.lineCount < max 0 (max 0 (v.lineCount - v.Height)) := by omega
      rw [if_pos hsw]
      have hdec : ¬ (0 ≤ max 0 (max 0 (v.lineCount - v.Height)) ∧
          max 0 (max 0 (v.lineCount - v.Height)) ≤
            min (max 0 (max 0 (v.lineCount - v.Height)))
              (max v.lineCount (max 0 (v.lineCount - v.Height) + v.Height)) ∧
          min (max 0 (max 0 (v.lineCount - v.Height)))
              (max v.lineCount (max 0 (v.lineCount - v.Height) + v.Height)) ≤ v.lineCount) := by
        omega
      rw [decide_eq_false hdec]
      exact ⟨fun _ => ⟨hl, hneg⟩, fun _ => rfl⟩
    · have hsw : ¬ v.lineCount < max 0 (max 0 (v.lineCount - v.Height)) := by omega
      rw [if_neg hsw]
      have hdec : (0 ≤ max 0 (max 0 (v.lineCount - v.Height)) ∧
          max 0 (max 0 (v.lineCount - v.Height)) ≤
            min v.lineCount
              (max (max 0 (max 0 (v.lineCount - v.Height)))
                (max 0 (v.lineCount - v.Height) + v.Height)) ∧
          min v.lineCount
              (max (max 0 (max 0 (v.lineCount - v.Height)))
                (max 0 (v.lineCount - v.Height) + v.Height)) ≤ v.lineCount) := by
        omega
      rw [decide_eq_true hdec]
      exact ⟨fun h => (by cases h), fun h => absurd h.2 hneg⟩
  · rw [if_neg hl]
    exact ⟨fun h => (by cases h), fun h => absurd h.1 hl⟩

theorem gotoBottomChecked_eq (v : viewport.Model) :
    v.GotoBottomChecked = if 0 < v.lineCount ∧ v.Height < 0 then none else some v.GotoBottom := by
  unfold viewport.Model.GotoBottomChecked
  dsimp only
  rw [setYOffset_max]
  by_cases h : 0 < v.lineCount ∧ v.Height < 0
  · rw [if_pos h, (visibleLines_gotoBottom v).2 h]
  · rw [if_neg h]
    cases hv : v.GotoBottom.visibleLines with
    | none => exact absurd ((visibleLines_gotoBottom v).1 hv) h
    | some p => rfl

end ui

namespace ui

open parser formatter

theorem setContent_height (v : viewport.Model) (s : GoString) :
    (v.SetContent s).Height = v.Height := by
  unfold viewport.Model.SetContent
  dsimp only
  split <;> rfl

theorem setContentChecked_eq (v : viewport.Model) (s : GoString) :
    v.SetContentChecked s = none ∨ v.SetContentChecked s = some (v.SetContent s) := by
  unfold viewport.Model.SetContentChecked viewport.Model.SetContent
  dsimp only
  split
  · rw [gotoBottomChecked_eq]
    split
    · exact Or.inl rfl
    · exact Or.inr rfl
  · exact Or.inr rfl

theorem setContentChecked_nonneg (v : viewport.Model) (s : GoString) (h : 0 ≤ v.Height) :
    v.SetContentChecked s = some (v.SetContent s) := by
  unfold viewport.Model.SetContentChecked viewport.Model.SetContent
  dsimp only
  split
  · rw [gotoBottomChecked_eq, if_neg (fun hc => absurd hc.2 (not_lt.2 h))]
  · rfl

theorem updateViewportContentChecked_eq (X : Extern) (m : Model) :
    ∃ content : GoString,
      m.updateViewportContent X = { m with viewport := m.viewport.SetContent content } ∧
      m.updateViewportContentChecked X
        = (match m.viewport.SetContentChecked content with
          | none => .error .panic
          | some v => .ok { m with viewport := v }) := by
  unfold Model.updateViewportContent Model.updateViewportContentChecked
  by_cases h : m.selectedContainer = []
  · rw [if_pos h, if_pos h]
    exact ⟨_, rfl, rfl⟩
  · rw [if_neg h, if_neg h]
    exact ⟨_, rfl, rfl⟩

/-- C18 fails at a negative viewport height, which a window of fewer than four rows gives
(`m.height - 4`): with the selected index in range, `updateSelectedContainer`, which every
selection movement calls, does not return. Its call of `GotoBottom` (or the one inside
`SetContent`) sets the offset to `len(lines) - Height`, beyond the lines, and `visibleLines`
panics on the slice (slice bounds out of range). At a height that is not negative there is
no panic and the method returns the model of `updateSelectedContainer`. -/
theorem selection_fault (X : Extern) (m : Model) (h0 : 0 ≤ m.selectedIndex)
    (hlt : m.selectedIndex < m.store.Containers.length) :
    (m.viewport.Height < 0 → m.updateSelectedContainerChecked X = .error .panic) ∧
    (0 ≤ m.viewport.Height →
      m.updateSelectedContainerChecked X = m.updateSelectedContainer X) := by
  obtain ⟨c, hc, _⟩ := index_ok m.store.Containers m.selectedIndex h0 hlt
  obtain ⟨content, hu, hchk⟩ := updateViewportContentChecked_eq X
    ({ m with selectedContainer := c, filter := [] } : Model)
  have hsel := updateSelectedContainer_in X m c hlt hc
  have hdef : m.updateSelectedContainerChecked X
      = (match ({ m with selectedContainer := c, filter := [] } :
            Model).updateViewportContentChecked X with
        | .error e => .error e
        | .ok m =>
          match m.viewport.GotoBottomChecked with
          | none => .error .panic
          | some v => .ok { m with viewport := v }) := by
    unfold Model.updateSelectedContainerChecked
    dsimp only
    rw [if_pos hlt, hc]
  rw [hdef, hchk, hsel, hu]
  constructor
  · intro hH
    rcases setContentChecked_eq m.viewport content with hs | hs
    · rw [hs]
    · rw [hs]
      dsimp only
      have hcond : 0 < (m.viewport.SetContent content).lineCount ∧
          (m.viewport.SetContent content).Height < 0 :=
        ⟨lineCount_pos _ content (setContent_content _ _), by rw [setContent_height]; exact hH⟩
      rw [gotoBottomChecked_eq, if_pos hcond]
  · intro hH
    rw [setContentChecked_nonneg _ _ hH]
    dsimp only
    rw [gotoBottomChecked_eq, if_neg ?_]
    intro hc'
    rw [setContent_height] at hc'
    omega

/-- C18 at `smallState`, the state reached from the initial one by the entries "x" of
container "a" and "y" of "b" and a window of 3 rows: the focus is on the list, the selected
index is 0 of 2 and the viewport height is -1; the key "down" calls
`updateSelectedContainer` with the index 1, and that call panics. -/
theorem selection_fault_witness :
    (New store.New).run plainExtern
      [.NewEntryMsg (plainEntry ['a'] ['x']), .NewEntryMsg (plainEntry ['b'] ['y']),
        .WindowSizeMsg 80 3] = .ok smallState ∧
    smallState.focus = .focusList ∧ smallState.selectedIndex = 0 ∧
    smallState.store.Containers = [['a'], ['b']] ∧ smallState.viewport.Height = -1 ∧
    smallState.updateNormalKey plainExtern ['d', 'o', 'w', 'n']
      = (Model.updateSelectedContainer plainExtern
          { smallState with selectedIndex := 1 }).map some ∧
    Model.updateSelectedContainerChecked plainExtern { smallState with selectedIndex := 1 }
      = .error .panic :=
  ⟨rfl, rfl, rfl, rfl, rfl, rfl,
    (selection_fault plainExtern { smallState with selectedIndex := 1 } (by decide)
      (by decide)).1 (by decide)⟩

end ui
